import Mathlib

/-!
Declaration, type and multi-file package compiler of c2go (package cl): shallow embedding
of `cl/multifiles.go`, `cl/pkginfo.go` and `cl/type_and_var.go`.

Conventions of the embedding.

* A Go panic (`log.Panicln`, `log.Panicf`, `panic`, a nil dereference) is `Except.error`
  carrying the message; a normal return is `Except.ok`.
* Mutable state reached through pointers (the context, the package, the scopes, the AST
  node whose name is rewritten) is passed explicitly and returned.
* Go maps are association lists; the order of a list stands for one possible iteration
  order of the map, and a nil map is `none`.
* Go `int` and `int64` are modelled by `Int` and `Nat` without wrap-around: the numbers that
  occur (enumerator values of C type int, the counter of generated names) stay far below
  `2 ^ 63`.
* gox (the code emitter) is recorded by its effects: the scopes of go/types with `Lookup`
  and `Insert` as documented there, the arena of type declarations, and the declarations
  it is asked to emit, each with the file it goes to.
* Code outside the three files (the type-string parser, the expression compiler, name
  mangling, reading files) is a parameter of the definitions that call it.
* A loop that the source does not bound (the retry of `toTypeEx`, the nesting of records
  and of initializer lists) takes a number of rounds `fuel`; running out is the error
  `outOfFuel`.
* A context of a session shares the counter, the set of seen symbols and the tables of the
  session through pointers (`p.base = &reused.base`): the context carries their values
  while it runs, and `Reused.after` is the session when the context is done.
* The host (`path/filepath`, `os.ReadFile`, `encoding/json`, `gopmod`) is the parameter
  `Host` and the state `FS` of the files; the calls on the code builder made for an
  initializer are recorded as a list of `CbCall`, in the order they are made.
-/

namespace C2go

/-! ## AST nodes (clang/ast) -/

/-- Node of the clang AST, `ast.Node`, with the fields the declaration compiler reads.
`QualType` is `Type.QualType`, `PresumedFile` is `Loc.PresumedFile`, `Value` is the text of
a literal. -/
structure Node where
  Kind : String := ""
  Name : String := ""
  QualType : String := ""
  TagUsed : String := ""
  StorageClass : String := ""
  PresumedFile : String := ""
  IsBitfield : Bool := false
  IsImplicit : Bool := false
  CompleteDefinition : Bool := false
  Value : String := ""
  ArrayFiller : List Node := []
  Inner : List Node := []
deriving Repr

/-- `ast.Extern`. -/
def Extern : String := "extern"

/-- `ast.Static`. -/
def Static : String := "static"

/-- `ast.IntegerLiteral`. -/
def IntegerLiteral : String := "IntegerLiteral"

/-! ## Constants (go/constant) -/

/-- Representations of `constant.Value` that `constant.Int64Val` distinguishes. -/
inductive Value where
  | int64Val (x : Int)
  | intVal (x : Int)
  | unknownVal
  | otherVal (descr : String)
deriving Repr, DecidableEq

/-- `constant.Int64Val`: the value and whether it is exact; a value that is no Int panics. -/
def Int64Val : Value → Except String (Int × Bool)
  | .int64Val x => .ok (x, true)
  | .intVal x => .ok (x, false)
  | .unknownVal => .ok (0, false)
  | .otherVal d => .error (d ++ " not an Int")

/-- Element on the operand stack of the code builder: `CVal` is nil for a non-constant. -/
structure Element where
  CVal : Option Value
deriving Repr, DecidableEq

/-! ## Types, objects and scopes (go/types, gox.NewSubst) -/

/-- Go types (go/types), as far as the declaration compiler looks into them. A named type
is identified by the index of its type declaration in the arena of the package. -/
inductive GoType where
  | basic (name : String)
  | pointer (elem : GoType)
  | array (elem : GoType) (len : Int)
  | signature (descr : String)
  | struct (fields : List (String × GoType × Bool))
  | union (fields : List (String × GoType × Bool))
  | bitfield (elem : GoType) (bits : Int)
  | named (decl : Nat)
deriving Repr

/-- `types.NewStruct(nil, nil)`, the empty struct. -/
def GoType.emptyStruct : GoType := .struct []

/-- Object of a scope. `decl` is a real declaration (`kind` is var, func, const or type);
`subst` is the variable `gox.NewSubst` makes, whose type is `*gox.SubstType` with `Real` the
object the name redirects to (possibly nil). -/
inductive Object where
  | decl (kind : String) (name : String) (typ : GoType)
  | subst (name : String) (Real : Option Object)
deriving Repr

/-- `Object.Name`. -/
def Object.Name : Object → String
  | .decl _ name _ => name
  | .subst name _ => name

/-- The type assertion `obj.Type().(*gox.SubstType)` succeeds. -/
def Object.isSubst : Object → Bool
  | .decl _ _ _ => false
  | .subst _ _ => true

/-- `gox.NewSubst(pos, pkg, name, real)`. -/
def NewSubst (name : String) (real : Option Object) : Object :=
  .subst name real

/-- Scope of go/types: the objects it holds, at most one per name. -/
abbrev Scope := List Object

/-- `Scope.Lookup`: the object of that name in this scope (parents are not searched). -/
def Scope.Lookup (s : Scope) (name : String) : Option Object :=
  s.find? (fun o => o.Name == name)

/-- `Scope.Insert`: when the scope already holds an object of that name the scope is left
unchanged and that object is returned, otherwise the object is inserted and nil returned. -/
def Scope.Insert (s : Scope) (obj : Object) : Option Object × Scope :=
  match s.Lookup obj.Name with
  | some alt => (some alt, s)
  | none => (none, s ++ [obj])

/-- The assignment `t.Real = real` on the substitution the scope holds under `name`: the
object stays where it is, its target changes. -/
def Scope.setReal (s : Scope) (name : String) (real : Option Object) : Scope :=
  s.map (fun o =>
    match o with
    | .subst n r => if n == name then .subst n real else .subst n r
    | .decl k n t => .decl k n t)

/-! ## The emitter (gox) -/

/-- `gox.TyState`, with the underlying type of an initialised declaration. -/
inductive TyState where
  | TyStateUninited
  | TyStateInited (underlying : GoType)
  | TyStateDeleted
deriving Repr

/-- `gox.TypeDecl`: a declared named type and its state. -/
structure TypeDecl where
  name : String
  state : TyState
deriving Repr

/-- Statement of an emitted function body. -/
inductive Stmt where
  | callPanic (arg : String)
deriving Repr, DecidableEq

/-- Declaration the emitter was asked to put into a file. -/
inductive Decl where
  | constDecl (name : String) (typ : GoType) (val : Element)
  | typeDecl (name : String) (underlying : GoType)
  | funcDecl (name : String) (sig : GoType) (body : List Stmt)
  | varDecl (name : String) (typ : GoType)
  | blankAssign (name : String)
deriving Repr

namespace gox

/-- State of `gox.Package`. `scopes` is the chain of open scopes, innermost first: its head
is `cb.Scope()`, its last element is `pkg.Types.Scope()` (at top level they are the same
scope). `tdecls` is the arena of type declarations: a `*gox.TypeDecl` is an index into it.
`files` are the names of the files that exist, `curFile` the current one, `emitted` the
declarations emitted so far, each with the file it went to. -/
structure Package where
  scopes : List Scope := [[]]
  tdecls : List TypeDecl := []
  files : List String := [""]
  curFile : String := ""
  emitted : List (String × Decl) := []
deriving Repr

/-- `Package.File(fname)`: whether the file exists. -/
def Package.File (pkg : Package) (fname : String) : Bool :=
  pkg.files.contains fname

/-- `Package.SetCurFile(fname, true)`: makes `fname` the current file, creating it when it
does not exist; returns the previous current file. -/
def Package.SetCurFile (pkg : Package) (fname : String) : String × Package :=
  (pkg.curFile,
    { pkg with
      files := if pkg.File fname then pkg.files else pkg.files ++ [fname]
      curFile := fname })

/-- `Package.RestoreCurFile(old)`. -/
def Package.RestoreCurFile (pkg : Package) (old : String) : Package :=
  { pkg with curFile := old }

/-- Records a declaration emitted into the current file. -/
def Package.emit (pkg : Package) (d : Decl) : Package :=
  { pkg with emitted := pkg.emitted ++ [(pkg.curFile, d)] }

/-- Declarations emitted so far into file `fname`, in order. -/
def Package.declsOf (pkg : Package) (fname : String) : List Decl :=
  (pkg.emitted.filter (fun d => d.1 == fname)).map (fun d => d.2)

/-- Position of `pkg.Types.Scope()` in the chain of scopes. -/
def Package.typesScope (pkg : Package) : Nat :=
  pkg.scopes.length - 1

/-- The scope at a position of the chain. -/
def Package.scopeAt (pkg : Package) (i : Nat) : Scope :=
  pkg.scopes.getD i []

/-- Stores a scope at a position of the chain. -/
def Package.setScope (pkg : Package) (i : Nat) (s : Scope) : Package :=
  { pkg with scopes := pkg.scopes.set i s }

/-- `TypeDecl.State` of the declaration with handle `h` (a dangling handle is a nil
pointer). -/
def Package.State (pkg : Package) (h : Nat) : Option TyState :=
  pkg.tdecls[h]?.map (fun d => d.state)

/-- `TypeDecl.InitType(pkg, typ)` on the declaration with handle `h`: gives the declared
type its underlying type and puts the type declaration into the current file. Only an
uninitialised declaration can be initialised. -/
def Package.InitType (pkg : Package) (h : Nat) (typ : GoType) : Except String Package :=
  match pkg.tdecls[h]? with
  | some ⟨name, .TyStateUninited⟩ =>
    .ok ({ pkg with tdecls := pkg.tdecls.set h ⟨name, .TyStateInited typ⟩ }.emit
      (.typeDecl name typ))
  | some ⟨_, .TyStateInited _⟩ => .error "TODO: type already defined"
  | some ⟨_, .TyStateDeleted⟩ => .error "index out of range"
  | none => .error "nil pointer dereference"

/-- `cb.NewType(name)`: declares an uninitialised named type in `cb.Scope()` and returns its
handle; a name the scope already holds cannot be declared again. -/
def Package.NewType (pkg : Package) (name : String) : Except String (Nat × Package) :=
  let h := pkg.tdecls.length
  match (pkg.scopeAt 0).Insert (.decl "type" name (.named h)) with
  | (some _, _) => .error (name ++ " redeclared in this block")
  | (none, s) =>
    .ok (h, { pkg.setScope 0 s with tdecls := pkg.tdecls ++ [⟨name, .TyStateUninited⟩] })

end gox

/-! ## Contexts (multifiles.go) -/

/-- `PkgInfo`: `typdecls` maps a mangled aggregate name to its type declaration (a handle into
`gox.Package.tdecls`), `extfns` is the set of external functions. A list stands for the map
in one of its iteration orders. -/
structure PkgInfo where
  typdecls : List (String × Nat) := []
  extfns : List String := []
deriving Repr

/-- `cl.Package`: the embedded gox package and the package info (nil without
`NeedPkgInfo`). -/
structure Package extends gox.Package where
  pi : Option PkgInfo := none
deriving Repr

/-- The struct `multiFileCtl` with its embedded `PkgInfo`. `exists_` is the set of header
symbols seen in this session (none is the nil map of single-file mode), `base` is the cell
`*p.base`, shared by the contexts of one session. -/
structure multiFileCtl extends PkgInfo where
  incs : List (String × Nat) := []
  exists_ : Option (List String) := none
  base : Nat := 0
  baseDir : String := ""
  hasMulti : Bool := false
  inHeader : Bool := false
  inDepPkg : Bool := false
  skipLibcH : Bool := false
deriving Repr

/-- The struct `blockCtx`: the multi-file controller and the package being built. -/
structure blockCtx extends multiFileCtl where
  pkg : gox.Package := {}
deriving Repr

/-- Lookup in a Go map given as an association list. -/
def mapGet (m : List (String × Nat)) (key : String) : Option Nat :=
  (m.find? (fun e => e.1 == key)).map (fun e => e.2)

/-- Assignment `m[key] = v` in a Go map given as an association list. -/
def mapSet (m : List (String × Nat)) (key : String) (v : Nat) : List (String × Nat) :=
  if (mapGet m key).isSome then m.map (fun e => if e.1 == key then (key, v) else e)
  else m ++ [(key, v)]

/-- `blockCtx.checkExists`. Reading a nil map finds nothing; writing to it panics. -/
def checkExists (p : blockCtx) (name : String) : Except String (Bool × blockCtx) :=
  if p.inHeader then
    match p.exists_ with
    | none => .error "assignment to entry in nil map"
    | some m =>
      if m.contains name then .ok (true, p)
      else .ok (false, { p with exists_ := some (name :: m) })
  else .ok (false, p)

/-- Calls of `checkExists` made in turn during one session, each given with the value
`logFile` set `inHeader` to for the declaration being compiled; returns the results. -/
def checkExistsAll : blockCtx → List (Bool × String) → Except String (List Bool × blockCtx)
  | p, [] => .ok ([], p)
  | p, call :: calls =>
    match checkExists { p with inHeader := call.1 } call.2 with
    | .error msg => .error msg
    | .ok (r, p1) =>
      match checkExistsAll p1 calls with
      | .error msg => .error msg
      | .ok (rs, p2) => .ok (r :: rs, p2)

/-! ## Generated names (multifiles.go) -/

/-- `strconv.Itoa` on a non-negative int: the decimal digits. -/
def Itoa (n : Nat) : String := Nat.repr n

/-- Kind `suNormal` of an aggregate name. -/
def suNormal : Nat := 0

/-- Kind `suAnonymous` of an aggregate name. -/
def suAnonymous : Nat := 1

/-- `blockCtx.getSuName`. `MangledName` is `ctypes.MangledName`, a parameter. -/
def getSuName (MangledName : String → String → String) (p : blockCtx) (v : Node)
    (tag : String) : (String × Nat) × blockCtx :=
  if v.Name ≠ "" then ((MangledName tag v.Name, suNormal), p)
  else
    let p1 : blockCtx := { p with base := p.base + 1 }
    (("_cgoa_" ++ Itoa p1.base, suAnonymous), p1)

/-- `blockCtx.autoStaticName`. -/
def autoStaticName (p : blockCtx) (name : String) : String × blockCtx :=
  let p1 : blockCtx := { p with base := p.base + 1 }
  (name ++ "_cgo" ++ Itoa p1.base, p1)

/-- A call that may generate a name. -/
inductive NameCall where
  | getSuName (v : Node) (tag : String)
  | autoStaticName (name : String)

/-- Calls made in turn in one session, each by a context of its own: the contexts share the
cell of the counter (`p.base = &reused.base`), so each call starts from the value the call
before it left. Returns the names generated from the counter, in order, and the final
value of the counter. -/
def nameCalls (MangledName : String → String → String) :
    Nat → List (blockCtx × NameCall) → List String × Nat
  | base, [] => ([], base)
  | base, (p, .getSuName v tag) :: calls =>
    let r := getSuName MangledName { p with base := base } v tag
    let rest := nameCalls MangledName r.2.base calls
    (if r.1.2 = suAnonymous then r.1.1 :: rest.1 else rest.1, rest.2)
  | base, (p, .autoStaticName name) :: calls =>
    let r := autoStaticName { p with base := base } name
    let rest := nameCalls MangledName r.2.base calls
    (r.1 :: rest.1, rest.2)

/-- The longest suffix of decimal digits. -/
def trailingDigits (s : List Char) : List Char :=
  (s.reverse.takeWhile Char.isDigit).reverse

/-! ## Substitutions and dependencies -/

/-- `substObj(pkg, scope, static, scope2, name)`: `scope` and `scope2` are the states of
the two scopes (the same state when they are one scope); the result is the new state of
`scope`. -/
def substObj (scope : Scope) (static : String) (scope2 : Scope) (name : String) :
    Except String Scope :=
  let real := scope2.Lookup name
  match scope.Insert (NewSubst static real) with
  | (none, scope1) => .ok scope1
  | (some old, scope1) =>
    if old.isSubst then .ok (scope1.setReal static real)
    else .error (static ++ " redefined\n")

/-- `pubName`: a manifest entry, the source name and the exported name. -/
structure pubName where
  name : String
  goName : String
deriving Repr, DecidableEq

/-- `depPkg`: a dependency and its manifest. -/
structure depPkg where
  path : String
  pubs : List pubName
deriving Repr, DecidableEq

/-- `depPkgs`. -/
structure depPkgs where
  pkgs : List depPkg := []
  incs : List (String × Nat) := []
  loaded : Bool := false
  skipLibcH : Bool := false
deriving Repr

/-- Message of the panic in `initDepPkgs`; `old` is the previous definition as `%v` prints
it. -/
def conflictedName (name path old : String) : String :=
  "conflicted name `" ++ name ++ "` in " ++ path ++ ", previous definition is " ++ old ++ "\n"

/-- The inner loop of `initDepPkgs` over the manifest of one dependency. `Ref path goName`
is `pkg.Import(path).Ref(goName)`, `fmt` is how `%v` prints an object. -/
def importPubs (Ref : String → String → Option Object) (fmt : Object → String)
    (path : String) : Scope → List pubName → Except String Scope
  | scope, [] => .ok scope
  | scope, pub :: pubs =>
    match scope.Insert (NewSubst pub.name (Ref path pub.goName)) with
    | (some old, _) => .error (conflictedName pub.name path (fmt old))
    | (none, scope1) => importPubs Ref fmt path scope1 pubs

/-- The outer loop of `initDepPkgs` over the dependencies. -/
def importDeps (Ref : String → String → Option Object) (fmt : Object → String) :
    Scope → List depPkg → Except String Scope
  | scope, [] => .ok scope
  | scope, dep :: deps =>
    match importPubs Ref fmt dep.path scope dep.pubs with
    | .error msg => .error msg
    | .ok scope1 => importDeps Ref fmt scope1 deps

/-- `initDepPkgs(pkg, deps)`: imports every manifest entry into `pkg.Types.Scope()`. -/
def initDepPkgs (Ref : String → String → Option Object) (fmt : Object → String)
    (pkg : gox.Package) (deps : depPkgs) : Except String gox.Package :=
  match importDeps Ref fmt (pkg.scopeAt pkg.typesScope) deps.pkgs with
  | .error msg => .error msg
  | .ok scope => .ok (pkg.setScope pkg.typesScope scope)

/-- The manifest entries in the order `initDepPkgs` imports them, each with the path of its
dependency. -/
def depPkgs.entries (deps : List depPkg) : List (String × pubName) :=
  deps.flatMap (fun dep => dep.pubs.map (fun pub => (dep.path, pub)))

/-- The substitution `initDepPkgs` inserts for a manifest entry. -/
def entrySubst (Ref : String → String → Option Object) (e : String × pubName) : Object :=
  NewSubst e.2.name (Ref e.1 e.2.goName)

/-- The two loops of `initDepPkgs` run as one loop over the entries. -/
def importEntries (Ref : String → String → Option Object) (fmt : Object → String) :
    Scope → List (String × pubName) → Except String Scope
  | scope, [] => .ok scope
  | scope, e :: es =>
    match scope.Insert (entrySubst Ref e) with
    | (some old, _) => .error (conflictedName e.2.name e.1 (fmt old))
    | (none, scope1) => importEntries Ref fmt scope1 es

/-! ## Dependencies file (pkginfo.go) -/

/-- The constant `depsFile`. -/
def depsFile : String := "deps"

/-- `sort.Strings`: ascending order of the strings, compared character by character (for
well-formed UTF-8 the order of the bytes is the order of the code points). -/
def sortStrings (l : List String) : List String :=
  l.insertionSort (fun a b => a.data ≤ b.data)

/-- The first loop of `InitDependencies`: the names of the type table whose declaration is
in state `TyStateUninited`, in the iteration order of the map. -/
def uninitedNames (pkg : gox.Package) : List (String × Nat) → Except String (List String)
  | [] => .ok []
  | (name, tdecl) :: rest =>
    match pkg.State tdecl with
    | none => .error "nil pointer dereference"
    | some st =>
      match uninitedNames pkg rest with
      | .error msg => .error msg
      | .ok uds =>
        match st with
        | .TyStateUninited => .ok (name :: uds)
        | _ => .ok uds

/-- The loop `for _, us := range uds`: completes each of the types as the empty struct. -/
def initTypes (typdecls : List (String × Nat)) :
    gox.Package → List String → Except String gox.Package
  | pkg, [] => .ok pkg
  | pkg, us :: uds =>
    match mapGet typdecls us with
    | none => .error "nil pointer dereference"
    | some tdecl =>
      match pkg.InitType tdecl GoType.emptyStruct with
      | .error msg => .error msg
      | .ok pkg1 => initTypes typdecls pkg1 uds

/-- The signature `scope.Lookup(uf).Type().(*types.Signature)`; a name that is not in the
scope or has another type panics. -/
def lookupSignature (scope : Scope) (uf : String) : Except String GoType :=
  match scope.Lookup uf with
  | none => .error "nil pointer dereference"
  | some (.decl _ _ (.signature descr)) => .ok (.signature descr)
  | some _ => .error "interface conversion: types.Type is not *types.Signature"

/-- The loop `for _, uf := range extfns`: `pkg.NewFuncWith` declares the function (its name
is in the scope already, with this signature) and the body is the one statement
`panic("notimpl")`. -/
def stubFuncs (scope : Scope) : gox.Package → List String → Except String gox.Package
  | pkg, [] => .ok pkg
  | pkg, uf :: extfns =>
    match lookupSignature scope uf with
    | .error msg => .error msg
    | .ok sig => stubFuncs scope (pkg.emit (.funcDecl uf sig [.callPanic "notimpl"])) extfns

/-- `Package.InitDependencies`. -/
def InitDependencies (p : Package) : Except String Package :=
  match p.pi with
  | none => .error "Please set conf.NeedPkgInfo = true"
  | some pi =>
    if p.File depsFile then .ok p
    else
      match uninitedNames p.toPackage pi.typdecls with
      | .error msg => .error msg
      | .ok names =>
        let uds := sortStrings names
        let extfns := sortStrings pi.extfns
        let (old, pkg) := p.toPackage.SetCurFile depsFile
        let scope := pkg.scopeAt pkg.typesScope
        match initTypes pi.typdecls pkg uds with
        | .error msg => .error msg
        | .ok pkg1 =>
          match stubFuncs scope pkg1 extfns with
          | .error msg => .error msg
          | .ok pkg2 => .ok { p with toPackage := pkg2.RestoreCurFile old }

/-- `Package.WriteDepTo`: initialises the dependencies and writes the deps file to the
sink; the value written is the list of its declarations. -/
def WriteDepTo (p : Package) : Except String (List Decl × Package) :=
  match InitDependencies p with
  | .error msg => .error msg
  | .ok p1 => .ok (p1.declsOf depsFile, p1)

/-- `Package.WriteDepFile`: as `WriteDepTo`, into a named file. -/
def WriteDepFile (p : Package) (_ : String) : Except String (List Decl × Package) :=
  match InitDependencies p with
  | .error msg => .error msg
  | .ok p1 => .ok (p1.declsOf depsFile, p1)

/-- The type table of a package is well formed: a name occurs once (it is a map), each
declaration is entered once, and the declaration entered under a name is a declaration of
the arena with that name. -/
def tableOk (pkg : gox.Package) (typdecls : List (String × Nat)) : Prop :=
  (typdecls.map (fun e => e.1)).Nodup ∧ (typdecls.map (fun e => e.2)).Nodup ∧
  ∀ e ∈ typdecls, ∃ st, pkg.tdecls[e.2]? = some ⟨e.1, st⟩

/-- Whether the declaration with handle `h` is in state `TyStateUninited`. -/
def gox.Package.isUninited (pkg : gox.Package) (h : Nat) : Bool :=
  match pkg.State h with
  | some .TyStateUninited => true
  | _ => false

/-- The stub `InitDependencies` emits for an external function. -/
def stubOf (scope : Scope) (uf : String) : Decl :=
  match scope.Lookup uf with
  | some (.decl _ _ typ) => .funcDecl uf typ [.callPanic "notimpl"]
  | _ => .funcDecl uf (.signature "") [.callPanic "notimpl"]

/-! ## Type resolution (type_and_var.go) -/

namespace parser

/-- Error of `parser.ParseType`: `*parser.TypeNotFound` or any other error. -/
inductive Error where
  | TypeNotFound (Literal : String) (StructOrUnion : Bool)
  | other (msg : String)
deriving Repr

/-- `parser.Config`: `Scope` is the chain of scopes the type string is parsed against,
innermost first. -/
structure Config where
  Scope : List Scope
  Flags : Nat
  TyAnonym : Option GoType
deriving Repr

end parser

/-- A `*types.Scope` argument: a scope of the chain of open scopes, or a new empty scope
whose parent is a scope of the chain (`types.NewScope`). -/
inductive ScopeRef where
  | scope (i : Nat)
  | child (i : Nat)
deriving Repr

/-- The chain of scopes seen from a scope argument, innermost first. -/
def ScopeRef.chain (pkg : gox.Package) : ScopeRef → List Scope
  | .scope i => pkg.scopes.drop i
  | .child i => [] :: pkg.scopes.drop i

/-- Position in the chain of the scope that a scope argument denotes or has as parent. -/
def ScopeRef.index : ScopeRef → Nat
  | .scope i => i
  | .child i => i

/-- The parts of the compiler outside the three files: the type-string parser with its
flag and kind constants, the expression compiler, the name mangling, the public-name
rewriting, and the declaration of a variable with its initializer (`newVarAndInit`, whose
body rests on `blockCtx.newVar` and the initializer compiler). -/
structure Externals where
  ParseType : String → parser.Config → Except parser.Error (GoType × Nat)
  compileExpr : Node → Except String Element
  MangledName : String → String → String
  getPubName : blockCtx → String → String
  newVarAndInit : blockCtx → ScopeRef → GoType → Node → Bool → Except String blockCtx
  FlagIsField : Nat
  FlagIsTypedef : Nat
  FlagIsExtern : Nat
  KindFConst : Nat
  KindFVolatile : Nat
  KindFAnonymous : Nat

/-- Result of a loop that was cut off: the model of a loop that does not end. -/
def outOfFuel : String := "out of fuel"

/-- `toTypeEx`. The loop `retry:` runs at most `fuel` times. An undeclared struct or union
tag gets an opaque declaration in `cb.Scope()`, which is stored in the type table under the
tag, and the type string is parsed again. -/
def toTypeEx (E : Externals) :
    Nat → blockCtx → ScopeRef → Option GoType → String → Nat →
      Except String ((GoType × Nat) × blockCtx)
  | 0, _, _, _, _, _ => .error outOfFuel
  | fuel + 1, ctx, scope, tyAnonym, qualType, flags =>
    match E.ParseType qualType
        { Scope := scope.chain ctx.pkg, Flags := flags, TyAnonym := tyAnonym } with
    | .ok r => .ok (r, ctx)
    | .error (.TypeNotFound lit true) =>
      match ctx.pkg.NewType lit with
      | .error msg => .error msg
      | .ok (tdecl, pkg1) =>
        toTypeEx E fuel { ctx with pkg := pkg1, typdecls := mapSet ctx.typdecls lit tdecl }
          scope tyAnonym qualType flags
    | .error (.TypeNotFound lit false) =>
      .error ("toType: type " ++ lit ++ " not found - " ++ qualType ++ "\n")
    | .error (.other msg) => .error ("toType: " ++ msg ++ " - " ++ qualType ++ "\n")

/-- `checkAnonymous`: resolves the type of `v` with `typ` as the anonymous type; `ok` is the
bit `KindFAnonymous` of the kind. -/
def checkAnonymous (E : Externals) (fuel : Nat) (ctx : blockCtx) (scope : ScopeRef)
    (typ : GoType) (v : Node) : Except String ((GoType × Bool) × blockCtx) :=
  match toTypeEx E fuel ctx scope (some typ) v.QualType 0 with
  | .error msg => .error msg
  | .ok ((ret, kind), ctx1) => .ok ((ret, Nat.land kind E.KindFAnonymous != 0), ctx1)

/-- `avoidKeyword`, on the name. -/
def avoidKeyword (name : String) : String :=
  if name ∈ ["map", "type", "range", "chan", "var", "func", "go", "select",
      "defer", "package", "import", "interface", "fallthrough"] then name ++ "_"
  else name

/-- The keywords of Go (The Go Programming Language Specification, section Keywords). -/
def goKeywords : List String :=
  ["break", "default", "func", "interface", "select", "case", "defer", "go", "map", "struct",
    "chan", "else", "goto", "package", "switch", "const", "fallthrough", "if", "range", "type",
    "continue", "for", "import", "return", "var"]

/-- The keywords of C (ISO/IEC 9899:2011, 6.4.1). -/
def cKeywords : List String :=
  ["auto", "break", "case", "char", "const", "continue", "default", "do", "double", "else",
    "enum", "extern", "float", "for", "goto", "if", "inline", "int", "long", "register",
    "restrict", "return", "short", "signed", "sizeof", "static", "struct", "switch", "typedef",
    "union", "unsigned", "void", "volatile", "while", "_Alignas", "_Alignof", "_Atomic", "_Bool",
    "_Complex", "_Generic", "_Imaginary", "_Noreturn", "_Static_assert", "_Thread_local"]

/-! ## Aggregates (type_and_var.go) -/

/-- Modelled from the spec: the field descriptor of an aggregate builder, name, type,
bit width or none, and the flag of a promoted anonymous member. -/
structure FieldDesc where
  name : String
  typ : GoType
  bits : Option Int
  embedded : Bool
deriving Repr

/-- Modelled from the spec: `b.Field` appends a field descriptor. -/
def builderField (b : List FieldDesc) (typ : GoType) (name : String) (embedded : Bool) :
    List FieldDesc :=
  b ++ [{ name := name, typ := typ, bits := none, embedded := embedded }]

/-- Modelled from the spec: `b.BitField` appends a field descriptor with its bit width. -/
def builderBitField (b : List FieldDesc) (typ : GoType) (name : String) (bits : Int) :
    List FieldDesc :=
  b ++ [{ name := name, typ := typ, bits := some bits, embedded := false }]

/-- Modelled from the spec: the field list of the finalized composite type. -/
def builderFields (b : List FieldDesc) : List (String × GoType × Bool) :=
  b.map (fun d =>
    (d.name, (match d.bits with | none => d.typ | some n => GoType.bitfield d.typ n), d.embedded))

/-- Modelled from the spec: `toInt64` folds an expression to a constant integer and panics
with the given message otherwise. -/
def toInt64 (E : Externals) (v : Node) (emsg : String) : Except String Int :=
  match E.compileExpr v with
  | .ok ⟨some (.int64Val x)⟩ => .ok x
  | _ => .error (emsg ++ "\n")

/-- State of the scan over the children of a struct or union: the context, the builder and
the names to delete. -/
structure FieldScan where
  ctx : blockCtx
  b : List FieldDesc
  dels : List String

/-- Result of compiling a struct or union: the named type, the names to delete, and the
context. -/
abbrev SuResult := Except String ((GoType × List String) × blockCtx)

/-- One child of a struct in the outer loop of `toStructType`; returns the new state and,
after an anonymous record, its type and generated name for the inner loop. -/
def structChild (E : Externals) (fuel : Nat) (recur : blockCtx → String → Node → SuResult)
    (st : FieldScan) (decl : Node) : Except String (FieldScan × Option (GoType × String)) :=
  if decl.Kind = "FieldDecl" then
    let name := avoidKeyword decl.Name
    match toTypeEx E fuel st.ctx (.child 0) none decl.QualType E.FlagIsField with
    | .error msg => .error msg
    | .ok ((typ, _), ctx1) =>
      if decl.IsBitfield then
        match decl.Inner with
        | [] => .error "index out of range"
        | e :: _ =>
          match toInt64 E e "non-constant bit field" with
          | .error msg => .error msg
          | .ok bits => .ok ({ st with ctx := ctx1, b := builderBitField st.b typ name bits }, none)
      else .ok ({ st with ctx := ctx1, b := builderField st.b typ name false }, none)
  else if decl.Kind = "RecordDecl" then
    let r := getSuName E.MangledName st.ctx decl decl.TagUsed
    match recur r.2 r.1.1 decl with
    | .error msg => .error msg
    | .ok ((typ, del), ctx1) =>
      if r.1.2 ≠ suAnonymous then .ok ({ st with ctx := ctx1 }, none)
      else
        .ok ({ st with ctx := ctx1, dels := st.dels ++ [r.1.1] ++ del }, some (typ, r.1.1))
  else if decl.Kind ∈ ["IndirectFieldDecl", "MaxFieldAlignmentAttr", "AlignedAttr",
      "PackedAttr"] then .ok (st, none)
  else .error ("toStructType: unknown field kind = " ++ decl.Kind ++ "\n")

/-- The loops of `toStructType` over the children still to scan. `pending` is set while the
inner loop after an anonymous record runs: the next child is consumed when it is an implicit
field (the record is promoted under its generated name, the inner loop ends) or a field
whose type resolves to the record (it is added under its own name, the inner loop goes
on); otherwise the inner loop ends and the child is scanned by the outer loop. -/
def structFields (E : Externals) (fuel : Nat) (recur : blockCtx → String → Node → SuResult) :
    FieldScan → Option (GoType × String) → List Node → Except String FieldScan
  | st, _, [] => .ok st
  | st, none, decl :: rest =>
    match structChild E fuel recur st decl with
    | .error msg => .error msg
    | .ok (st1, pending) => structFields E fuel recur st1 pending rest
  | st, some (typ, name), next :: rest =>
    if next.Kind = "FieldDecl" then
      if next.IsImplicit then
        structFields E fuel recur { st with b := builderField st.b typ name true } none rest
      else
        match checkAnonymous E fuel st.ctx (.child 0) typ next with
        | .error msg => .error msg
        | .ok ((ret, true), ctx1) =>
          structFields E fuel recur
            { st with ctx := ctx1, b := builderField st.b ret next.Name false }
            (some (typ, name)) rest
        | .ok ((_, false), ctx1) =>
          match structChild E fuel recur { st with ctx := ctx1 } next with
          | .error msg => .error msg
          | .ok (st1, pending) => structFields E fuel recur st1 pending rest
    else
      match structChild E fuel recur st next with
      | .error msg => .error msg
      | .ok (st1, pending) => structFields E fuel recur st1 pending rest

/-- `toStructType`: scans the children and finalizes the struct for the named type `t`. -/
def toStructType (E : Externals) (fuel : Nat) (recur : blockCtx → String → Node → SuResult)
    (ctx : blockCtx) (_ : GoType) (struc : Node) : SuResult :=
  match structFields E fuel recur { ctx := ctx, b := [], dels := [] } none struc.Inner with
  | .error msg => .error msg
  | .ok st => .ok ((.struct (builderFields st.b), st.dels), st.ctx)

/-- One child of a union in the outer loop of `toUnionType`. -/
def unionChild (E : Externals) (fuel : Nat) (recur : blockCtx → String → Node → SuResult)
    (st : FieldScan) (decl : Node) : Except String (FieldScan × Option (GoType × String)) :=
  if decl.Kind = "FieldDecl" then
    match toTypeEx E fuel st.ctx (.child 0) none decl.QualType 0 with
    | .error msg => .error msg
    | .ok ((typ, _), ctx1) =>
      .ok ({ st with ctx := ctx1, b := builderField st.b typ decl.Name false }, none)
  else if decl.Kind = "RecordDecl" then
    let r := getSuName E.MangledName st.ctx decl decl.TagUsed
    match recur r.2 r.1.1 decl with
    | .error msg => .error msg
    | .ok ((typ, del), ctx1) =>
      if r.1.2 ≠ suAnonymous then .ok ({ st with ctx := ctx1 }, none)
      else
        .ok ({ st with ctx := ctx1, dels := st.dels ++ [r.1.1] ++ del }, some (typ, r.1.1))
  else if decl.Kind ∈ ["IndirectFieldDecl", "MaxFieldAlignmentAttr", "AlignedAttr",
      "PackedAttr"] then .ok (st, none)
  else .error ("toUnionType: unknown field kind = " ++ decl.Kind ++ "\n")

/-- The loops of `toUnionType`, as `structFields`. -/
def unionFields (E : Externals) (fuel : Nat) (recur : blockCtx → String → Node → SuResult) :
    FieldScan → Option (GoType × String) → List Node → Except String FieldScan
  | st, _, [] => .ok st
  | st, none, decl :: rest =>
    match unionChild E fuel recur st decl with
    | .error msg => .error msg
    | .ok (st1, pending) => unionFields E fuel recur st1 pending rest
  | st, some (typ, name), next :: rest =>
    if next.Kind = "FieldDecl" then
      if next.IsImplicit then
        unionFields E fuel recur { st with b := builderField st.b typ name true } none rest
      else
        match checkAnonymous E fuel st.ctx (.child 0) typ next with
        | .error msg => .error msg
        | .ok ((ret, true), ctx1) =>
          unionFields E fuel recur
            { st with ctx := ctx1, b := builderField st.b ret next.Name false }
            (some (typ, name)) rest
        | .ok ((_, false), ctx1) =>
          match unionChild E fuel recur { st with ctx := ctx1 } next with
          | .error msg => .error msg
          | .ok (st1, pending) => unionFields E fuel recur st1 pending rest
    else
      match unionChild E fuel recur st next with
      | .error msg => .error msg
      | .ok (st1, pending) => unionFields E fuel recur st1 pending rest

/-- `toUnionType`: scans the children and finalizes the union for the named type `t`. -/
def toUnionType (E : Externals) (fuel : Nat) (recur : blockCtx → String → Node → SuResult)
    (ctx : blockCtx) (_ : GoType) (unio : Node) : SuResult :=
  match unionFields E fuel recur { ctx := ctx, b := [], dels := [] } none unio.Inner with
  | .error msg => .error msg
  | .ok st => .ok ((.union (builderFields st.b), st.dels), st.ctx)

/-- The state of a scan with the fields `b0` put before the fields of its builder. -/
def FieldScan.prepend (b0 : List FieldDesc) (s : FieldScan) : FieldScan :=
  { s with b := b0 ++ s.b }

/-- The first statements of `compileStructOrUnion`: the declaration the type table holds
under `name`, or a new one entered under it. -/
def lookupOrNewType (ctx : blockCtx) (name : String) : Except String (Nat × blockCtx) :=
  match mapGet ctx.typdecls name with
  | some t => .ok (t, ctx)
  | none =>
    match ctx.pkg.NewType name with
    | .error msg => .error msg
    | .ok (t, pkg1) => .ok (t, { ctx with pkg := pkg1, typdecls := mapSet ctx.typdecls name t })

/-- `compileStructOrUnion`. `fuel` bounds the nesting of records and the retries of
`toTypeEx`. -/
def compileStructOrUnion (E : Externals) : Nat → blockCtx → String → Node → SuResult
  | 0, _, _, _ => .error outOfFuel
  | fuel + 1, ctx, name, decl =>
    match lookupOrNewType ctx name with
    | .error msg => .error msg
    | .ok (t, ctx1) =>
      if decl.CompleteDefinition then
        match (if decl.TagUsed = "struct" then
            toStructType E fuel (compileStructOrUnion E fuel) ctx1 (.named t) decl
          else toUnionType E fuel (compileStructOrUnion E fuel) ctx1 (.named t) decl) with
        | .error msg => .error msg
        | .ok ((inner, del), ctx2) =>
          match ctx2.pkg.InitType t inner with
          | .error msg => .error msg
          | .ok pkg3 => .ok ((.named t, del), { ctx2 with pkg := pkg3 })
      else .ok ((.named t, []), ctx1)

/-- The type table maps `name` to the declaration `t`, and `toTypeEx` cannot enter the tag
again: either `cb.Scope()` holds the name, so that a second `NewType` would panic, or the
parser never reports the tag as not found. -/
def keepsTag (E : Externals) (name : String) (t : Nat) (ctx : blockCtx) : Prop :=
  mapGet ctx.typdecls name = some t ∧
  (((ctx.pkg.scopeAt 0).Lookup name).isSome ∨
    ∀ qualType conf, E.ParseType qualType conf ≠ .error (.TypeNotFound name true))

/-! ## Variables (type_and_var.go) -/

/-- `isInteger`: a basic type whose info has `types.IsInteger`. -/
def isInteger : GoType → Bool
  | .basic name =>
    name ∈ ["int", "int8", "int16", "int32", "int64", "uint", "uint8", "uint16", "uint32",
      "uint64", "uintptr", "untyped int", "untyped rune"]
  | _ => false

/-- `tryNewConstInteger`: a variable whose initializer is an integer literal is declared as
a constant of `cb.Scope()` under `decl.Name`, with the value the expression compiler
leaves; a name the scope holds already cannot be declared. -/
def tryNewConstInteger (E : Externals) (ctx : blockCtx) (typ : GoType) (decl : Node) :
    Except String (Bool × blockCtx) :=
  match decl.Inner with
  | initExpr :: _ =>
    if initExpr.Kind = IntegerLiteral then
      match E.compileExpr initExpr with
      | .error msg => .error msg
      | .ok el =>
        match (ctx.pkg.scopeAt 0).Insert (.decl "const" decl.Name typ) with
        | (some _, _) => .error (decl.Name ++ " redeclared in this block")
        | (none, s) =>
          .ok (true,
            { ctx with pkg := (ctx.pkg.setScope 0 s).emit (.constDecl decl.Name typ el) })
    else .ok (false, ctx)
  | [] => .ok (false, ctx)

/-- The statements of `compileVarDecl` after the declaration of the variable: the
substitution for a static variable, or the blank assignment of a volatile local. -/
def afterNewVar (E : Externals) (ctx : blockCtx) (scope : ScopeRef) (static : String)
    (name : String) (kind : Nat) (global : Bool) : Except String blockCtx :=
  if static ≠ "" then
    match substObj (ctx.pkg.scopeAt 0) static (ctx.pkg.scopeAt scope.index) name with
    | .error msg => .error msg
    | .ok s => .ok { ctx with pkg := ctx.pkg.setScope 0 s }
  else if kind = E.KindFVolatile && !global then
    .ok { ctx with pkg := ctx.pkg.emit (.blankAssign name) }
  else .ok ctx

/-- `compileVarDecl`. Returns the context and the node, whose name the function rewrites. -/
def compileVarDecl (E : Externals) (fuel : Nat) (ctx : blockCtx) (decl : Node)
    (global : Bool) : Except String (blockCtx × Node) :=
  let decl1 : Node := if global then { decl with Name := E.getPubName ctx decl.Name } else decl
  let isStatic : Bool := decl1.StorageClass = Static
  let flags : Nat := if decl1.StorageClass = Extern then E.FlagIsExtern else 0
  let scope : ScopeRef :=
    if isStatic && !global then .scope ctx.pkg.typesScope else .scope 0
  let static : String := if isStatic then decl1.Name else ""
  let renamed := autoStaticName ctx static
  let ctx1 : blockCtx := if isStatic then renamed.2 else ctx
  let decl2 : Node := if isStatic then { decl1 with Name := renamed.1 } else decl1
  match toTypeEx E fuel ctx1 scope none decl2.QualType flags with
  | .error msg => .error msg
  | .ok ((typ, kind), ctx2) =>
    let decl3 : Node := { decl2 with Name := avoidKeyword decl2.Name }
    if flags = E.FlagIsExtern then
      .ok ({ ctx2 with
          pkg := ctx2.pkg.setScope scope.index
            ((ctx2.pkg.scopeAt scope.index).Insert (.decl "var" decl3.Name typ)).2 },
        decl3)
    else
      match (if Nat.land kind E.KindFConst != 0 && isInteger typ then
          tryNewConstInteger E ctx2 typ decl3 else .ok (false, ctx2)) with
      | .error msg => .error msg
      | .ok (true, ctx3) => .ok (ctx3, decl3)
      | .ok (false, ctx3) =>
        match E.newVarAndInit ctx3 scope typ decl3 global with
        | .error msg => .error msg
        | .ok ctx4 =>
          match afterNewVar E ctx4 scope static decl3.Name kind global with
          | .error msg => .error msg
          | .ok ctx5 => .ok (ctx5, decl3)

/-! ## Manifests (pkginfo.go) -/

/-- `unicode.IsSpace`. -/
def isSpace (c : Char) : Bool :=
  let r := c.toNat
  r = 0x09 || r = 0x0A || r = 0x0B || r = 0x0C || r = 0x0D || r = 0x20 || r = 0x85 ||
  r = 0xA0 || r = 0x1680 || (0x2000 ≤ r && r ≤ 0x200A) || r = 0x2028 || r = 0x2029 ||
  r = 0x202F || r = 0x205F || r = 0x3000

/-- Scan of `strings.Fields`: `cur` is the field being read, empty between fields. -/
def fieldsAux : List Char → List Char → List (List Char)
  | [], cur => if cur = [] then [] else [cur]
  | c :: cs, cur =>
    if isSpace c then
      if cur = [] then fieldsAux cs [] else cur :: fieldsAux cs []
    else fieldsAux cs (cur ++ [c])

/-- `strings.Fields`: the maximal runs of characters that are no white space. -/
def Fields (s : String) : List String :=
  (fieldsAux s.data []).map String.mk

/-- Scan of `strings.Split` for a separator of one character. -/
def splitAux (sep : Char) : List Char → List (List Char)
  | [] => [[]]
  | c :: cs =>
    if c = sep then [] :: splitAux sep cs
    else
      match splitAux sep cs with
      | l :: ls => (c :: l) :: ls
      | [] => [[c]]

/-- `strings.Split(s, sep)` for a separator of one character. -/
def Split (s : String) (sep : Char) : List String :=
  (splitAux sep s.data).map String.mk

/-- The loop of `loadPubFile`: `pubs` are the entries read so far, `i` is the index of the
next line. -/
def loadPubLines (PubName : String → String) (pubfile : String) :
    List pubName → Nat → List String → Except String (List pubName)
  | pubs, _, [] => .ok pubs
  | pubs, i, line :: lines =>
    match Fields line with
    | [] => loadPubLines PubName pubfile pubs (i + 1) lines
    | [name] =>
      loadPubLines PubName pubfile (pubs ++ [{ name := name, goName := PubName name }])
        (i + 1) lines
    | [name, goName] =>
      loadPubLines PubName pubfile (pubs ++ [{ name := name, goName := goName }]) (i + 1) lines
    | _ :: _ :: _ :: _ =>
      .error (pubfile ++ ":" ++ Itoa (i + 1) ++ ": too many fields - " ++ line ++ "\n")

/-- `loadPubFile`. `ReadFile` is `os.ReadFile`, `PubName` is `cpackages.PubName`. -/
def loadPubFile (ReadFile : String → Except String String) (PubName : String → String)
    (pubfile : String) : Except String (List pubName) :=
  match ReadFile pubfile with
  | .error err => .error ("loadPubFile failed: " ++ err ++ "\n")
  | .ok text => loadPubLines PubName pubfile [] 0 (Split text '\n')

/-- The entry the specification gives a line with one or two fields: the source name is the
first field, the exported name the second field when present and the default mangling of
the first otherwise. -/
def entryOfLine (PubName : String → String) (line : String) : pubName :=
  { name := (Fields line).headD ""
    goName := if 2 ≤ (Fields line).length then (Fields line).getD 1 ""
      else PubName ((Fields line).headD "") }

/-! ## Sessions (multifiles.go) -/

/-- The services of the host that the multi-file controller calls: `Ext`, `Base`, `Abs`,
`IsAbs` and `Join` of `path/filepath` (`Abs` fails when the working directory cannot be
read), `Load` for `gopmod.Load(dir, 0)`, which gives none when no module is found and else
the lookup from a package path to the directory of the package, `Unmarshal` for
`json.Unmarshal` into a value with the one key `include`, and `PubName` for
`cpackages.PubName`. -/
structure Host where
  Ext : String → String
  Base : String → String
  Abs : String → Except String String
  IsAbs : String → Bool
  Join : String → String → String
  Load : String → Option (String → Except String String)
  Unmarshal : String → Except String (List String)
  PubName : String → String

/-- The files on disk: `os.ReadFile` at one moment. -/
abbrev FS := String → Except String String

/-- The struct `reused` of a session, with the fields `initMultiFileCtl` reads and writes:
the package, the set of header symbols seen, the counter of generated names and the
dependencies. -/
structure Reused where
  pkg : Package := {}
  exists_ : Option (List String) := none
  base : Nat := 0
  deps : depPkgs := {}

/-- The struct `Config`, with the fields the multi-file controller and `initPublicFrom`
read. `ProcDepPkg` is the hook run on the directory of each dependency; it may write
files. -/
structure Config where
  Dir : String := ""
  Deps : List String := []
  Include : List String := []
  ProcDepPkg : Option (String → FS → Except String FS) := none
  Reused : Option Reused := none
  PublicFrom : List String := []

/-- Kind `incInSelf` of an include directory. -/
def incInSelf : Nat := 0

/-- Kind `incInDeps` of an include directory. -/
def incInDeps : Nat := 1

/-- `canonical`. -/
def canonical (h : Host) (baseDir uri : String) : String :=
  if h.IsAbs uri then uri else h.Join baseDir uri

/-- `findPkgDir`; `gomod` is none for the nil module. -/
def findPkgDir (h : Host) (gomod : Option (String → Except String String))
    (pkgPath : String) : Except String String :=
  match gomod with
  | none => .error "findPkgDir TODO: no go.mod found\n"
  | some Lookup =>
    match Lookup pkgPath with
    | .error err => .error ("gomod.Lookup: " ++ err ++ "\n")
    | .ok dir =>
      match h.Abs dir with
      | .error err => .error ("filepath.Abs: " ++ err ++ "\n")
      | .ok pkgDir => .ok pkgDir

/-- `findIncludeDirs`: the result `(incs, err)` is the error when `err` is not nil (`incs` is
nil then) and the list otherwise. -/
def findIncludeDirs (h : Host) (fs : FS) (pkgDir : String) : Except String (List String) :=
  match fs (h.Join pkgDir "c2go.cfg") with
  | .error err => .error err
  | .ok b =>
    match h.Unmarshal b with
    | .error err => .error err
    | .ok Include => .ok Include

/-- `depPkgs.loadPubFile`. -/
def depPkgs.loadPubFile (h : Host) (fs : FS) (p : depPkgs) (path pubfile : String) :
    Except String depPkgs :=
  match C2go.loadPubFile fs h.PubName pubfile with
  | .error msg => .error msg
  | .ok pubs => .ok { p with pkgs := p.pkgs ++ [{ path := path, pubs := pubs }] }

/-- The call `procDepPkg(depPkgDir)` of the hook, when there is one. -/
def runProcDepPkg (procDepPkg : Option (String → FS → Except String FS)) (depPkgDir : String)
    (fs : FS) : Except String FS :=
  match procDepPkg with
  | none => .ok fs
  | some proc => proc depPkgDir fs

/-- The loop of `depPkgs.init` over the dependencies. -/
def depPkgs.initDeps (h : Host) (procDepPkg : Option (String → FS → Except String FS))
    (gomod : Option (String → Except String String)) :
    depPkgs → FS → List String → Except String (depPkgs × FS)
  | p, fs, [] => .ok (p, fs)
  | p, fs, dep :: deps =>
    if dep = "C" then depPkgs.initDeps h procDepPkg gomod { p with skipLibcH := true } fs deps
    else
      match findPkgDir h gomod dep with
      | .error msg => .error msg
      | .ok depPkgDir =>
        match runProcDepPkg procDepPkg depPkgDir fs with
        | .error msg => .error msg
        | .ok fs1 =>
          match findIncludeDirs h fs1 depPkgDir with
          | .error err => .error ("findIncludeDirs: " ++ err ++ "\n")
          | .ok depPkgIncs =>
            let incs := depPkgIncs.foldl
              (fun m dir => mapSet m (canonical h depPkgDir dir) incInDeps) p.incs
            match depPkgs.loadPubFile h fs1 { p with incs := incs } dep
                (h.Join depPkgDir "c2go.a.pub") with
            | .error msg => .error msg
            | .ok p1 => depPkgs.initDeps h procDepPkg gomod p1 fs1 deps

/-- `depPkgs.init`. -/
def depPkgs.init (h : Host) (p : depPkgs) (conf : Config) (fs : FS) :
    Except String (depPkgs × FS) :=
  if p.loaded then .ok (p, fs)
  else
    let p1 : depPkgs := { p with loaded := true }
    if conf.Deps.length = 0 then .ok (p1, fs)
    else
      match h.Abs conf.Dir with
      | .error err => .error ("filepath.Abs failed: " ++ err ++ "\n")
      | .ok base =>
        let incs := conf.Include.foldl (fun m dir => mapSet m (canonical h base dir) incInSelf) []
        depPkgs.initDeps h conf.ProcDepPkg (h.Load base) { p1 with incs := incs } fs conf.Deps

/-- The first half of the reused branch of `initMultiFileCtl`: the package info of the
session, created with the dependencies loaded and imported when the session has none yet. -/
def sessionPkgInfo (h : Host) (Ref : String → String → Option Object)
    (fmt : Object → String) (reused : Reused) (pkg : gox.Package) (conf : Config) (fs : FS) :
    Except String (PkgInfo × Reused × gox.Package × FS) :=
  match reused.pkg.pi with
  | some pi => .ok (pi, reused, pkg, fs)
  | none =>
    let pi : PkgInfo := { typdecls := [], extfns := [] }
    match reused.deps.init h conf fs with
    | .error msg => .error msg
    | .ok (deps1, fs1) =>
      match initDepPkgs Ref fmt pkg deps1 with
      | .error msg => .error msg
      | .ok pkg1 =>
        .ok (pi, { reused with pkg := { pkg1 with pi := some pi }, deps := deps1 }, pkg1, fs1)

/-- `multiFileCtl.initMultiFileCtl`: returns the controller, the package, the session and
the files. The context takes over the value of the session's counter (the source shares the
cell). -/
def initMultiFileCtl (h : Host) (Ref : String → String → Option Object)
    (fmt : Object → String) (p : multiFileCtl) (pkg : gox.Package) (conf : Config) (fs : FS) :
    Except String (multiFileCtl × gox.Package × Option Reused × FS) :=
  match conf.Reused with
  | some reused =>
    match sessionPkgInfo h Ref fmt reused pkg conf fs with
    | .error msg => .error msg
    | .ok (pi, reused1, pkg1, fs1) =>
      let seen : List String :=
        match reused1.exists_ with
        | none => []
        | some m => m
      .ok ({ p with
          typdecls := pi.typdecls
          extfns := pi.extfns
          exists_ := some seen
          base := reused1.base
          hasMulti := true
          incs := reused1.deps.incs
          skipLibcH := reused1.deps.skipLibcH },
        pkg1, some { reused1 with exists_ := some seen }, fs1)
  | none => .ok ({ p with typdecls := [], extfns := [], base := 0 }, pkg, none, fs)

/-- The loop of `logFile` over the table of include directories, in the order the map is
iterated; `f` is the absolute path of the header, the last argument is `p.inDepPkg`. The
loop ends at the first directory that is a prefix of `f` up to a path separator. -/
def logFileIncs (f : String) : List (String × Nat) → Bool → Bool
  | [], inDepPkg => inDepPkg
  | (dir, kind) :: incs, inDepPkg =>
    if dir.data.isPrefixOf f.data then
      match f.data.drop dir.data.length with
      | [] => kind == incInDeps
      | c :: _ =>
        if c = '/' ∨ c = '\\' then kind == incInDeps else logFileIncs f incs inDepPkg
    else logFileIncs f incs inDepPkg

/-- The statement `f, _ = filepath.Abs(f)`: the error is dropped, the path is empty then. -/
def absPath (h : Host) (f : String) : String :=
  match h.Abs f with
  | .ok a => a
  | .error _ => ""

/-- `blockCtx.logFile`. `headerGoFile` is the constant of that name, the file that takes the
declarations of headers. -/
def logFile (h : Host) (headerGoFile : String) (p : blockCtx) (node : Node) : blockCtx :=
  let f := node.PresumedFile
  if f ≠ "" then
    if p.hasMulti then
      if h.Ext f = ".c" then
        { p with
          inHeader := false
          inDepPkg := false
          pkg := (p.pkg.SetCurFile (h.Base f ++ ".i.go")).2 }
      else
        { p with
          inHeader := true
          inDepPkg := logFileIncs (absPath h f) p.incs p.skipLibcH
          pkg := (p.pkg.SetCurFile headerGoFile).2 }
    else p
  else p

/-- A call on the controller during a compilation. -/
inductive CtlCall where
  | logFile (node : Node)
  | checkExists (name : String)

/-- Calls of `logFile` and `checkExists` made in turn on one context; returns what the calls
of `checkExists` returned, in order, and the final context. -/
def ctlCalls (h : Host) (headerGoFile : String) :
    blockCtx → List CtlCall → Except String (List Bool × blockCtx)
  | p, [] => .ok ([], p)
  | p, .logFile node :: calls => ctlCalls h headerGoFile (logFile h headerGoFile p node) calls
  | p, .checkExists name :: calls =>
    match checkExists p name with
    | .error msg => .error msg
    | .ok (r, p1) =>
      match ctlCalls h headerGoFile p1 calls with
      | .error msg => .error msg
      | .ok (rs, p2) => .ok (r :: rs, p2)

/-- The directory `dir` is a path prefix of the file `f`: a prefix followed by nothing or
by a separator. -/
def isPathPrefix (f dir : String) : Bool :=
  dir.data.isPrefixOf f.data &&
    (match f.data.drop dir.data.length with
    | [] => true
    | c :: _ => c = '/' || c = '\\')

/-- The specification's classification of a header: the longest registered directory among
those that are a path prefix of `f`, none when there is none. -/
def longestPathPrefix (f : String) (incs : List (String × Nat)) : Option (String × Nat) :=
  (incs.filter (fun e => isPathPrefix f e.1)).foldl
    (fun best e =>
      match best with
      | none => some e
      | some b => if b.1.length < e.1.length then some e else some b)
    none

/-- A character of a C identifier: a letter, a digit or the underscore. -/
def isIdentChar (c : Char) : Bool :=
  c.isAlpha || c.isDigit || c = '_'

/-- A valid C identifier: not empty, made of identifier characters, not starting with a
digit. -/
def isCIdent (s : String) : Bool :=
  match s.data with
  | [] => false
  | c :: cs => (c.isAlpha || c = '_') && cs.all isIdentChar

/-! ## Public names (pkginfo.go) -/

/-- `canPub`; the first byte of an empty name is an index out of range. -/
def canPub (name : String) : Except String Bool :=
  match name.data with
  | [] => .error "index out of range"
  | r :: _ => .ok (decide ('a' ≤ r) && decide (r ≤ 'z'))

/-- `strings.HasSuffix`. -/
def HasSuffix (s suffix : String) : Bool :=
  suffix.data.isSuffixOf s.data

/-- `isPublicFrom`. -/
def isPublicFrom (f : String) : List String → Bool
  | [] => false
  | frm :: pubFrom => if HasSuffix f frm then true else isPublicFrom f pubFrom

/-- The loop of `initPublicFrom` over the declarations, with the flag `isPub` and the set
`p.autopub`. -/
def publicFromLoop (pubFrom : List String) :
    Bool → List String → List Node → Except String (List String)
  | _, autopub, [] => .ok autopub
  | isPub, autopub, decl :: decls =>
    let isPub1 := if decl.PresumedFile ≠ "" then isPublicFrom decl.PresumedFile pubFrom else isPub
    if isPub1 then
      if decl.Kind ∈ ["VarDecl", "TypedefDecl", "FunctionDecl"] then
        match canPub decl.Name with
        | .error msg => .error msg
        | .ok true =>
          publicFromLoop pubFrom isPub1
            (if autopub.contains decl.Name then autopub else decl.Name :: autopub) decls
        | .ok false => publicFromLoop pubFrom isPub1 autopub decls
      else publicFromLoop pubFrom isPub1 autopub decls
    else publicFromLoop pubFrom isPub1 autopub decls

/-- `blockCtx.initPublicFrom`, on the field `p.autopub` of the context (none is the nil
map): returns the new value of the field. -/
def initPublicFrom (autopub : Option (List String)) (conf : Config) (node : Node) :
    Except String (Option (List String)) :=
  if conf.PublicFrom.length = 0 then .ok autopub
  else
    match publicFromLoop conf.PublicFrom false [] node.Inner with
    | .error msg => .error msg
    | .ok m => .ok (some m)

/-- The specification's effective origin file of the last declaration of a list: the
nearest non-empty origin file at or before it, none when there is none. -/
def lastOrigin (decls : List Node) : Option String :=
  (decls.reverse.find? (fun d => d.PresumedFile ≠ "")).map (fun d => d.PresumedFile)

/-- The first character is a lower-case ASCII letter. -/
def firstLower (name : String) : Bool :=
  match name.data with
  | [] => false
  | c :: _ => decide ('a' ≤ c) && decide (c ≤ 'z')

/-- The specification's condition under which the declaration `d`, which follows the
declarations `before` in the list, puts `name` into the public filter: it is a variable,
typedef or function declaration of that name, the name starts with a lower-case letter,
and its effective origin file ends with one of the suffixes. -/
def isPublicDecl (pubFrom : List String) (before : List Node) (d : Node) (name : String) :
    Prop :=
  d.Name = name ∧ d.Kind ∈ ["VarDecl", "TypedefDecl", "FunctionDecl"] ∧
  firstLower name = true ∧
  ∃ f, lastOrigin (before ++ [d]) = some f ∧ ∃ frm ∈ pubFrom, HasSuffix f frm = true

/-! ## The counter of a session (multifiles.go) -/

/-- Calls that generate names, made in turn on one context; returns the names generated
from the counter, in order, and the context. -/
def ctxNameCalls (MangledName : String → String → String) :
    blockCtx → List NameCall → List String × blockCtx
  | p, [] => ([], p)
  | p, .getSuName v tag :: calls =>
    let r := getSuName MangledName p v tag
    let rest := ctxNameCalls MangledName r.2 calls
    (if r.1.2 = suAnonymous then r.1.1 :: rest.1 else rest.1, rest.2)
  | p, .autoStaticName name :: calls =>
    let r := autoStaticName p name
    let rest := ctxNameCalls MangledName r.2 calls
    (r.1 :: rest.1, rest.2)

/-- The session when a context that `initMultiFileCtl` made from it is done. The context
does not own its counter, its set of seen symbols and its tables: `p.base` is the address
`&reused.base`, `p.exists` is the map `reused.exists`, and `p.typdecls`, `p.extfns` are the
maps of the package info of the session. What the context wrote there is what the
session holds. -/
def Reused.after (reused : Reused) (p : blockCtx) : Reused :=
  { reused with
    base := p.base
    exists_ := p.exists_
    pkg := { reused.pkg with
      pi := reused.pkg.pi.map (fun _ => { typdecls := p.typdecls, extfns := p.extfns }) } }

/-- The files of a session compiled in turn. For each file a new context is initialised
from the session by `initMultiFileCtl`, the calls of the file that generate names are made
on it, and the next file starts from the session as that context left it. Returns the
names generated for each file and the session at the end. -/
def sessionFiles (h : Host) (Ref : String → String → Option Object) (fmt : Object → String)
    (MangledName : String → String → String) (conf : Config) :
    Reused → gox.Package → FS → List (List NameCall) →
      Except String (List (List String) × Reused)
  | reused, _, _, [] => .ok ([], reused)
  | reused, pkg, fs, calls :: files =>
    match initMultiFileCtl h Ref fmt {} pkg { conf with Reused := some reused } fs with
    | .error msg => .error msg
    | .ok (m, pkg1, session, fs1) =>
      let r := ctxNameCalls MangledName { tomultiFileCtl := m, pkg := pkg1 } calls
      match sessionFiles h Ref fmt MangledName conf ((session.getD reused).after r.2) r.2.pkg
          fs1 files with
      | .error msg => .error msg
      | .ok (names, reused2) => .ok (r.1 :: names, reused2)

/-! ## Enumerations (type_and_var.go) -/

/-- `ctypes.Int`, the Go type of a C int. -/
def ctypesInt : GoType := .basic "int32"

/-- `compileEnumConst`. The closure `fn` runs inside `cdecl.New`: with an initializer it
compiles it (`compileExpr`, a parameter), takes the constant value left on the stack and sets
the counter to it; without one it pushes the counter. `cdecl.New` is recorded as the constant
declaration it emits: the name and the element on the stack. Returns the next counter. -/
def compileEnumConst (compileExpr : Node → Except String Element) (ctx : blockCtx) (v : Node)
    (iotav : Int) : Except String (Int × blockCtx) :=
  match v.Inner with
  | e :: _ =>
    match compileExpr e with
    | .error msg => .error msg
    | .ok el =>
      match el.CVal with
      | none => .error "compileEnumConst: not a constant expression\n"
      | some cval =>
        match Int64Val cval with
        | .error msg => .error msg
        | .ok (ival, ok) =>
          if !ok then .error "compileEnumConst: not a integer constant\n"
          else
            .ok (ival + 1, { ctx with pkg := ctx.pkg.emit (.constDecl v.Name ctypesInt el) })
  | [] =>
    .ok (iotav + 1,
      { ctx with pkg := ctx.pkg.emit (.constDecl v.Name ctypesInt ⟨some (.int64Val iotav)⟩) })

/-- The loop of `compileEnum` over the constants, threading the counter. -/
def compileEnumConsts (compileExpr : Node → Except String Element) :
    blockCtx → List Node → Int → Except String blockCtx
  | ctx, [], _ => .ok ctx
  | ctx, item :: rest, iotav =>
    match compileEnumConst compileExpr ctx item iotav with
    | .error msg => .error msg
    | .ok (iotav1, ctx1) => compileEnumConsts compileExpr ctx1 rest iotav1

/-- `compileEnum`. -/
def compileEnum (compileExpr : Node → Except String Element) (ctx : blockCtx) (decl : Node)
    (global : Bool) : Except String blockCtx :=
  let inner := decl.Inner
  match inner with
  | first :: _ =>
    if global then
      match checkExists ctx first.Name with
      | .error msg => .error msg
      | .ok (true, _) => .ok ctx
      | .ok (false, ctx1) => compileEnumConsts compileExpr ctx1 inner 0
    else compileEnumConsts compileExpr ctx inner 0
  | [] => compileEnumConsts compileExpr ctx inner 0

/-! ## Initializers (type_and_var.go) -/

/-- A call on the code builder made while an initializer is compiled, in the order the
calls are made: `NewFunc name` is `pkg.NewFunc(nil, name, nil, nil, false).BodyStart(pkg)`,
`Val name` is `cb.Val(gox.Lookup(scope, name))`, `VarRef name` is
`cb.VarRef(gox.Lookup(scope, name))`, `InitStart name` is `varDecl.InitStart(pkg)` for the
variable of that name, `Expr v` is the value the expression compiler leaves on the stack,
`StringLit` is the call of `stringLit`. -/
inductive CbCall where
  | NewFunc (name : String)
  | Val (name : String)
  | MemberRef (name : String)
  | ZeroLit (t : GoType)
  | Expr (v : Element)
  | StringLit (s : String) (t : GoType)
  | ArrayLit (t : GoType) (n : Nat)
  | StructLit (t : GoType) (n : Nat) (keyVal : Bool)
  | Assign (n : Nat)
  | End
  | VarRef (name : String)
  | InitStart (name : String)
  | EndInit (n : Nat)
deriving Repr

/-- Modelled from the spec: the type of a field as `initLit` tells types apart. `bfType` is
the type of a bitfield in the virtual struct of a named type, with the type of the word the
packed run shares and the flag `first` of the first bitfield of the run; every other type
is a type of go/types. -/
inductive FieldType where
  | bfType (word : GoType) (first : Bool)
  | type (t : GoType)
deriving Repr

/-- The parts of the initializer compiler outside the three files: the expression compiler,
`getVStruct`, which gives the fields of the virtual struct of a named type (it panics for a
type that has none), `strconv.Unquote`, `ctypes.Identical`, and how `%v` prints a type. -/
structure InitExternals where
  compileExpr : Node → Except String Element
  getVStruct : blockCtx → GoType → Except String (List FieldType)
  Unquote : String → Except String String
  Identical : GoType → GoType → Bool
  fmt : GoType → String

/-- `ast.ImplicitValueInitExpr`. -/
def ImplicitValueInitExpr : String := "ImplicitValueInitExpr"

/-- `isCharArray`: an array of `int8` or `uint8`. -/
def isCharArray : GoType → Bool
  | .array (.basic name) _ => name = "int8" || name = "uint8"
  | _ => false

/-- The case `ast.StringLiteral` of `initWithStringLiteral`. -/
def initStringLiteral (I : InitExternals) (cb : List CbCall) (typ : GoType) (decl : Node) :
    Except String (Bool × List CbCall) :=
  match I.Unquote decl.Value with
  | .error err => .error ("initWithStringLiteral: " ++ err ++ "\n")
  | .ok s => .ok (true, cb ++ [.StringLit s typ])

/-- `initWithStringLiteral`. -/
def initWithStringLiteral (I : InitExternals) (cb : List CbCall) (typ : GoType)
    (decl : Node) : Except String (Bool × List CbCall) :=
  if isCharArray typ then
    if decl.Kind = "InitListExpr" then
      match decl.Inner with
      | [inner0] =>
        if inner0.Kind ≠ "StringLiteral" then .ok (false, cb)
        else initStringLiteral I cb typ inner0
      | _ => .ok (false, cb)
    else if decl.Kind = "StringLiteral" then initStringLiteral I cb typ decl
    else .ok (false, cb)
  else .ok (false, cb)

/-- The loop of `arrayLit` over the initializers; `rec` is `initLit`. -/
def arrayLitElems (rec : List CbCall → FieldType → Node → Except String (Nat × List CbCall))
    (elem : GoType) : List CbCall → List Node → Except String (List CbCall)
  | cb, [] => .ok cb
  | cb, initExpr :: inits =>
    match rec cb (.type elem) initExpr with
    | .error msg => .error msg
    | .ok (_, cb1) => arrayLitElems rec elem cb1 inits

/-- `arrayLit` for the array type `t` with the element type `elem`. -/
def arrayLit (rec : List CbCall → FieldType → Node → Except String (Nat × List CbCall))
    (cb : List CbCall) (t elem : GoType) (decl : Node) : Except String (List CbCall) :=
  let inits :=
    match decl.ArrayFiller with
    | [] => decl.Inner
    | first :: filler =>
      if first.Kind = ImplicitValueInitExpr then filler else first :: filler
  match arrayLitElems rec elem cb inits with
  | .error msg => .error msg
  | .ok cb1 => .ok (cb1 ++ [.ArrayLit t inits.length])

/-- The loop of `structLit` over the initializers: `fields` are the fields of the virtual
struct from the position of the next initializer on, `n` is the count so far; `rec` is
`initLit`. An initializer without a field is an index out of range. -/
def structLitElems
    (rec : List CbCall → FieldType → Node → Except String (Nat × List CbCall)) :
    List FieldType → Nat → List CbCall → List Node → Except String (Nat × List CbCall)
  | _, n, cb, [] => .ok (n, cb)
  | [], _, _, _ :: _ => .error "index out of range"
  | field :: fields, n, cb, initExpr :: inits =>
    match rec cb field initExpr with
    | .error msg => .error msg
    | .ok (k, cb1) => structLitElems rec fields (n + k) cb1 inits

/-- `structLit`. -/
def structLit (I : InitExternals)
    (rec : List CbCall → FieldType → Node → Except String (Nat × List CbCall))
    (ctx : blockCtx) (cb : List CbCall) (typ : GoType) (decl : Node) :
    Except String (List CbCall) :=
  match I.getVStruct ctx typ with
  | .error msg => .error msg
  | .ok fields =>
    match structLitElems rec fields 0 cb decl.Inner with
    | .error msg => .error msg
    | .ok (n, cb1) => .ok (cb1 ++ [.StructLit typ n false])

/-- `initLit`: returns the count and the calls on the code builder. `fuel` bounds the
nesting of the initializer lists. -/
def initLit (I : InitExternals) :
    Nat → blockCtx → List CbCall → FieldType → Node → Except String (Nat × List CbCall)
  | 0, _, _, _, _ => .error outOfFuel
  | fuel + 1, ctx, cb, typ, initExpr =>
    match typ with
    | .type (.array elem len) =>
      match initWithStringLiteral I cb (.array elem len) initExpr with
      | .error msg => .error msg
      | .ok (true, cb1) => .ok (1, cb1)
      | .ok (false, cb1) =>
        match arrayLit (initLit I fuel ctx) cb1 (.array elem len) elem initExpr with
        | .error msg => .error msg
        | .ok cb2 => .ok (1, cb2)
    | .type (.named decl) =>
      match structLit I (initLit I fuel ctx) ctx cb (.named decl) initExpr with
      | .error msg => .error msg
      | .ok cb1 => .ok (1, cb1)
    | .bfType word first =>
      if initExpr.Kind ≠ ImplicitValueInitExpr then .error "initLit bfType: TODO\n"
      else if !first then .ok (0, cb)
      else .ok (1, cb ++ [.ZeroLit word])
    | .type _ =>
      match I.compileExpr initExpr with
      | .error msg => .error msg
      | .ok v => .ok (1, cb ++ [.Expr v])

/-- The loop of `initUnionVar` over the alternatives: the first one whose type is identical
to `t`. -/
def unionAlternative (I : InitExternals) (t : GoType) :
    List (String × GoType) → Option (String × GoType)
  | [] => none
  | fld :: ufs => if I.Identical fld.2 t then some fld else unionAlternative I t ufs

/-- `initUnionVar`; `ufs` are the alternatives of the union, name and type, in the order of
declaration. -/
def initUnionVar (E : Externals) (I : InitExternals) (fuel : Nat) (ctx : blockCtx)
    (cb : List CbCall) (name : String) (ufs : List (String × GoType)) (decl : Node) :
    Except String (blockCtx × List CbCall) :=
  match decl.Inner with
  | [] => .error "index out of range"
  | initExpr :: _ =>
    match toTypeEx E fuel ctx (.scope 0) none initExpr.QualType 0 with
    | .error msg => .error msg
    | .ok ((t, _), ctx1) =>
      match unionAlternative I t ufs with
      | some fld =>
        let global := ctx1.pkg.typesScope = 0
        let cb1 := if global then cb ++ [.NewFunc "init"] else cb
        match initLit I fuel ctx1 (cb1 ++ [.Val name, .MemberRef fld.1]) (.type t) initExpr with
        | .error msg => .error msg
        | .ok (_, cb2) =>
          .ok (ctx1, if global then cb2 ++ [.Assign 1, .End] else cb2 ++ [.Assign 1])
      | none => .error ("initUnion: init with unexpect type - " ++ I.fmt t ++ "\n")

/-- A field of the virtual struct that is a bitfield after the first one of its packed
run. -/
def FieldType.isLaterBitfield : FieldType → Bool
  | .bfType _ first => !first
  | .type _ => false

/-- An initializer that `initLit` compiles without looking into nested lists: an implicit
value for a bitfield, or an expression the expression compiler accepts for a field that is
neither an array nor a named type. -/
def initializesFlat (I : InitExternals) : FieldType → Node → Bool
  | .bfType _ _, initExpr => initExpr.Kind = ImplicitValueInitExpr
  | .type (.array _ _), _ => false
  | .type (.named _), _ => false
  | .type _, initExpr => (I.compileExpr initExpr).toOption.isSome

/-! ## Variables with initializers (type_and_var.go) -/

/-- `isFunc`: the type is a `*types.Signature`. -/
def isFunc : GoType → Bool
  | .signature _ => true
  | _ => false

/-- `Type.Underlying()`: a named type has the type its declaration was initialised with,
and none (nil) while the declaration is not initialised; every other type is its own
underlying type. -/
def gox.Package.Underlying (pkg : gox.Package) : GoType → Option GoType
  | .named h =>
    match pkg.State h with
    | some (.TyStateInited u) => some u
    | _ => none
  | t => some t

/-- `hasFnPtrMember`. The loop `retry:` runs at most `fuel` times, once for each array
layer. -/
def hasFnPtrMember (pkg : gox.Package) : Nat → GoType → Except String Bool
  | 0, _ => .error outOfFuel
  | fuel + 1, typ =>
    match pkg.Underlying typ with
    | some (.struct fields) => .ok (fields.any (fun f => isFunc f.2.1))
    | some (.array elem _) => hasFnPtrMember pkg fuel elem
    | _ => .ok false

/-- Virtual fields of a named type (`gox.VFields`): the alternatives of a union, or
others. -/
inductive VFields where
  | UnionFields (ufs : List (String × GoType))
  | other

/-- The parts of the variable compiler outside the three files: `blockCtx.newVar`, which
declares the variable and tells whether it is placed in a variable block, and
`pkg.VFields`. -/
structure VarExternals where
  newVar : blockCtx → ScopeRef → GoType → String → Except String (blockCtx × Bool)
  VFields : blockCtx → Nat → Option VFields

/-- `checkUnion`. -/
def checkUnion (V : VarExternals) (ctx : blockCtx) : GoType → Option (List (String × GoType))
  | .named t =>
    match V.VFields ctx t with
    | some (.UnionFields ufs) => some ufs
    | _ => none
  | _ => none

/-- `varInit`. -/
def varInit (I : InitExternals) (fuel : Nat) (ctx : blockCtx) (cb : List CbCall)
    (typ : GoType) (initExpr : Node) : Except String (List CbCall) :=
  if initExpr.Kind = "InitListExpr" then
    match initLit I fuel ctx cb (.type typ) initExpr with
    | .error msg => .error msg
    | .ok (_, cb1) => .ok cb1
  else
    match initWithStringLiteral I cb typ initExpr with
    | .error msg => .error msg
    | .ok (true, cb1) => .ok cb1
    | .ok (false, cb1) =>
      match I.compileExpr initExpr with
      | .error msg => .error msg
      | .ok v => .ok (cb1 ++ [.Expr v])

/-- `varAssign`. -/
def varAssign (I : InitExternals) (fuel : Nat) (ctx : blockCtx) (cb : List CbCall)
    (typ : GoType) (name : String) (initExpr : Node) : Except String (List CbCall) :=
  match varInit I fuel ctx (cb ++ [.VarRef name]) typ initExpr with
  | .error msg => .error msg
  | .ok cb1 => .ok (cb1 ++ [.Assign 1])

/-- The initialization in place of `newVarAndInit`: `varDecl.InitStart`, `varInit`,
`cb.EndInit(1)`. -/
def varInline (I : InitExternals) (fuel : Nat) (ctx : blockCtx) (cb : List CbCall)
    (typ : GoType) (name : String) (initExpr : Node) : Except String (List CbCall) :=
  match varInit I fuel ctx (cb ++ [.InitStart name]) typ initExpr with
  | .error msg => .error msg
  | .ok cb1 => .ok (cb1 ++ [.EndInit 1])

/-- The initialization of `newVarAndInit` inside a function `init`: `pkg.NewFunc` with
`BodyStart`, `varAssign`, `cb.End()`. -/
def varInInit (I : InitExternals) (fuel : Nat) (ctx : blockCtx) (cb : List CbCall)
    (typ : GoType) (name : String) (initExpr : Node) : Except String (List CbCall) :=
  match varAssign I fuel ctx (cb ++ [.NewFunc "init"]) typ name initExpr with
  | .error msg => .error msg
  | .ok cb1 => .ok (cb1 ++ [.End])

/-- The statement of `newVarAndInit` that drops a visibility attribute which is the only
child. -/
def dropVisibilityAttr : List Node → List Node
  | [a] => if a.Kind = "VisibilityAttr" then [] else [a]
  | inner => inner

/-- `newVarAndInit`, from the source; returns the context and the calls on the code
builder. `fuel` bounds the loops of `hasFnPtrMember`, `initLit` and `toTypeEx`. -/
def newVarAndInit (E : Externals) (I : InitExternals) (V : VarExternals) (fuel : Nat)
    (ctx : blockCtx) (cb : List CbCall) (scope : ScopeRef) (typ : GoType) (decl : Node)
    (global : Bool) : Except String (blockCtx × List CbCall) :=
  match V.newVar ctx scope typ decl.Name with
  | .error msg => .error msg
  | .ok (ctx1, inVBlock) =>
    match dropVisibilityAttr decl.Inner with
    | initExpr :: _ =>
      match checkUnion V ctx1 typ with
      | some ufs =>
        if inVBlock then .error "TODO: initUnionVar inVBlock\n"
        else initUnionVar E I fuel ctx1 cb decl.Name ufs initExpr
      | none =>
        if inVBlock then
          match varAssign I fuel ctx1 cb typ decl.Name initExpr with
          | .error msg => .error msg
          | .ok cb1 => .ok (ctx1, cb1)
        else if global then
          match hasFnPtrMember ctx1.pkg fuel typ with
          | .error msg => .error msg
          | .ok true =>
            match varInInit I fuel ctx1 cb typ decl.Name initExpr with
            | .error msg => .error msg
            | .ok cb1 => .ok (ctx1, cb1)
          | .ok false =>
            match varInline I fuel ctx1 cb typ decl.Name initExpr with
            | .error msg => .error msg
            | .ok cb1 => .ok (ctx1, cb1)
        else
          match varInline I fuel ctx1 cb typ decl.Name initExpr with
          | .error msg => .error msg
          | .ok cb1 => .ok (ctx1, cb1)
    | [] =>
      if inVBlock then .ok (ctx1, cb ++ [.VarRef decl.Name, .ZeroLit typ, .Assign 1])
      else .ok (ctx1, cb)

/-- The array layers of a type: what is left after `n` layers were stripped, none when the
type has fewer layers. -/
def stripArrays (pkg : gox.Package) : Nat → GoType → Option GoType
  | 0, typ => some typ
  | n + 1, typ =>
    match pkg.Underlying typ with
    | some (.array elem _) => stripArrays pkg n elem
    | _ => none

/-- The underlying type is an array. -/
def isArrayType (pkg : gox.Package) (typ : GoType) : Bool :=
  match pkg.Underlying typ with
  | some (.array _ _) => true
  | _ => false

/-- The underlying type is a struct with a field of function type. -/
def hasFuncField (pkg : gox.Package) (typ : GoType) : Bool :=
  match pkg.Underlying typ with
  | some (.struct fields) => fields.any (fun f => isFunc f.2.1)
  | _ => false

/-- The specification's function-pointer member of a struct: a member of function type
that is a direct field or lies inside a nested struct member, nested at most `depth`
times. -/
def hasFuncMember (pkg : gox.Package) : Nat → GoType → Bool
  | 0, _ => false
  | depth + 1, typ =>
    match pkg.Underlying typ with
    | some (.struct fields) =>
      fields.any (fun f => isFunc f.2.1 || hasFuncMember pkg depth f.2.1)
    | _ => false

/-- Three enumerators `A, B = <init>, C` of the specification's example. -/
def enumABC : Node :=
  { Kind := "EnumDecl"
    ArrayFiller := [], Inner := [
      { Kind := "EnumConstantDecl", Name := "A", ArrayFiller := [], Inner := [] },
      { Kind := "EnumConstantDecl", Name := "B",
        ArrayFiller := [], Inner := [{ Kind := "ConstantExpr", ArrayFiller := [], Inner := [] }] },
      { Kind := "EnumConstantDecl", Name := "C", ArrayFiller := [], Inner := [] }] }

/-- Expression compiler of the example: every initializer folds to the constant 5. -/
def foldsToFive (_ : Node) : Except String Element :=
  .ok ⟨some (.int64Val 5)⟩

/-- The manifest of `TestInitDepPkgs`. -/
def libcDep : depPkg :=
  { path := "github.com/weblfe/c2go/cl/internal/libc"
    pubs := [{ name := "printf", goName := "Printf" }] }

/-- Import of the example: the exported symbol is a function of the dependency. -/
def libcRef (path goName : String) : Option Object :=
  some (.decl "func" (path ++ "." ++ goName) (.signature "(fmt *int8, args ...interface\x7b\x7d)"))

/-- Printing of the example: a substitution prints as a variable of type `substType`. -/
def showObject : Object → String
  | .subst name (some (.decl kind real (.signature sig))) =>
    "var " ++ name ++ " substType\x7breal: " ++ kind ++ " " ++ real ++ sig ++ "\x7d"
  | o => o.Name

/-- A manifest of three lines, the last one blank, read from any file name. -/
def pubExample (_ : String) : Except String String :=
  .ok "printf\nfoo Bar\n\t \n"

/-- Default mangling of the example. -/
def pubNameExample (name : String) : String :=
  "X" ++ name

/-- The package of `TestPkgInfo` after compiling `void f(); void test(struct foo* in)`: the
opaque `struct_foo` and the external function `f`. -/
def pkgInfoExample : Package :=
  { scopes := [[.decl "type" "struct_foo" (.named 0), .decl "func" "f" (.signature "()"),
      .decl "func" "test" (.signature "(in *struct_foo)")]]
    tdecls := [⟨"struct_foo", .TyStateUninited⟩]
    emitted := [("", .funcDecl "test" (.signature "(in *struct_foo)") [])]
    pi := some { typdecls := [("struct_foo", 0)], extfns := ["f"] } }

/-- Parser of the examples: it knows `int`, `const int` (kind 1) and `struct N *`, whose
tag it looks up in the chain of scopes it is given. -/
def tagParser (qualType : String) (conf : parser.Config) :
    Except parser.Error (GoType × Nat) :=
  if qualType = "int" then .ok (.basic "int32", 0)
  else if qualType = "const int" then .ok (.basic "int32", 1)
  else if qualType = "struct N *" then
    match conf.Scope.findSome? (fun s => Scope.Lookup s "struct_N") with
    | some (.decl _ _ typ) => .ok (.pointer typ, 0)
    | _ => .error (.TypeNotFound "struct_N" true)
  else .error (.other "unknown type")

/-- Collaborators of the examples: the parser above, initializers that fold to 5, tags
mangled with an underscore, no public-name rewriting, and a variable declared by inserting
it into its scope. -/
def exampleExternals : Externals :=
  { ParseType := tagParser
    compileExpr := foldsToFive
    MangledName := fun tag name => tag ++ "_" ++ name
    getPubName := fun _ name => name
    newVarAndInit := fun ctx scope typ decl _ =>
      match (ctx.pkg.scopeAt scope.index).Insert (.decl "var" decl.Name typ) with
      | (some _, _) => .error (decl.Name ++ " redeclared in this block")
      | (none, s) =>
        .ok { ctx with pkg := (ctx.pkg.setScope scope.index s).emit (.varDecl decl.Name typ) }
    FlagIsField := 2
    FlagIsTypedef := 8
    FlagIsExtern := 4
    KindFConst := 1
    KindFVolatile := 2
    KindFAnonymous := 4 }

/-- Context inside a function body (an empty function scope above the package scope) in
which the tag `struct N` was entered in the type table from a scope that is closed by now:
the table holds it, the open scopes do not. -/
def ctxHiddenTag : blockCtx :=
  { typdecls := [("struct_N", 0)]
    pkg := { scopes := [[], []], tdecls := [⟨"struct_N", .TyStateUninited⟩] } }

/-- The definition `struct N { struct N *next; }`. -/
def structN : Node :=
  { Kind := "RecordDecl", Name := "N", TagUsed := "struct", CompleteDefinition := true
    ArrayFiller := []
    Inner := [
      { Kind := "FieldDecl", Name := "next", QualType := "struct N *", ArrayFiller := [],
        Inner := [] }] }

/-- The declaration `static const int N = 10;`. -/
def staticConstN : Node :=
  { Kind := "VarDecl", Name := "N", QualType := "const int", StorageClass := "static"
    ArrayFiller := []
    Inner := [{ Kind := "IntegerLiteral", QualType := "int", ArrayFiller := [], Inner := [] }] }

/-- The declaration `static int N = 10;`. -/
def staticN : Node :=
  { Kind := "VarDecl", Name := "N", QualType := "int", StorageClass := "static"
    ArrayFiller := []
    Inner := [{ Kind := "IntegerLiteral", QualType := "int", ArrayFiller := [], Inner := [] }] }

/-- Scan of `filepath.Ext` from the end of the path: `acc` is what was read after the
current character. -/
def extAux : List Char → List Char → List Char
  | [], _ => []
  | c :: cs, acc =>
    if c = '/' then [] else if c = '.' then '.' :: acc else extAux cs (c :: acc)

/-- Host of the examples: paths with the separator `/`, the working directory `/cwd`, every
package of the module in a directory under `/mod`, and a configuration file whose text is
the one include directory it lists. -/
def exampleHost : Host :=
  { Ext := fun path => String.mk (extAux path.data.reverse [])
    Base := fun path => String.mk (path.data.reverse.takeWhile (fun c => c ≠ '/')).reverse
    Abs := fun path => .ok (if path.data.head? = some '/' then path else "/cwd/" ++ path)
    IsAbs := fun path => path.data.head? = some '/'
    Join := fun dir name => dir ++ "/" ++ name
    Load := fun _ => some (fun pkgPath => .ok ("/mod/" ++ pkgPath))
    Unmarshal := fun text => .ok [text]
    PubName := pubNameExample }

/-- The constant `headerGoFile` in the examples. -/
def exampleHeaderGoFile : String := "c2go_header.i.go"

/-- Files of the examples: the dependency `dep` has a manifest and no configuration
file. -/
def noCfgFS : FS := fun path =>
  if path = "/mod/dep/c2go.a.pub" then .ok "printf\n"
  else .error ("open " ++ path ++ ": no such file or directory")

/-- Files of the examples: the dependency `dep` has a manifest and a configuration file
that lists the include directory `include`. -/
def cfgFS : FS := fun path =>
  if path = "/mod/dep/c2go.a.pub" then .ok "printf\n"
  else if path = "/mod/dep/c2go.cfg" then .ok "include"
  else .error ("open " ++ path ++ ": no such file or directory")

/-- A declaration that comes from the header `/a/b/x.h`. -/
def headerNode : Node :=
  { Kind := "VarDecl", Name := "x", PresumedFile := "/a/b/x.h", ArrayFiller := [], Inner := [] }

/-- A declaration that comes from the source file `/src/main.c`. -/
def sourceNode : Node :=
  { Kind := "VarDecl", Name := "y", PresumedFile := "/src/main.c", ArrayFiller := [],
    Inner := [] }

/-- A context in multi-file mode whose table registers `/a` for the package itself and
`/a/b` for a dependency, iterated in this order. -/
def ctxNested : blockCtx :=
  { hasMulti := true, exists_ := some [], incs := [("/a", incInSelf), ("/a/b", incInDeps)] }

/-- The same context with the table iterated in the other order. -/
def ctxNestedRev : blockCtx :=
  { hasMulti := true, exists_ := some [], incs := [("/a/b", incInDeps), ("/a", incInSelf)] }

/-- An untagged record. -/
def untagged : Node :=
  { Kind := "RecordDecl", TagUsed := "struct", CompleteDefinition := true, ArrayFiller := [],
    Inner := [] }

/-- Parser of the examples with anonymous records: it knows `int` and the type string of
an anonymous record, which resolves to the anonymous type it is given and reports the kind
`KindFAnonymous`. -/
def anonParser (qualType : String) (conf : parser.Config) :
    Except parser.Error (GoType × Nat) :=
  if qualType = "int" then .ok (.basic "int32", 0)
  else if qualType = "struct (anonymous)" then
    match conf.TyAnonym with
    | some t => .ok (t, 4)
    | none => .error (.other "anonymous record without a type")
  else .error (.other "unknown type")

/-- Collaborators of the examples with anonymous records. -/
def anonExternals : Externals :=
  { exampleExternals with ParseType := anonParser }

/-- The anonymous record `struct { int a; }`. -/
def anonRecord : Node :=
  { Kind := "RecordDecl", TagUsed := "struct", CompleteDefinition := true, ArrayFiller := [],
    Inner := [
      { Kind := "FieldDecl", Name := "a", QualType := "int", ArrayFiller := [], Inner := [] }] }

/-- The field `x` declared with the anonymous record as its type. -/
def aliasField : Node :=
  { Kind := "FieldDecl", Name := "x", QualType := "struct (anonymous)", ArrayFiller := [],
    Inner := [] }

/-- An implicit field for the anonymous record. -/
def implicitField : Node :=
  { Kind := "FieldDecl", QualType := "struct (anonymous)", IsImplicit := true,
    ArrayFiller := [], Inner := [] }

/-- The children of an aggregate: an anonymous record, a field declared with it, and an
implicit field. -/
def aliasThenImplicit : List Node :=
  [anonRecord, aliasField, implicitField]

/-- The definition of the struct or union `S` with the children above. -/
def aggregateS (tag : String) : Node :=
  { Kind := "RecordDecl", Name := "S", TagUsed := tag, CompleteDefinition := true,
    ArrayFiller := [], Inner := aliasThenImplicit }

/-- The context after the anonymous record above was compiled in a new context: the record
is declared as `_cgoa_1` with the handle 0. -/
def ctxAfterAnon : blockCtx :=
  { base := 1
    typdecls := [("_cgoa_1", 0)]
    pkg :=
      { scopes := [[.decl "type" "_cgoa_1" (.named 0)]]
        tdecls := [⟨"_cgoa_1", .TyStateInited (.struct [("a", .basic "int32", false)])⟩]
        emitted := [("", .typeDecl "_cgoa_1" (.struct [("a", .basic "int32", false)]))] } }

/-- Collaborators of the initializer examples: expressions fold to 5, the named type 0 is
a struct `{ int a; unsigned f : 3; unsigned g : 5; int b; }` whose bitfields share one
word, basic types and named types are identical when their names are, and a basic type
prints as its name. -/
def exampleInit : InitExternals :=
  { compileExpr := foldsToFive
    getVStruct := fun _ typ =>
      match typ with
      | .named 0 =>
        .ok [.type (.basic "int32"), .bfType (.basic "uint32") true,
          .bfType (.basic "uint32") false, .type (.basic "int32")]
      | _ => .error "interface conversion"
    Unquote := fun s => .ok s
    Identical := fun a b =>
      match a, b with
      | .basic x, .basic y => x == y
      | .named x, .named y => x == y
      | _, _ => false
    fmt := fun t =>
      match t with
      | .basic name => name
      | _ => "?" }

/-- An integer literal. -/
def intLiteral : Node :=
  { Kind := "IntegerLiteral", QualType := "int", ArrayFiller := [], Inner := [] }

/-- An implicit value initializer. -/
def implicitValue : Node :=
  { Kind := ImplicitValueInitExpr, ArrayFiller := [], Inner := [] }

/-- The initializer list `{ 5, <implicit>, <implicit>, 5 }`. -/
def initList : Node :=
  { Kind := "InitListExpr", ArrayFiller := [],
    Inner := [intLiteral, implicitValue, implicitValue, intLiteral] }

/-- A translation unit: `foo` from the header `/a/pub.h`, then `bar` and `Baz` without an
origin file of their own, then `qux` from the header `/a/priv.h`. -/
def pubDecls : Node :=
  { Kind := "TranslationUnitDecl", ArrayFiller := []
    Inner := [
      { Kind := "VarDecl", Name := "foo", PresumedFile := "/a/pub.h", ArrayFiller := [],
        Inner := [] },
      { Kind := "FunctionDecl", Name := "bar", ArrayFiller := [], Inner := [] },
      { Kind := "TypedefDecl", Name := "Baz", ArrayFiller := [], Inner := [] },
      { Kind := "VarDecl", Name := "qux", PresumedFile := "/a/priv.h", ArrayFiller := [],
        Inner := [] }] }

/-- The field `int b`. -/
def fieldB : Node :=
  { Kind := "FieldDecl", Name := "b", QualType := "int", ArrayFiller := [], Inner := [] }

/-- The definition of the struct or union `S` with the given children. -/
def aggregateWith (tag : String) (children : List Node) : Node :=
  { Kind := "RecordDecl", Name := "S", TagUsed := tag, CompleteDefinition := true,
    ArrayFiller := [], Inner := children }

/-- A package with the struct `ops`, which has the member `f` of function type, and the
struct `dev`, whose member `ops` is the struct `ops`. -/
def pkgNested : gox.Package :=
  { tdecls := [⟨"struct_ops", .TyStateInited (.struct [("f", .signature "()", false)])⟩,
      ⟨"struct_dev", .TyStateInited (.struct [("ops", .named 0, false)])⟩] }

/-- Collaborators of the variable examples: a variable is declared outside a variable block
and leaves the context as it is, and no type has virtual fields. -/
def exampleVar : VarExternals :=
  { newVar := fun ctx _ _ _ => .ok (ctx, false)
    VFields := fun _ _ => none }

/-- The declaration of the variable `v` with an initializer that is an expression. -/
def varV : Node :=
  { Kind := "VarDecl", Name := "v", ArrayFiller := [], Inner := [intLiteral] }

/-! ## Theorems -/

/-- What a call of `checkExists` does, case by case. -/
theorem checkExists_cases (p : blockCtx) (name : String) :
    (p.inHeader = false ∧ checkExists p name = .ok (false, p)) ∨
    (p.inHeader = true ∧ p.exists_ = none ∧
      checkExists p name = .error "assignment to entry in nil map") ∨
    (∃ m, p.inHeader = true ∧ p.exists_ = some m ∧ name ∈ m ∧
      checkExists p name = .ok (true, p)) ∨
    (∃ m, p.inHeader = true ∧ p.exists_ = some m ∧ name ∉ m ∧
      checkExists p name = .ok (false, { p with exists_ := some (name :: m) })) := by
  unfold checkExists
  cases hh : p.inHeader with
  | false => simp
  | true =>
    cases hm : p.exists_ with
    | none => simp
    | some m =>
      by_cases hin : name ∈ m
      · simp [hin]
      · simp [hin]

/-- One constant leaves the current file alone, records one declaration, and returns the
value it recorded plus one. -/
theorem compileEnumConst_ok (compileExpr : Node → Except String Element) (ctx ctx1 : blockCtx)
    (v : Node) (iotav next : Int) (h : compileEnumConst compileExpr ctx v iotav = .ok (next, ctx1)) :
    ctx1.pkg.curFile = ctx.pkg.curFile ∧
    ctx1.pkg.emitted = ctx.pkg.emitted ++
      [(ctx.pkg.curFile, Decl.constDecl v.Name ctypesInt ⟨some (.int64Val (next - 1))⟩)] ∧
    (match v.Inner with
      | e :: _ => compileExpr e = .ok ⟨some (.int64Val (next - 1))⟩
      | [] => next - 1 = iotav) := by
  unfold compileEnumConst at h
  split at h
  · rename_i e rest hv
    split at h
    · cases h
    · rename_i el hel
      split at h
      · cases h
      · rename_i cval hc
        split at h
        · cases h
        · rename_i ival ok hi
          split at h
          · cases h
          · rename_i hok
            simp only [Except.ok.injEq, Prod.mk.injEq] at h
            obtain ⟨h1, h2⟩ := h
            subst h1 h2
            have hcv : cval = .int64Val ival := by
              cases cval <;> simp [Int64Val] at hi
              · simp at hok
                exact congrArg _ hi.1
              · simp [hi.2] at hok
              · simp [← hi.2] at hok
            have hel2 : el = ⟨some (.int64Val ival)⟩ := by
              cases el
              simp only at hc
              simp [hc, hcv]
            simp [gox.Package.emit, hel2, hel]
  · rename_i hv
    simp only [Except.ok.injEq, Prod.mk.injEq] at h
    obtain ⟨h1, h2⟩ := h
    subst h1 h2
    simp [gox.Package.emit]

/-- The loop over the constants records one declaration per constant, in order; a constant
with an initializer gets its folded value, one without gets the incoming counter when it is
the first and the value before it plus one otherwise. -/
theorem compileEnumConsts_ok (compileExpr : Node → Except String Element) :
    ∀ (items : List Node) (ctx ctx1 : blockCtx) (iotav : Int),
      compileEnumConsts compileExpr ctx items iotav = .ok ctx1 →
      ∃ vals : List Int, vals.length = items.length ∧
        ctx1.pkg.emitted = ctx.pkg.emitted ++
          List.zipWith (fun (item : Node) (v : Int) =>
            (ctx.pkg.curFile, Decl.constDecl item.Name ctypesInt ⟨some (.int64Val v)⟩))
            items vals ∧
        ∀ (k : Nat) (item : Node), items[k]? = some item →
          match item.Inner with
          | e :: _ => compileExpr e = .ok ⟨some (.int64Val (vals.getD k 0))⟩
          | [] => vals.getD k 0 = if k = 0 then iotav else vals.getD (k - 1) 0 + 1 := by
  intro items
  induction items with
  | nil =>
    intro ctx ctx1 iotav h
    simp only [compileEnumConsts, Except.ok.injEq] at h
    subst h
    exact ⟨[], rfl, by simp, by simp⟩
  | cons item rest ih =>
    intro ctx ctx1 iotav h
    simp only [compileEnumConsts] at h
    split at h
    · cases h
    · rename_i next ctx2 h2
      obtain ⟨hcur, hem, hval⟩ := compileEnumConst_ok compileExpr ctx ctx2 item iotav next h2
      obtain ⟨vals, hlen, hem1, hall⟩ := ih ctx2 ctx1 next h
      refine ⟨(next - 1) :: vals, by simp [hlen], ?_, ?_⟩
      · rw [hem1, hem, hcur]
        simp
      · intro k it hk
        cases k with
        | zero =>
          simp only [List.getElem?_cons_zero, Option.some.injEq] at hk
          subst hk
          revert hval
          split <;> simp
        | succ k =>
          simp only [List.getElem?_cons_succ] at hk
          have := hall k it hk
          revert this
          split
          · simp
          · intro hv
            simp only [List.getD_cons_succ, Nat.add_sub_cancel, Nat.succ_ne_zero, if_false]
            rw [hv]
            cases k with
            | zero => simp
            | succ j => simp

/-- C1. Every enum declaration that `compileEnum` compiles and does not drop as an already
seen header symbol records one constant per enumerator, in declared order; the value of an
enumerator with an initializer is the integer its initializer folds to, the value of one
without is 0 when it is the first and the previous enumerator's value plus one otherwise. -/
theorem compileEnum_values (compileExpr : Node → Except String Element) (ctx ctx1 : blockCtx)
    (decl : Node) (global : Bool)
    (hrun : compileEnum compileExpr ctx decl global = .ok ctx1)
    (hkeep : ∀ first rest m, decl.Inner = first :: rest → global = true →
      ctx.inHeader = true → ctx.exists_ = some m → first.Name ∉ m) :
    ∃ vals : List Int, vals.length = decl.Inner.length ∧
      ctx1.pkg.emitted = ctx.pkg.emitted ++
        List.zipWith (fun (item : Node) (v : Int) =>
          (ctx.pkg.curFile, Decl.constDecl item.Name ctypesInt ⟨some (.int64Val v)⟩))
          decl.Inner vals ∧
      ∀ (k : Nat) (item : Node), decl.Inner[k]? = some item →
        match item.Inner with
        | e :: _ => compileExpr e = .ok ⟨some (.int64Val (vals.getD k 0))⟩
        | [] => vals.getD k 0 = if k = 0 then 0 else vals.getD (k - 1) 0 + 1 := by
  unfold compileEnum at hrun
  simp only at hrun
  split at hrun
  · rename_i first rest hin
    cases global with
    | false =>
      simp only [Bool.false_eq_true, if_false] at hrun
      rw [hin] at hrun ⊢
      exact compileEnumConsts_ok compileExpr _ ctx ctx1 0 hrun
    | true =>
      simp only [if_true] at hrun
      rcases checkExists_cases ctx first.Name with h | h | h | h
      · rw [h.2] at hrun
        simp only at hrun
        rw [hin] at hrun ⊢
        exact compileEnumConsts_ok compileExpr _ ctx ctx1 0 hrun
      · rw [h.2.2] at hrun
        cases hrun
      · obtain ⟨m, h1, h2, h3, _⟩ := h
        exact absurd h3 (hkeep first rest m hin rfl h1 h2)
      · obtain ⟨m, h1, h2, h3, h4⟩ := h
        rw [h4] at hrun
        simp only at hrun
        rw [hin] at hrun ⊢
        have hloop := compileEnumConsts_ok compileExpr _ _ ctx1 0 hrun
        exact hloop
  · rename_i hin
    rw [hin] at hrun ⊢
    exact compileEnumConsts_ok compileExpr _ ctx ctx1 0 hrun

/-- C1, at the example of the specification: `A, B = 5, C` are recorded as 0, 5 and 6. -/
theorem compileEnum_values_witness :
    ∃ ctx1 : blockCtx, compileEnum foldsToFive {} enumABC true = .ok ctx1 ∧
      ctx1.pkg.emitted =
        [("", Decl.constDecl "A" (.basic "int32") ⟨some (.int64Val 0)⟩),
         ("", Decl.constDecl "B" (.basic "int32") ⟨some (.int64Val 5)⟩),
         ("", Decl.constDecl "C" (.basic "int32") ⟨some (.int64Val 6)⟩)] ∧
      ∃ vals : List Int, vals.length = enumABC.Inner.length ∧
        ctx1.pkg.emitted = ({} : blockCtx).pkg.emitted ++
          List.zipWith (fun (item : Node) (v : Int) =>
            (({} : blockCtx).pkg.curFile,
              Decl.constDecl item.Name ctypesInt ⟨some (.int64Val v)⟩))
            enumABC.Inner vals ∧
        ∀ (k : Nat) (item : Node), enumABC.Inner[k]? = some item →
          match item.Inner with
          | e :: _ => foldsToFive e = .ok ⟨some (.int64Val (vals.getD k 0))⟩
          | [] => vals.getD k 0 = if k = 0 then 0 else vals.getD (k - 1) 0 + 1 :=
  ⟨{ pkg := { emitted :=
        [("", Decl.constDecl "A" (.basic "int32") ⟨some (.int64Val 0)⟩),
         ("", Decl.constDecl "B" (.basic "int32") ⟨some (.int64Val 5)⟩),
         ("", Decl.constDecl "C" (.basic "int32") ⟨some (.int64Val 6)⟩)] } }, rfl, rfl,
    compileEnum_values foldsToFive {} _ enumABC true rfl
      (fun _ _ _ _ _ h _ => by simp at h)⟩

/-- A session of `checkExists` calls on an allocated set never aborts and only adds names. -/
theorem checkExistsAll_grows :
    ∀ (calls : List (Bool × String)) (p : blockCtx) (m : List String), p.exists_ = some m →
      ∃ rs p2 m2, checkExistsAll p calls = .ok (rs, p2) ∧ p2.exists_ = some m2 ∧
        ∀ n, n ∈ m → n ∈ m2 := by
  intro calls
  induction calls with
  | nil =>
    intro p m hm
    exact ⟨[], p, m, rfl, hm, fun _ h => h⟩
  | cons call calls ih =>
    intro p m hm
    simp only [checkExistsAll]
    rcases checkExists_cases { p with inHeader := call.1 } call.2 with h | h | h | h
    · rw [h.2]
      obtain ⟨rs, p2, m2, h1, h2, h3⟩ := ih { p with inHeader := call.1 } m hm
      simp only [h1]
      exact ⟨_, _, m2, rfl, h2, h3⟩
    · simp [hm] at h
    · obtain ⟨m', _, h2, _, h4⟩ := h
      rw [h4]
      obtain ⟨rs, p2, m2, h1, h2', h3⟩ := ih { p with inHeader := call.1 } m hm
      simp only [h1]
      exact ⟨_, _, m2, rfl, h2', h3⟩
    · obtain ⟨m', _, h2, _, h4⟩ := h
      rw [h4]
      have hmm : m' = m := by
        simp only [hm, Option.some.injEq] at h2
        exact h2.symm
      subst hmm
      obtain ⟨rs, p2, m2, h1, h2', h3⟩ :=
        ih { p with inHeader := call.1, exists_ := some (call.2 :: m') } (call.2 :: m') rfl
      simp only [h1]
      exact ⟨_, _, m2, rfl, h2', fun n hn => h3 n (List.mem_cons_of_mem _ hn)⟩

/-- C5. In header mode, on the allocated set of a session, `checkExists` returns true exactly
when the name was in the set already; afterwards the name is in the set, the membership of
every other name and the rest of the context are unchanged. Hence after any further calls of
the session a second header-mode call with the same name returns true and changes nothing,
and a header enum whose first enumerator has that name is dropped without emitting. -/
theorem checkExists_header (p : blockCtx) (name : String) (m : List String)
    (hh : p.inHeader = true) (hm : p.exists_ = some m) :
    ∃ m1, checkExists p name = .ok (decide (name ∈ m), { p with exists_ := some m1 }) ∧
      name ∈ m1 ∧ (∀ other, other ≠ name → (other ∈ m1 ↔ other ∈ m)) ∧
      ∀ calls : List (Bool × String),
        ∃ rs p2, checkExistsAll { p with exists_ := some m1 } calls = .ok (rs, p2) ∧
          checkExists { p2 with inHeader := true } name =
            .ok (true, { p2 with inHeader := true }) ∧
          ∀ (compileExpr : Node → Except String Element) (decl first : Node) (rest : List Node),
            decl.Inner = first :: rest → first.Name = name →
            compileEnum compileExpr { p2 with inHeader := true } decl true =
              .ok { p2 with inHeader := true } := by
  have second : ∀ m1 : List String, name ∈ m1 → ∀ calls : List (Bool × String),
      ∃ rs p2, checkExistsAll { p with exists_ := some m1 } calls = .ok (rs, p2) ∧
        checkExists { p2 with inHeader := true } name =
          .ok (true, { p2 with inHeader := true }) ∧
        ∀ (compileExpr : Node → Except String Element) (decl first : Node) (rest : List Node),
          decl.Inner = first :: rest → first.Name = name →
          compileEnum compileExpr { p2 with inHeader := true } decl true =
            .ok { p2 with inHeader := true } := by
    intro m1 hin calls
    obtain ⟨rs, p2, m2, h1, h2, h3⟩ :=
      checkExistsAll_grows calls { p with exists_ := some m1 } m1 rfl
    have hce : checkExists { p2 with inHeader := true } name =
        .ok (true, { p2 with inHeader := true }) := by
      simp [checkExists, h2, h3 name hin]
    refine ⟨rs, p2, h1, hce, ?_⟩
    intro compileExpr decl first rest hd hn
    subst hn
    simp only [compileEnum, hd, if_true, hce]
  have hp : ({ p with exists_ := some m } : blockCtx) = p := by rw [← hm]
  by_cases hin : name ∈ m
  · refine ⟨m, ?_, hin, fun _ _ => Iff.rfl, second m hin⟩
    rw [hp]
    simp only [checkExists, hh, hm, if_true]
    simp [hin]
  · refine ⟨name :: m, ?_, List.mem_cons_self _ _, ?_, second (name :: m) (List.mem_cons_self _ _)⟩
    · simp only [checkExists, hh, hm, if_true]
      simp [hin]
    · intro other hne
      simp [hne]

/-- C5, at a concrete session: the first header-mode call for `FILE` inserts it and returns
false. -/
theorem checkExists_header_witness :
    ∃ m1, checkExists { inHeader := true, hasMulti := true, exists_ := some ["size_t"] } "FILE" =
        .ok (decide ("FILE" ∈ ["size_t"]),
          { inHeader := true, hasMulti := true, exists_ := some m1 }) ∧
      "FILE" ∈ m1 ∧ (∀ other, other ≠ "FILE" → (other ∈ m1 ↔ other ∈ ["size_t"])) :=
  match checkExists_header { inHeader := true, hasMulti := true, exists_ := some ["size_t"] }
      "FILE" ["size_t"] rfl rfl with
  | ⟨m1, h1, h2, h3, _⟩ => ⟨m1, h1, h2, h3⟩

/-- An object found by `Scope.Lookup` has the name looked up. -/
theorem Scope.Lookup_name (s : Scope) (name : String) (o : Object)
    (h : s.Lookup name = some o) : o.Name = name := by
  have := List.find?_some h
  simpa using this

/-- `Scope.setReal` changes no name. -/
theorem Scope.setReal_lookup (s : Scope) (static other : String) (real : Option Object) :
    (s.setReal static real).Lookup other =
      (s.Lookup other).map (fun o =>
        match o with
        | .subst n r => if n == static then .subst n real else .subst n r
        | .decl k n t => .decl k n t) := by
  induction s with
  | nil => rfl
  | cons o rest ih =>
    simp only [Scope.setReal, Scope.Lookup, List.map_cons, List.find?_cons] at ih ⊢
    cases o with
    | decl k n t =>
      simp only [Object.Name]
      cases hn : n == other
      · simpa using ih
      · simp
    | subst n r =>
      by_cases hs : n = static
      · subst hs
        simp only [beq_self_eq_true, if_true, Object.Name]
        cases hn : n == other
        · simpa using ih
        · simp
      · have hs2 : (n == static) = false := by simpa using hs
        simp only [hs2, Bool.false_eq_true, if_false, Object.Name]
        cases hn : n == other
        · simpa using ih
        · simp [hs]

/-- C10. `substObj` has three cases. Without an entry for the original name the substitution
pointing at the symbol found under the mangled name is inserted. With an entry that is a
substitution its target is updated in place: no entry is added and no other name changes.
It aborts, with the message that the name is redefined, exactly when the entry is a real
declaration. -/
theorem substObj_cases (scope scope2 : Scope) (static name : String) :
    (scope.Lookup static = none →
      substObj scope static scope2 name =
        .ok (scope ++ [NewSubst static (scope2.Lookup name)])) ∧
    (∀ n r, scope.Lookup static = some (.subst n r) →
      ∃ scope1, substObj scope static scope2 name = .ok scope1 ∧
        scope1.length = scope.length ∧
        scope1.Lookup static = some (.subst static (scope2.Lookup name)) ∧
        ∀ other, other ≠ static → scope1.Lookup other = scope.Lookup other) ∧
    ((∃ k n t, scope.Lookup static = some (.decl k n t)) ↔
      ∃ msg, substObj scope static scope2 name = .error msg) ∧
    (∀ msg, substObj scope static scope2 name = .error msg → msg = static ++ " redefined\n") := by
  refine ⟨?_, ?_, ?_, ?_⟩
  · intro h
    simp [substObj, Scope.Insert, NewSubst, Object.Name, h]
  · intro n r h
    have hn : n = static := Scope.Lookup_name scope static _ h
    subst hn
    refine ⟨scope.setReal n (scope2.Lookup name), ?_, ?_, ?_, ?_⟩
    · simp [substObj, Scope.Insert, NewSubst, Object.Name, h, Object.isSubst]
    · simp [Scope.setReal]
    · rw [Scope.setReal_lookup, h]
      simp
    · intro other hne
      rw [Scope.setReal_lookup]
      cases ho : scope.Lookup other with
      | none => rfl
      | some o =>
        have hon : o.Name = other := Scope.Lookup_name scope other o ho
        cases o with
        | decl k n2 t => rfl
        | subst n2 r2 =>
          simp only [Object.Name] at hon
          subst hon
          simp [hne]
  · constructor
    · rintro ⟨k, n, t, h⟩
      exact ⟨static ++ " redefined\n", by
        simp [substObj, Scope.Insert, NewSubst, Object.Name, h, Object.isSubst]⟩
    · rintro ⟨msg, h⟩
      cases hl : scope.Lookup static with
      | none => simp [substObj, Scope.Insert, NewSubst, Object.Name, hl] at h
      | some o =>
        cases o with
        | decl k n t => exact ⟨k, n, t, rfl⟩
        | subst n r =>
          simp [substObj, Scope.Insert, NewSubst, Object.Name, hl, Object.isSubst] at h
  · intro msg h
    cases hl : scope.Lookup static with
    | none => simp [substObj, Scope.Insert, NewSubst, Object.Name, hl] at h
    | some o =>
      cases o with
      | decl k n t =>
        simp [substObj, Scope.Insert, NewSubst, Object.Name, hl, Object.isSubst] at h
        exact h.symm
      | subst n r =>
        simp [substObj, Scope.Insert, NewSubst, Object.Name, hl, Object.isSubst] at h

/-- Lookup in a scope extended at its end. -/
theorem Scope.Lookup_append (s t : Scope) (name : String) :
    Scope.Lookup (s ++ t) name = (s.Lookup name).or (Scope.Lookup t name) := by
  simp only [Scope.Lookup, List.find?_append]

/-- The inner loop, followed by the one-loop run of the remaining entries, is the one-loop
run of all of them. -/
theorem importPubs_entries (Ref : String → String → Option Object) (fmt : Object → String)
    (path : String) (rest : List (String × pubName)) :
    ∀ (pubs : List pubName) (scope : Scope),
      (match importPubs Ref fmt path scope pubs with
        | .error msg => .error msg
        | .ok scope1 => importEntries Ref fmt scope1 rest) =
      importEntries Ref fmt scope (pubs.map (fun pub => (path, pub)) ++ rest) := by
  intro pubs
  induction pubs with
  | nil => intro scope; rfl
  | cons pub pubs ih =>
    intro scope
    simp only [importPubs, List.map_cons, List.cons_append, importEntries, entrySubst]
    cases hi : scope.Insert (NewSubst pub.name (Ref path pub.goName)) with
    | mk old scope1 =>
      cases old with
      | none => exact ih scope1
      | some o => rfl

/-- The loops of `initDepPkgs` are the one-loop run over `depPkgs.entries`. -/
theorem importDeps_entries (Ref : String → String → Option Object) (fmt : Object → String) :
    ∀ (deps : List depPkg) (scope : Scope),
      importDeps Ref fmt scope deps = importEntries Ref fmt scope (depPkgs.entries deps) := by
  intro deps
  induction deps with
  | nil => intro scope; rfl
  | cons dep deps ih =>
    intro scope
    have h := importPubs_entries Ref fmt dep.path (depPkgs.entries deps) dep.pubs scope
    simp only [depPkgs.entries, List.flatMap_cons] at h ⊢
    rw [← h]
    simp only [importDeps]
    cases importPubs Ref fmt dep.path scope dep.pubs with
    | error msg => rfl
    | ok scope1 => exact ih scope1

/-- An abort of the one-loop run happens at an entry whose name the scope holds after all
entries before it were inserted as new names. -/
theorem importEntries_error (Ref : String → String → Option Object) (fmt : Object → String) :
    ∀ (es : List (String × pubName)) (scope : Scope) (msg : String),
      importEntries Ref fmt scope es = .error msg →
      ∃ pre e post old, es = pre ++ e :: post ∧
        (∀ i e1, pre[i]? = some e1 →
          Scope.Lookup (scope ++ (pre.take i).map (entrySubst Ref)) e1.2.name = none) ∧
        Scope.Lookup (scope ++ pre.map (entrySubst Ref)) e.2.name = some old ∧
        msg = conflictedName e.2.name e.1 (fmt old) := by
  intro es
  induction es with
  | nil => intro scope msg h; cases h
  | cons e es ih =>
    intro scope msg h
    simp only [importEntries, Scope.Insert] at h
    have hname : (entrySubst Ref e).Name = e.2.name := rfl
    rw [hname] at h
    cases hl : scope.Lookup e.2.name with
    | some old =>
      rw [hl] at h
      simp only [Except.error.injEq] at h
      exact ⟨[], e, es, old, rfl, by simp, by simpa using hl, h.symm⟩
    | none =>
      rw [hl] at h
      simp only at h
      obtain ⟨pre, e2, post, old, h1, h2, h3, h4⟩ := ih _ msg h
      refine ⟨e :: pre, e2, post, old, by simp [h1], ?_, by simpa using h3, h4⟩
      intro i e1 hi
      cases i with
      | zero =>
        simp only [List.getElem?_cons_zero, Option.some.injEq] at hi
        subst hi
        simpa using hl
      | succ i =>
        simp only [List.getElem?_cons_succ] at hi
        simpa using h2 i e1 hi

/-- A name the scope holds already makes the one-loop run abort when an entry has it. -/
theorem importEntries_held (Ref : String → String → Option Object) (fmt : Object → String) :
    ∀ (es : List (String × pubName)) (scope : Scope) (n : String),
      (scope.Lookup n).isSome → n ∈ es.map (fun e => e.2.name) →
      ∃ msg, importEntries Ref fmt scope es = .error msg := by
  intro es
  induction es with
  | nil => intro scope n _ hn; simp at hn
  | cons e es ih =>
    intro scope n hs hn
    simp only [importEntries, Scope.Insert]
    have hname : (entrySubst Ref e).Name = e.2.name := rfl
    rw [hname]
    cases hl : scope.Lookup e.2.name with
    | some old => exact ⟨_, rfl⟩
    | none =>
      simp only
      have hne : e.2.name ≠ n := by
        intro heq
        rw [heq] at hl
        simp [hl] at hs
      have hn2 : n ∈ es.map (fun e => e.2.name) := by
        simp only [List.map_cons, List.mem_cons] at hn
        rcases hn with h | h
        · exact absurd h.symm hne
        · exact h
      refine ih _ n ?_ hn2
      rw [Scope.Lookup_append]
      cases hsn : scope.Lookup n with
      | none => simp [hsn] at hs
      | some o => simp

/-- A name that two entries have makes the one-loop run abort. -/
theorem importEntries_dup (Ref : String → String → Option Object) (fmt : Object → String) :
    ∀ (es : List (String × pubName)) (scope : Scope),
      ¬ (es.map (fun e => e.2.name)).Nodup →
      ∃ msg, importEntries Ref fmt scope es = .error msg := by
  intro es
  induction es with
  | nil => intro scope h; simp at h
  | cons e es ih =>
    intro scope h
    simp only [importEntries, Scope.Insert]
    have hname : (entrySubst Ref e).Name = e.2.name := rfl
    rw [hname]
    cases hl : scope.Lookup e.2.name with
    | some old => exact ⟨_, rfl⟩
    | none =>
      simp only
      simp only [List.map_cons, List.nodup_cons, not_and_or, not_not] at h
      rcases h with h | h
      · refine importEntries_held Ref fmt es _ e.2.name ?_ h
        rw [Scope.Lookup_append]
        simp [hl, Scope.Lookup, entrySubst, NewSubst, Object.Name]
      · exact ih _ h

/-- C2. When one source name occurs in two manifest entries `initDepPkgs` aborts, in
whichever order the dependencies are listed. Every abort is the conflicted-name error of an
entry whose source name the package scope holds at the moment it is imported, that is after
all entries before it were inserted as new names: the message names that symbol, the
dependency being imported and the object already there. -/
theorem initDepPkgs_conflict (Ref : String → String → Option Object) (fmt : Object → String)
    (pkg : gox.Package) (deps : depPkgs) :
    (¬ ((depPkgs.entries deps.pkgs).map (fun e => e.2.name)).Nodup →
      ∃ msg, initDepPkgs Ref fmt pkg deps = .error msg) ∧
    (∀ (d1 d2 : depPkg) (n : String),
      n ∈ d1.pubs.map (fun pub => pub.name) → n ∈ d2.pubs.map (fun pub => pub.name) →
      (∃ msg, initDepPkgs Ref fmt pkg { deps with pkgs := [d1, d2] } = .error msg) ∧
      (∃ msg, initDepPkgs Ref fmt pkg { deps with pkgs := [d2, d1] } = .error msg)) ∧
    (∀ msg, initDepPkgs Ref fmt pkg deps = .error msg →
      ∃ pre e post old, depPkgs.entries deps.pkgs = pre ++ e :: post ∧
        (∀ i e1, pre[i]? = some e1 →
          Scope.Lookup (pkg.scopeAt pkg.typesScope ++ (pre.take i).map (entrySubst Ref))
            e1.2.name = none) ∧
        Scope.Lookup (pkg.scopeAt pkg.typesScope ++ pre.map (entrySubst Ref)) e.2.name =
          some old ∧
        msg = conflictedName e.2.name e.1 (fmt old)) := by
  have aborts : ∀ pkgs : List depPkg,
      ¬ ((depPkgs.entries pkgs).map (fun e => e.2.name)).Nodup →
      ∃ msg, initDepPkgs Ref fmt pkg { deps with pkgs := pkgs } = .error msg := by
    intro pkgs h
    obtain ⟨msg, hm⟩ := importEntries_dup Ref fmt _ (pkg.scopeAt pkg.typesScope) h
    refine ⟨msg, ?_⟩
    simp only [initDepPkgs, importDeps_entries, hm]
  have names : ∀ d : depPkg, (depPkgs.entries [d]).map (fun e => e.2.name) =
      d.pubs.map (fun pub => pub.name) := by
    intro d
    simp [depPkgs.entries, Function.comp_def]
  have two : ∀ (d1 d2 : depPkg) (n : String),
      n ∈ d1.pubs.map (fun pub => pub.name) → n ∈ d2.pubs.map (fun pub => pub.name) →
      ¬ ((depPkgs.entries [d1, d2]).map (fun e => e.2.name)).Nodup := by
    intro d1 d2 n h1 h2 hnd
    have hsplit : (depPkgs.entries [d1, d2]).map (fun e => e.2.name) =
        d1.pubs.map (fun pub => pub.name) ++ d2.pubs.map (fun pub => pub.name) := by
      simp [depPkgs.entries, Function.comp_def]
    rw [hsplit] at hnd
    exact (List.nodup_append.1 hnd).2.2 h1 h2 
  refine ⟨?_, ?_, ?_⟩
  · intro h
    exact aborts deps.pkgs h
  · intro d1 d2 n h1 h2
    exact ⟨aborts [d1, d2] (two d1 d2 n h1 h2), aborts [d2, d1] (two d2 d1 n h2 h1)⟩
  · intro msg h
    simp only [initDepPkgs, importDeps_entries] at h
    cases hi : importEntries Ref fmt (pkg.scopeAt pkg.typesScope) (depPkgs.entries deps.pkgs) with
    | ok scope => rw [hi] at h; cases h
    | error m =>
      rw [hi] at h
      simp only [Except.error.injEq] at h
      subst h
      exact importEntries_error Ref fmt _ _ _ hi

/-- The case of `TestInitDepPkgs`: importing the same manifest twice into a new package
aborts with the message the test expects. -/
theorem initDepPkgs_test :
    initDepPkgs libcRef showObject {} { pkgs := [libcDep, libcDep] } =
      .error ("conflicted name `printf` in github.com/weblfe/c2go/cl/internal/libc, " ++
        "previous definition is var printf substType\x7breal: func " ++
        "github.com/weblfe/c2go/cl/internal/libc.Printf(fmt *int8, args ...interface\x7b\x7d)\x7d\n") := by
  rfl

/-- Digits that `Nat.toDigits` pushes are decimal digits. -/
theorem digitChar_isDigit : ∀ n, n < 10 → (Nat.digitChar n).isDigit = true := by
  decide

/-- A decimal digit character decodes to the digit. -/
theorem digitChar_toNat : ∀ n, n < 10 → (Nat.digitChar n).toNat - 48 = n := by
  decide

/-- Decoding the output of `Nat.toDigitsCore` continues the decoding of the digits already
there from the number being printed. -/
theorem toDigitsCore_decode :
    ∀ (fuel n : Nat) (ds : List Char), n < fuel →
      (Nat.toDigitsCore 10 fuel n ds).foldl (fun acc c => acc * 10 + (c.toNat - 48)) 0 =
        ds.foldl (fun acc c => acc * 10 + (c.toNat - 48)) n := by
  intro fuel
  induction fuel with
  | zero => intro n ds h; omega
  | succ fuel ih =>
    intro n ds h
    simp only [Nat.toDigitsCore]
    have hd := digitChar_toNat (n % 10) (Nat.mod_lt _ (by decide))
    split
    · rename_i h0
      simp only [List.foldl_cons, Nat.zero_mul, Nat.zero_add, hd]
      have : n % 10 = n := by omega
      rw [this]
    · rename_i h0
      rw [ih (n / 10) _ (by omega)]
      simp only [List.foldl_cons, hd]
      have : n / 10 * 10 + n % 10 = n := by omega
      rw [this]

/-- Characters that `Nat.toDigitsCore` produces are decimal digits. -/
theorem toDigitsCore_isDigit :
    ∀ (fuel n : Nat) (ds : List Char), (∀ c ∈ ds, c.isDigit = true) →
      ∀ c ∈ Nat.toDigitsCore 10 fuel n ds, c.isDigit = true := by
  intro fuel
  induction fuel with
  | zero => intro n ds h; simpa [Nat.toDigitsCore] using h
  | succ fuel ih =>
    intro n ds h
    simp only [Nat.toDigitsCore]
    have hd := digitChar_isDigit (n % 10) (Nat.mod_lt _ (by decide))
    have hcons : ∀ c ∈ Nat.digitChar (n % 10) :: ds, c.isDigit = true := by
      intro c hc
      rcases List.mem_cons.1 hc with h1 | h1
      · rw [h1]; exact hd
      · exact h c h1
    split
    · exact hcons
    · exact ih _ _ hcons

/-- `Itoa` produces decimal digits only. -/
theorem Itoa_isDigit (n : Nat) : ∀ c ∈ (Itoa n).data, c.isDigit = true := by
  simpa [Itoa, Nat.repr, Nat.toDigits, List.asString] using
    toDigitsCore_isDigit (n + 1) n [] (by simp)

/-- `Itoa` is injective. -/
theorem Itoa_injective (a b : Nat) (h : (Itoa a).data = (Itoa b).data) : a = b := by
  have ha := toDigitsCore_decode (a + 1) a [] (by omega)
  have hb := toDigitsCore_decode (b + 1) b [] (by omega)
  simp only [Itoa, Nat.repr, Nat.toDigits, List.asString] at h
  rw [h] at ha
  rw [ha] at hb
  simpa using hb

/-- After a character that is no digit, a run of digits that ends the string is its longest
suffix of digits. -/
theorem trailingDigits_append (pre ds : List Char) (c : Char) (hc : c.isDigit = false)
    (hds : ∀ d ∈ ds, d.isDigit = true) : trailingDigits (pre ++ c :: ds) = ds := by
  have key : ∀ (l r : List Char), (∀ d ∈ l, d.isDigit = true) →
      (l ++ c :: r).takeWhile Char.isDigit = l := by
    intro l
    induction l with
    | nil => intro r _; simp [List.takeWhile, hc]
    | cons x l ih =>
      intro r hl
      rw [List.cons_append, List.takeWhile_cons, hl x (List.mem_cons_self _ _)]
      simp only [if_true]
      rw [ih r (fun d hd => hl d (List.mem_cons_of_mem _ hd))]
  simp only [trailingDigits, List.reverse_append, List.reverse_cons, List.append_assoc,
    List.singleton_append]
  rw [key ds.reverse pre.reverse (fun d hd => hds d (List.mem_reverse.1 hd))]
  simp

/-- The digits that end the name of an anonymous aggregate are its counter. -/
theorem trailingDigits_cgoa (k : Nat) :
    trailingDigits ("_cgoa_" ++ Itoa k).data = (Itoa k).data := by
  have : ("_cgoa_" ++ Itoa k).data = ['_', 'c', 'g', 'o', 'a'] ++ '_' :: (Itoa k).data := by
    simp [String.data_append]
  rw [this]
  exact trailingDigits_append _ _ _ (by decide) (Itoa_isDigit k)

/-- The digits that end the mangled name of a static variable are its counter. -/
theorem trailingDigits_cgo (name : String) (k : Nat) :
    trailingDigits (name ++ "_cgo" ++ Itoa k).data = (Itoa k).data := by
  have : (name ++ "_cgo" ++ Itoa k).data =
      (name.data ++ ['_', 'c', 'g']) ++ 'o' :: (Itoa k).data := by
    simp [String.data_append]
  rw [this]
  exact trailingDigits_append _ _ _ (by decide) (Itoa_isDigit k)

/-- The names generated in a session end in the successive values of the counter. -/
theorem nameCalls_counters (MangledName : String → String → String) :
    ∀ (calls : List (blockCtx × NameCall)) (base : Nat),
      (nameCalls MangledName base calls).2 =
        base + (nameCalls MangledName base calls).1.length ∧
      (nameCalls MangledName base calls).1.map (fun s => trailingDigits s.data) =
        (List.range' (base + 1) (nameCalls MangledName base calls).1.length).map
          (fun k => (Itoa k).data) := by
  intro calls
  induction calls with
  | nil => intro base; simp [nameCalls]
  | cons call calls ih =>
    intro base
    obtain ⟨p, c⟩ := call
    cases c with
    | getSuName v tag =>
      by_cases hv : v.Name = ""
      · have h := ih (base + 1)
        simp only [nameCalls, getSuName, hv, ne_eq, not_true_eq_false, if_false, if_true,
          List.length_cons, List.map_cons, List.range'_succ, trailingDigits_cgoa]
        refine ⟨by omega, ?_⟩
        rw [h.2]
      · have h := ih base
        simp only [nameCalls, getSuName, hv, ne_eq, not_false_eq_true, if_true, suNormal,
          suAnonymous, Nat.zero_ne_one, if_false]
        exact h
    | autoStaticName name =>
      have h := ih (base + 1)
      simp only [nameCalls, autoStaticName, List.length_cons, List.map_cons, List.range'_succ,
        trailingDigits_cgo]
      refine ⟨by omega, ?_⟩
      rw [h.2]

/-- A session run in two parts. -/
theorem nameCalls_append (MangledName : String → String → String) :
    ∀ (a b : List (blockCtx × NameCall)) (base : Nat),
      nameCalls MangledName base (a ++ b) =
        ((nameCalls MangledName base a).1 ++
            (nameCalls MangledName (nameCalls MangledName base a).2 b).1,
          (nameCalls MangledName (nameCalls MangledName base a).2 b).2) := by
  intro a
  induction a with
  | nil => intro b base; simp [nameCalls]
  | cons call a ih =>
    intro b base
    obtain ⟨p, c⟩ := call
    cases c with
    | getSuName v tag =>
      simp only [List.cons_append, nameCalls, List.append_eq]
      rw [ih]
      split <;> simp
    | autoStaticName name =>
      simp only [List.cons_append, nameCalls, List.append_eq]
      rw [ih]

/-- The names generated in a session are pairwise different. -/
theorem nameCalls_nodup (MangledName : String → String → String)
    (calls : List (blockCtx × NameCall)) (base : Nat) :
    (nameCalls MangledName base calls).1.Nodup := by
  have h := (nameCalls_counters MangledName calls base).2
  have hnd : ((nameCalls MangledName base calls).1.map (fun s => trailingDigits s.data)).Nodup := by
    rw [h]
    refine List.Nodup.map_on ?_ (List.nodup_range' _ _)
    intro x _ y _ hxy
    exact Itoa_injective x y hxy
  exact List.Nodup.of_map _ hnd

/-- The example manifest: two lines, fields, entries. -/
theorem loadPubFile_example :
    Split "printf\nfoo Bar\n\t \n" '\n' = ["printf", "foo Bar", "\t ", ""] ∧
    Fields "  foo \t Bar\r" = ["foo", "Bar"] ∧
    loadPubFile pubExample pubNameExample "c2go.a.pub" =
      .ok [{ name := "printf", goName := "Xprintf" }, { name := "foo", goName := "Bar" }] ∧
    loadPubFile (fun _ => .ok "a\nb c d\ne f g") pubNameExample "c2go.a.pub" =
      .error "c2go.a.pub:2: too many fields - b c d\n" := by
  refine ⟨by decide, by decide, rfl, rfl⟩

/-- Without a line of more than two fields the loop returns the entries of the lines that
have a field, in line order, after the entries read before. -/
theorem loadPubLines_ok (PubName : String → String) (pubfile : String) :
    ∀ (lines : List String) (pubs : List pubName) (i : Nat),
      (∀ l ∈ lines, (Fields l).length ≤ 2) →
      loadPubLines PubName pubfile pubs i lines =
        .ok (pubs ++ (lines.filter (fun l => decide (1 ≤ (Fields l).length))).map
          (entryOfLine PubName)) := by
  intro lines
  induction lines with
  | nil => intro pubs i _; simp [loadPubLines]
  | cons line lines ih =>
    intro pubs i h
    have hrest : ∀ l ∈ lines, (Fields l).length ≤ 2 :=
      fun l hl => h l (List.mem_cons_of_mem _ hl)
    have hline := h line (List.mem_cons_self _ _)
    simp only [loadPubLines]
    split
    · rename_i hf
      rw [ih _ _ hrest]
      simp [List.filter_cons, hf]
    · rename_i name hf
      rw [ih _ _ hrest]
      simp [List.filter_cons, hf, entryOfLine]
    · rename_i name goName hf
      rw [ih _ _ hrest]
      simp [List.filter_cons, hf, entryOfLine]
    · rename_i a b c d hf
      rw [hf] at hline
      simp at hline

/-- An abort of the loop reports the first line of more than two fields. -/
theorem loadPubLines_error (PubName : String → String) (pubfile : String) :
    ∀ (lines : List String) (pubs : List pubName) (i : Nat) (msg : String),
      loadPubLines PubName pubfile pubs i lines = .error msg →
      ∃ k line, lines[k]? = some line ∧ 2 < (Fields line).length ∧
        (∀ j l, j < k → lines[j]? = some l → (Fields l).length ≤ 2) ∧
        msg = pubfile ++ ":" ++ Itoa (i + k + 1) ++ ": too many fields - " ++ line ++ "\n" := by
  intro lines
  induction lines with
  | nil => intro pubs i msg h; simp [loadPubLines] at h
  | cons line lines ih =>
    intro pubs i msg h
    have step : ∀ pubs1, (Fields line).length ≤ 2 →
        loadPubLines PubName pubfile pubs1 (i + 1) lines = .error msg →
        ∃ k line1, (line :: lines)[k]? = some line1 ∧ 2 < (Fields line1).length ∧
          (∀ j l, j < k → (line :: lines)[j]? = some l → (Fields l).length ≤ 2) ∧
          msg = pubfile ++ ":" ++ Itoa (i + k + 1) ++ ": too many fields - " ++ line1 ++ "\n" := by
      intro pubs1 hlen h1
      obtain ⟨k, line1, hk, hl, hbefore, hmsg⟩ := ih pubs1 (i + 1) msg h1
      refine ⟨k + 1, line1, by simpa using hk, hl, ?_, ?_⟩
      · intro j l hj hjl
        cases j with
        | zero =>
          simp only [List.getElem?_cons_zero, Option.some.injEq] at hjl
          subst hjl
          exact hlen
        | succ j =>
          simp only [List.getElem?_cons_succ] at hjl
          exact hbefore j l (by omega) hjl
      · rw [hmsg]
        have : i + 1 + k + 1 = i + (k + 1) + 1 := by omega
        rw [this]
    simp only [loadPubLines] at h
    split at h
    · rename_i hf
      exact step _ (by simp [hf]) h
    · rename_i name hf
      exact step _ (by simp [hf]) h
    · rename_i name goName hf
      exact step _ (by simp [hf]) h
    · rename_i a b c d hf
      simp only [Except.error.injEq] at h
      exact ⟨0, line, by simp, by simp [hf], by intro j l hj; omega, by rw [← h]⟩

/-- A line of more than two fields makes the loop abort. -/
theorem loadPubLines_aborts (PubName : String → String) (pubfile : String) :
    ∀ (lines : List String) (pubs : List pubName) (i : Nat),
      (∃ l ∈ lines, 2 < (Fields l).length) →
      ∃ msg, loadPubLines PubName pubfile pubs i lines = .error msg := by
  intro lines
  induction lines with
  | nil => intro pubs i h; simp at h
  | cons line lines ih =>
    intro pubs i h
    have hrest : (Fields line).length ≤ 2 → ∃ l ∈ lines, 2 < (Fields l).length := by
      intro hlen
      obtain ⟨l, hl, hgt⟩ := h
      rcases List.mem_cons.1 hl with h1 | h1
      · subst h1; omega
      · exact ⟨l, h1, hgt⟩
    simp only [loadPubLines]
    split
    · rename_i hf
      exact ih _ _ (hrest (by simp [hf]))
    · rename_i name hf
      exact ih _ _ (hrest (by simp [hf]))
    · rename_i name goName hf
      exact ih _ _ (hrest (by simp [hf]))
    · exact ⟨_, rfl⟩

/-- C8. Read from its text, `loadPubFile` aborts exactly when some line has more than two
white-space separated fields, and then reports the 1-based number of the first such line.
Otherwise it returns, in line order, one entry for each line that has a field (a blank line
gives none): the source name is the first field, the exported name the second field when
present and `PubName` of the first field when absent. -/
theorem loadPubFile_spec (ReadFile : String → Except String String)
    (PubName : String → String) (pubfile text : String) (hread : ReadFile pubfile = .ok text) :
    ((∃ msg, loadPubFile ReadFile PubName pubfile = .error msg) ↔
      ∃ line ∈ Split text '\n', 2 < (Fields line).length) ∧
    (∀ msg, loadPubFile ReadFile PubName pubfile = .error msg →
      ∃ k line, (Split text '\n')[k]? = some line ∧ 2 < (Fields line).length ∧
        (∀ j l, j < k → (Split text '\n')[j]? = some l → (Fields l).length ≤ 2) ∧
        msg = pubfile ++ ":" ++ Itoa (k + 1) ++ ": too many fields - " ++ line ++ "\n") ∧
    ((∀ line ∈ Split text '\n', (Fields line).length ≤ 2) →
      loadPubFile ReadFile PubName pubfile =
        .ok (((Split text '\n').filter (fun l => decide (1 ≤ (Fields l).length))).map
          (entryOfLine PubName))) := by
  have hload : loadPubFile ReadFile PubName pubfile =
      loadPubLines PubName pubfile [] 0 (Split text '\n') := by
    simp [loadPubFile, hread]
  have herr : ∀ msg, loadPubFile ReadFile PubName pubfile = .error msg →
      ∃ k line, (Split text '\n')[k]? = some line ∧ 2 < (Fields line).length ∧
        (∀ j l, j < k → (Split text '\n')[j]? = some l → (Fields l).length ≤ 2) ∧
        msg = pubfile ++ ":" ++ Itoa (k + 1) ++ ": too many fields - " ++ line ++ "\n" := by
    intro msg h
    rw [hload] at h
    obtain ⟨k, line, h1, h2, h3, h4⟩ := loadPubLines_error PubName pubfile _ _ _ _ h
    exact ⟨k, line, h1, h2, h3, by simpa using h4⟩
  have hok : (∀ line ∈ Split text '\n', (Fields line).length ≤ 2) →
      loadPubFile ReadFile PubName pubfile =
        .ok (((Split text '\n').filter (fun l => decide (1 ≤ (Fields l).length))).map
          (entryOfLine PubName)) := by
    intro h
    rw [hload, loadPubLines_ok PubName pubfile _ _ _ h]
    simp
  refine ⟨⟨?_, ?_⟩, herr, hok⟩
  · rintro ⟨msg, h⟩
    obtain ⟨k, line, h1, h2, _, _⟩ := herr msg h
    exact ⟨line, List.getElem?_mem h1, h2⟩
  · rintro ⟨line, hmem, hlen⟩
    rw [hload]
    exact loadPubLines_aborts PubName pubfile _ _ _ ⟨line, hmem, hlen⟩

/-- The case of `TestPkgInfo`: the deps file gets the empty struct and the stub, and a
second write finds it unchanged. -/
theorem WriteDepTo_test :
    ∃ p1, WriteDepTo pkgInfoExample =
        .ok ([.typeDecl "struct_foo" (.struct []),
          .funcDecl "f" (.signature "()") [.callPanic "notimpl"]], p1) ∧
      WriteDepFile p1 "c2go_autogen.go" =
        .ok ([.typeDecl "struct_foo" (.struct []),
          .funcDecl "f" (.signature "()") [.callPanic "notimpl"]], p1) :=
  ⟨_, rfl, rfl⟩

/-- `InitType` on an uninitialised declaration. -/
theorem InitType_uninited (pkg : gox.Package) (h : Nat) (name : String) (typ : GoType)
    (hd : pkg.tdecls[h]? = some ⟨name, .TyStateUninited⟩) :
    pkg.InitType h typ =
      .ok { pkg with
        tdecls := pkg.tdecls.set h ⟨name, .TyStateInited typ⟩
        emitted := pkg.emitted ++ [(pkg.curFile, .typeDecl name typ)] } := by
  simp [gox.Package.InitType, hd, gox.Package.emit]

/-- `InitType` touches neither the files nor the scopes. -/
theorem InitType_frame (pkg pkg1 : gox.Package) (h : Nat) (typ : GoType)
    (hr : pkg.InitType h typ = .ok pkg1) :
    pkg1.files = pkg.files ∧ pkg1.curFile = pkg.curFile ∧ pkg1.scopes = pkg.scopes := by
  unfold gox.Package.InitType at hr
  split at hr
  · simp only [Except.ok.injEq] at hr
    subst hr
    simp [gox.Package.emit]
  · cases hr
  · cases hr
  · cases hr

/-- The loop over the types touches neither the files nor the scopes. -/
theorem initTypes_frame (typdecls : List (String × Nat)) :
    ∀ (uds : List String) (pkg pkg1 : gox.Package), initTypes typdecls pkg uds = .ok pkg1 →
      pkg1.files = pkg.files ∧ pkg1.curFile = pkg.curFile ∧ pkg1.scopes = pkg.scopes := by
  intro uds
  induction uds with
  | nil =>
    intro pkg pkg1 h
    simp only [initTypes, Except.ok.injEq] at h
    subst h
    exact ⟨rfl, rfl, rfl⟩
  | cons us uds ih =>
    intro pkg pkg1 h
    simp only [initTypes] at h
    split at h
    · cases h
    · split at h
      · cases h
      · rename_i pkg2 h2
        obtain ⟨a, b, c⟩ := InitType_frame _ _ _ _ h2
        obtain ⟨a1, b1, c1⟩ := ih _ _ h
        exact ⟨a1.trans a, b1.trans b, c1.trans c⟩

/-- The loop over the functions only emits: one stub per name, in order. -/
theorem stubFuncs_ok (scope : Scope) :
    ∀ (extfns : List String) (pkg pkg1 : gox.Package), stubFuncs scope pkg extfns = .ok pkg1 →
      pkg1 = { pkg with
        emitted := pkg.emitted ++ extfns.map (fun uf => (pkg.curFile, stubOf scope uf)) } := by
  intro extfns
  induction extfns with
  | nil =>
    intro pkg pkg1 h
    simp only [stubFuncs, Except.ok.injEq] at h
    subst h
    simp
  | cons uf extfns ih =>
    intro pkg pkg1 h
    simp only [stubFuncs, lookupSignature] at h
    split at h
    · cases h
    · rename_i sig hs
      split at hs
      · cases hs
      · rename_i k n descr hl
        simp only [Except.ok.injEq] at hs
        subst hs
        rw [ih _ _ h]
        simp [gox.Package.emit, stubOf, hl]
      · cases hs

/-- After `InitDependencies` the deps file exists and the package info is the same. -/
theorem InitDependencies_file (p p1 : Package) (h : InitDependencies p = .ok p1) :
    p1.File depsFile = true ∧ p1.pi = p.pi := by
  unfold InitDependencies at h
  split at h
  · cases h
  · rename_i pi hpi
    split at h
    · rename_i hf
      simp only [Except.ok.injEq] at h
      subst h
      exact ⟨hf, rfl⟩
    · rename_i hf
      split at h
      · cases h
      · rename_i names hn
        simp only at h
        split at h
        · cases h
        · rename_i pkg1 h1
          split at h
          · cases h
          · rename_i pkg2 h2
            simp only [Except.ok.injEq] at h
            subst h
            have hfr := initTypes_frame _ _ _ _ h1
            have hst := stubFuncs_ok _ _ _ _ h2
            refine ⟨?_, rfl⟩
            simp only [gox.Package.File, gox.Package.RestoreCurFile, hst, hfr.1,
              gox.Package.SetCurFile]
            split <;> simp_all [gox.Package.File]

/-- C4. `InitDependencies` is idempotent: after a call that returned, a second call, made
directly or through `WriteDepTo` or `WriteDepFile`, finds the deps file present and returns
the package unchanged, so the deps file holds the same declarations. -/
theorem InitDependencies_idempotent (p p1 : Package) (h : InitDependencies p = .ok p1) :
    InitDependencies p1 = .ok p1 ∧
    WriteDepTo p = .ok (p1.declsOf depsFile, p1) ∧
    WriteDepTo p1 = .ok (p1.declsOf depsFile, p1) ∧
    ∀ file, WriteDepFile p1 file = .ok (p1.declsOf depsFile, p1) := by
  obtain ⟨hf, hpi⟩ := InitDependencies_file p p1 h
  have hsome : ∃ pi, p1.pi = some pi := by
    rw [hpi]
    cases hp : p.pi with
    | none => simp [InitDependencies, hp] at h
    | some pi => exact ⟨pi, rfl⟩
  obtain ⟨pi, hp1⟩ := hsome
  have h2 : InitDependencies p1 = .ok p1 := by
    simp [InitDependencies, hp1, hf]
  refine ⟨h2, ?_, ?_, ?_⟩
  · simp [WriteDepTo, h]
  · simp [WriteDepTo, h2]
  · intro file
    simp [WriteDepFile, h2]

/-- C4, at the package of `TestPkgInfo`. -/
theorem InitDependencies_idempotent_witness :
    ∃ p1, InitDependencies pkgInfoExample = .ok p1 ∧
      InitDependencies p1 = .ok p1 ∧
      WriteDepTo pkgInfoExample = .ok (p1.declsOf depsFile, p1) ∧
      WriteDepTo p1 = .ok (p1.declsOf depsFile, p1) ∧
      ∀ file, WriteDepFile p1 file = .ok (p1.declsOf depsFile, p1) :=
  ⟨_, rfl, InitDependencies_idempotent pkgInfoExample _ rfl⟩

/-- In a map every key has one value. -/
theorem mapGet_of_mem (m : List (String × Nat)) (key : String) (v : Nat)
    (hnd : (m.map (fun e => e.1)).Nodup) (hmem : (key, v) ∈ m) : mapGet m key = some v := by
  induction m with
  | nil => simp at hmem
  | cons e m ih =>
    simp only [List.map_cons, List.nodup_cons] at hnd
    simp only [mapGet, List.find?_cons]
    rcases List.mem_cons.1 hmem with h | h
    · subst h
      simp
    · have hne : e.1 ≠ key := by
        intro heq
        apply hnd.1
        rw [heq]
        exact List.mem_map.2 ⟨(key, v), h, rfl⟩
      have hb : (e.1 == key) = false := by simpa using hne
      simp only [hb]
      exact ih hnd.2 h

/-- A value found in a map is an entry of it. -/
theorem mem_of_mapGet (m : List (String × Nat)) (key : String) (v : Nat)
    (h : mapGet m key = some v) : (key, v) ∈ m := by
  simp only [mapGet, Option.map_eq_some'] at h
  obtain ⟨e, he, hv⟩ := h
  have h1 := List.find?_some he
  have h2 := List.mem_of_find?_eq_some he
  simp only [beq_iff_eq] at h1
  cases e
  simp only at h1 hv
  subst h1 hv
  exact h2

/-- Maps with the same entries answer lookups alike. -/
theorem mapGet_perm (m1 m2 : List (String × Nat)) (hp : m1.Perm m2)
    (hnd : (m2.map (fun e => e.1)).Nodup) (key : String) : mapGet m1 key = mapGet m2 key := by
  have hnd1 : (m1.map (fun e => e.1)).Nodup := (hp.map _).nodup_iff.2 hnd
  cases h1 : mapGet m1 key with
  | some v =>
    exact (mapGet_of_mem m2 key v hnd (hp.subset (mem_of_mapGet m1 key v h1))).symm
  | none =>
    cases h2 : mapGet m2 key with
    | none => rfl
    | some v =>
      have := mapGet_of_mem m1 key v hnd1 (hp.symm.subset (mem_of_mapGet m2 key v h2))
      rw [h1] at this
      cases this

/-- The loop over the types depends on the table through its lookups only. -/
theorem initTypes_congr (m1 m2 : List (String × Nat)) (h : ∀ key, mapGet m1 key = mapGet m2 key) :
    ∀ (uds : List String) (pkg : gox.Package), initTypes m1 pkg uds = initTypes m2 pkg uds := by
  intro uds
  induction uds with
  | nil => intro pkg; rfl
  | cons us uds ih =>
    intro pkg
    simp only [initTypes, h us]
    split
    · rfl
    · split
      · rfl
      · exact ih _

/-- The first loop collects the names of the uninitialised declarations. -/
theorem uninitedNames_ok (pkg : gox.Package) :
    ∀ (typdecls : List (String × Nat)), (∀ e ∈ typdecls, (pkg.State e.2).isSome) →
      uninitedNames pkg typdecls =
        .ok ((typdecls.filter (fun e => pkg.isUninited e.2)).map (fun e => e.1)) := by
  intro typdecls
  induction typdecls with
  | nil => intro _; rfl
  | cons e typdecls ih =>
    intro h
    obtain ⟨name, tdecl⟩ := e
    have h1 := h (name, tdecl) (List.mem_cons_self _ _)
    have h2 := ih (fun e he => h e (List.mem_cons_of_mem _ he))
    simp only at h1
    cases hs : pkg.State tdecl with
    | none => simp [hs] at h1
    | some st =>
      simp only [uninitedNames, hs, h2, List.filter_cons, gox.Package.isUninited]
      cases st <;> simp

/-- The order `sort.Strings` sorts by is total. -/
theorem strLE_total : IsTotal String (fun a b => a.data ≤ b.data) :=
  ⟨fun a b => le_total a.data b.data⟩

/-- The order `sort.Strings` sorts by is transitive. -/
theorem strLE_trans : IsTrans String (fun a b => a.data ≤ b.data) :=
  ⟨fun _ _ _ h1 h2 => le_trans h1 h2⟩

/-- The order `sort.Strings` sorts by is antisymmetric. -/
theorem strLE_antisymm : IsAntisymm String (fun a b => a.data ≤ b.data) :=
  ⟨fun _ _ h1 h2 => String.ext (le_antisymm h1 h2)⟩

/-- `sort.Strings` permutes its argument. -/
theorem sortStrings_perm (l : List String) : (sortStrings l).Perm l :=
  List.perm_insertionSort _ l

/-- `sort.Strings` yields an ascending list. -/
theorem sortStrings_sorted (l : List String) :
    (sortStrings l).Sorted (fun a b => a.data ≤ b.data) :=
  @List.sorted_insertionSort _ _ _ strLE_total strLE_trans l

/-- The result of `sort.Strings` does not depend on the order of its argument. -/
theorem sortStrings_eq_of_perm (l1 l2 : List String) (h : l1.Perm l2) :
    sortStrings l1 = sortStrings l2 :=
  @List.eq_of_perm_of_sorted _ _ strLE_antisymm _ _
    ((sortStrings_perm l1).trans (h.trans (sortStrings_perm l2).symm))
    (sortStrings_sorted l1) (sortStrings_sorted l2)

/-- The loop over the types succeeds on names of distinct uninitialised declarations: it
completes each as the empty struct, emits them in order and leaves every other declaration
alone. -/
theorem initTypes_ok (typdecls : List (String × Nat)) :
    ∀ (uds : List String) (pkg : gox.Package), uds.Nodup →
      (∀ n ∈ uds, ∃ h, mapGet typdecls n = some h ∧
        pkg.tdecls[h]? = some ⟨n, .TyStateUninited⟩) →
      (∀ n1 ∈ uds, ∀ n2 ∈ uds, mapGet typdecls n1 = mapGet typdecls n2 → n1 = n2) →
      ∃ pkg1, initTypes typdecls pkg uds = .ok pkg1 ∧
        pkg1.files = pkg.files ∧ pkg1.curFile = pkg.curFile ∧ pkg1.scopes = pkg.scopes ∧
        pkg1.emitted = pkg.emitted ++
          uds.map (fun n => (pkg.curFile, Decl.typeDecl n GoType.emptyStruct)) ∧
        (∀ n ∈ uds, ∀ h, mapGet typdecls n = some h →
          pkg1.tdecls[h]? = some ⟨n, .TyStateInited GoType.emptyStruct⟩) ∧
        (∀ h, (∀ n ∈ uds, mapGet typdecls n ≠ some h) → pkg1.tdecls[h]? = pkg.tdecls[h]?) := by
  intro uds
  induction uds with
  | nil =>
    intro pkg _ _ _
    exact ⟨pkg, rfl, rfl, rfl, rfl, by simp, by simp, by simp⟩
  | cons us uds ih =>
    intro pkg hnd hun hinj
    obtain ⟨h, hget, hdecl⟩ := hun us (List.mem_cons_self _ _)
    have hlt : h < pkg.tdecls.length := by
      rcases Nat.lt_or_ge h pkg.tdecls.length with hl | hl
      · exact hl
      · rw [List.getElem?_eq_none hl] at hdecl
        cases hdecl
    have hother : ∀ n ∈ uds, mapGet typdecls n ≠ some h := by
      intro n hn heq
      have := hinj n (List.mem_cons_of_mem _ hn) us (List.mem_cons_self _ _) (heq.trans hget.symm)
      subst this
      exact (List.nodup_cons.1 hnd).1 hn
    obtain ⟨pkg1, hrun, hfiles, hcur, hscopes, hem, hdone, hrest⟩ :=
      ih { pkg with
          tdecls := pkg.tdecls.set h ⟨us, .TyStateInited GoType.emptyStruct⟩
          emitted := pkg.emitted ++ [(pkg.curFile, .typeDecl us GoType.emptyStruct)] }
        (List.nodup_cons.1 hnd).2
        (by
          intro n hn
          obtain ⟨h2, hget2, hdecl2⟩ := hun n (List.mem_cons_of_mem _ hn)
          refine ⟨h2, hget2, ?_⟩
          have hne : h ≠ h2 := by
            intro heq
            subst heq
            exact hother n hn hget2
          simp only [List.getElem?_set_ne hne]
          exact hdecl2)
        (fun n1 h1 n2 h2 => hinj n1 (List.mem_cons_of_mem _ h1) n2 (List.mem_cons_of_mem _ h2))
    refine ⟨pkg1, ?_, hfiles, hcur, hscopes, ?_, ?_, ?_⟩
    · simp only [initTypes, hget, InitType_uninited pkg h us _ hdecl]
      exact hrun
    · rw [hem]
      simp
    · intro n hn h2 hget2
      rcases List.mem_cons.1 hn with heq | hmem
      · subst heq
        rw [hget] at hget2
        simp only [Option.some.injEq] at hget2
        subst hget2
        rw [hrest h hother]
        simp [List.getElem?_set_self, hlt]
      · exact hdone n hmem h2 hget2
    · intro h2 hno
      rw [hrest h2 (fun n hn => hno n (List.mem_cons_of_mem _ hn))]
      have hne : h ≠ h2 := by
        intro heq
        subst heq
        exact hno us (List.mem_cons_self _ _) hget
      simp only [List.getElem?_set_ne hne]

/-- The loop over the functions succeeds when each name is declared with a signature. -/
theorem stubFuncs_succeeds (scope : Scope) :
    ∀ (extfns : List String) (pkg : gox.Package),
      (∀ uf ∈ extfns, ∃ k n d, scope.Lookup uf = some (.decl k n (.signature d))) →
      ∃ pkg1, stubFuncs scope pkg extfns = .ok pkg1 := by
  intro extfns
  induction extfns with
  | nil => intro pkg _; exact ⟨pkg, rfl⟩
  | cons uf extfns ih =>
    intro pkg h
    obtain ⟨k, n, d, hl⟩ := h uf (List.mem_cons_self _ _)
    simp only [stubFuncs, lookupSignature, hl]
    exact ih _ (fun uf2 h2 => h uf2 (List.mem_cons_of_mem _ h2))

/-- `InitDependencies` on a package with package info, no deps file and a table whose
handles are valid: the two loops over the sorted names. -/
theorem InitDependencies_unfold (p : Package) (pi : PkgInfo) (hpi : p.pi = some pi)
    (hfile : p.File depsFile = false)
    (hstate : ∀ e ∈ pi.typdecls, (p.toPackage.State e.2).isSome) :
    InitDependencies p =
      match initTypes pi.typdecls (p.toPackage.SetCurFile depsFile).2
          (sortStrings
            ((pi.typdecls.filter (fun e => p.toPackage.isUninited e.2)).map (fun e => e.1))) with
      | .error msg => .error msg
      | .ok pkg1 =>
        match stubFuncs (p.toPackage.scopeAt p.toPackage.typesScope) pkg1
            (sortStrings pi.extfns) with
        | .error msg => .error msg
        | .ok pkg2 => .ok { p with toPackage := pkg2.RestoreCurFile p.curFile } := by
  simp only [InitDependencies, hpi, hfile, uninitedNames_ok _ _ hstate]
  rfl

/-- C3. On a package with package info, no deps file yet, a well-formed type table and every
external function declared with a signature, `InitDependencies` returns; every table entry
that was uninitialised is completed as the empty struct, every other entry is untouched,
every external function has a stub in the deps file whose body is `panic("notimpl")`; the
deps file receives the types and then the functions, each in ascending name order, and the
result is the same for every iteration order of the two maps. -/
theorem InitDependencies_spec (p : Package) (pi : PkgInfo) (hpi : p.pi = some pi)
    (hfile : p.File depsFile = false) (htable : tableOk p.toPackage pi.typdecls)
    (hfns : ∀ uf ∈ pi.extfns, ∃ k n d,
      (p.toPackage.scopeAt p.toPackage.typesScope).Lookup uf =
        some (.decl k n (.signature d))) :
    ∃ p1, InitDependencies p = .ok p1 ∧
      (∀ e ∈ pi.typdecls, p.toPackage.State e.2 = some .TyStateUninited →
        p1.toPackage.State e.2 = some (.TyStateInited GoType.emptyStruct)) ∧
      (∀ e ∈ pi.typdecls, p.toPackage.isUninited e.2 = false →
        p1.tdecls[e.2]? = p.tdecls[e.2]?) ∧
      (∀ uf ∈ pi.extfns, ∃ sig,
        Decl.funcDecl uf sig [.callPanic "notimpl"] ∈ p1.toPackage.declsOf depsFile) ∧
      p1.emitted = p.emitted ++
        (sortStrings
          ((pi.typdecls.filter (fun e => p.toPackage.isUninited e.2)).map (fun e => e.1))).map
            (fun n => (depsFile, Decl.typeDecl n GoType.emptyStruct)) ++
        (sortStrings pi.extfns).map
          (fun uf => (depsFile, stubOf (p.toPackage.scopeAt p.toPackage.typesScope) uf)) ∧
      (∀ pi2 : PkgInfo, pi2.typdecls.Perm pi.typdecls → pi2.extfns.Perm pi.extfns →
        InitDependencies { p with pi := some pi2 } = .ok { p1 with pi := some pi2 }) := by
  obtain ⟨hkeys, hhandles, hdecls⟩ := htable
  have hstate : ∀ e ∈ pi.typdecls, (p.toPackage.State e.2).isSome := by
    intro e he
    obtain ⟨st, hst⟩ := hdecls e he
    simp [gox.Package.State, hst]
  have hnames : ∀ n ∈ sortStrings
      ((pi.typdecls.filter (fun e => p.toPackage.isUninited e.2)).map (fun e => e.1)),
      ∃ h, (n, h) ∈ pi.typdecls ∧ p.toPackage.isUninited h = true := by
    intro n hn
    have hn2 := (sortStrings_perm _).subset hn
    simp only [List.mem_map, List.mem_filter] at hn2
    obtain ⟨e, ⟨he, hu⟩, hen⟩ := hn2
    subst hen
    exact ⟨e.2, he, hu⟩
  have huninit : ∀ h, p.toPackage.isUninited h = true →
      p.toPackage.State h = some .TyStateUninited := by
    intro h hu
    simp only [gox.Package.isUninited] at hu
    split at hu
    · assumption
    · cases hu
  have hsamekey : ∀ n h1 h2, (n, h1) ∈ pi.typdecls → (n, h2) ∈ pi.typdecls → h1 = h2 := by
    intro n h1 h2 m1 m2
    have a := mapGet_of_mem _ _ _ hkeys m1
    have b := mapGet_of_mem _ _ _ hkeys m2
    rw [a] at b
    exact Option.some.inj b
  have hsameval : ∀ n1 n2 h, (n1, h) ∈ pi.typdecls → (n2, h) ∈ pi.typdecls → n1 = n2 := by
    intro n1 n2 h m1 m2
    have := List.inj_on_of_nodup_map hhandles m1 m2 rfl
    exact congrArg Prod.fst this
  have hnd : (sortStrings
      ((pi.typdecls.filter (fun e => p.toPackage.isUninited e.2)).map (fun e => e.1))).Nodup := by
    refine (sortStrings_perm _).nodup_iff.2 ?_
    exact hkeys.sublist ((List.filter_sublist _).map _)
  obtain ⟨pkg1, hrun, hfiles, hcur, hscopes, hem, hdone, hrest⟩ :=
    initTypes_ok pi.typdecls _ (p.toPackage.SetCurFile depsFile).2 hnd
      (by
        intro n hn
        obtain ⟨h, hmem, hu⟩ := hnames n hn
        refine ⟨h, mapGet_of_mem _ _ _ hkeys hmem, ?_⟩
        obtain ⟨st, hst⟩ := hdecls (n, h) hmem
        have hs := huninit h hu
        simp only [gox.Package.State, hst, Option.map_some', Option.some.injEq] at hs
        simp only [gox.Package.SetCurFile]
        rw [hst, hs])
      (by
        intro n1 hn1 n2 hn2 heq
        obtain ⟨h1, hmem1, _⟩ := hnames n1 hn1
        obtain ⟨h2, hmem2, _⟩ := hnames n2 hn2
        rw [mapGet_of_mem _ _ _ hkeys hmem1, mapGet_of_mem _ _ _ hkeys hmem2] at heq
        have : h1 = h2 := Option.some.inj heq
        subst this
        exact hsameval n1 n2 h1 hmem1 hmem2)
  obtain ⟨pkg2, hstub⟩ := stubFuncs_succeeds (p.toPackage.scopeAt p.toPackage.typesScope)
    (sortStrings pi.extfns) pkg1
    (fun uf huf => hfns uf ((sortStrings_perm _).subset huf))
  have hpkg2 := stubFuncs_ok _ _ _ _ hstub
  have hunf := InitDependencies_unfold p pi hpi hfile hstate
  rw [hrun] at hunf
  simp only [hstub] at hunf
  have hcur2 : pkg1.curFile = depsFile := by rw [hcur]; rfl
  refine ⟨_, hunf, ?_, ?_, ?_, ?_, ?_⟩
  · intro e he hu
    have hu2 : p.toPackage.isUninited e.2 = true := by
      simp [gox.Package.isUninited, hu]
    have hin : e.1 ∈ sortStrings
        ((pi.typdecls.filter (fun e => p.toPackage.isUninited e.2)).map (fun e => e.1)) := by
      refine (sortStrings_perm _).symm.subset ?_
      exact List.mem_map.2 ⟨e, List.mem_filter.2 ⟨he, hu2⟩, rfl⟩
    have := hdone e.1 hin e.2 (mapGet_of_mem _ _ _ hkeys he)
    simp [gox.Package.State, gox.Package.RestoreCurFile, hpkg2, this]
  · intro e he hu
    have hno : ∀ n ∈ sortStrings
        ((pi.typdecls.filter (fun e => p.toPackage.isUninited e.2)).map (fun e => e.1)),
        mapGet pi.typdecls n ≠ some e.2 := by
      intro n hn heq
      obtain ⟨h, hmem, hu3⟩ := hnames n hn
      have := hsamekey n h e.2 hmem (mem_of_mapGet _ _ _ heq)
      subst this
      rw [hu] at hu3
      cases hu3
    have := hrest e.2 hno
    simp only [gox.Package.RestoreCurFile, hpkg2, this]
    rfl
  · intro uf huf
    obtain ⟨k, n, d, hl⟩ := hfns uf huf
    refine ⟨.signature d, ?_⟩
    simp only [gox.Package.declsOf, gox.Package.RestoreCurFile, hpkg2, List.mem_map,
      List.mem_filter, List.mem_append]
    refine ⟨(depsFile, stubOf (p.toPackage.scopeAt p.toPackage.typesScope) uf),
      ⟨Or.inr ⟨uf, (sortStrings_perm _).symm.subset huf, by rw [hcur2]⟩, by simp⟩, ?_⟩
    simp [stubOf, hl]
  · simp only [gox.Package.RestoreCurFile, hpkg2, hem, hcur2]
    rfl
  · intro pi2 hp1 hp2
    have hstate2 : ∀ e ∈ pi2.typdecls, (p.toPackage.State e.2).isSome :=
      fun e he => hstate e (hp1.subset he)
    have hunf2 := InitDependencies_unfold { p with pi := some pi2 } pi2 rfl hfile hstate2
    have hs1 : sortStrings
        ((pi2.typdecls.filter (fun e => p.toPackage.isUninited e.2)).map (fun e => e.1)) =
        sortStrings
          ((pi.typdecls.filter (fun e => p.toPackage.isUninited e.2)).map (fun e => e.1)) :=
      sortStrings_eq_of_perm _ _ ((hp1.filter _).map _)
    have hs2 : sortStrings pi2.extfns = sortStrings pi.extfns :=
      sortStrings_eq_of_perm _ _ hp2
    simp only at hunf2
    rw [hs1, hs2, initTypes_congr pi2.typdecls pi.typdecls
      (fun key => mapGet_perm _ _ hp1 hkeys key), hrun] at hunf2
    simp only [hstub] at hunf2
    exact hunf2

/-- C3, at the package of `TestPkgInfo`: the table is well formed, the call returns, the
opaque `struct_foo` is completed and the external function `f` has its stub. -/
theorem InitDependencies_spec_witness :
    tableOk pkgInfoExample.toPackage [("struct_foo", 0)] ∧
    ∃ p1, InitDependencies pkgInfoExample = .ok p1 ∧
      (∀ e ∈ [("struct_foo", 0)],
        pkgInfoExample.toPackage.State e.2 = some .TyStateUninited →
        p1.toPackage.State e.2 = some (.TyStateInited GoType.emptyStruct)) ∧
      (∀ uf ∈ ["f"], ∃ sig,
        Decl.funcDecl uf sig [.callPanic "notimpl"] ∈ p1.toPackage.declsOf depsFile) :=
  have ht : tableOk pkgInfoExample.toPackage [("struct_foo", 0)] :=
    ⟨by decide, by decide, by simp [pkgInfoExample]⟩
  ⟨ht,
    match InitDependencies_spec pkgInfoExample ⟨[("struct_foo", 0)], ["f"]⟩ rfl rfl ht
        (by
          intro uf huf
          simp only [List.mem_singleton] at huf
          subst huf
          exact ⟨"func", "f", "()", rfl⟩) with
    | ⟨p1, h1, h2, _, h4, _, _⟩ => ⟨p1, h1, h2, h4⟩⟩

/-- C8, at the example manifest: no line has more than two fields and the entries of the
two lines that have a field are returned. -/
theorem loadPubFile_spec_witness :
    pubExample "c2go.a.pub" = .ok "printf\nfoo Bar\n\t \n" ∧
    loadPubFile pubExample pubNameExample "c2go.a.pub" =
      .ok (((Split "printf\nfoo Bar\n\t \n" '\n').filter
        (fun l => decide (1 ≤ (Fields l).length))).map (entryOfLine pubNameExample)) :=
  ⟨rfl, (loadPubFile_spec pubExample pubNameExample "c2go.a.pub" _ rfl).2.2 (by decide)⟩

/-- C6 as stated fails: with the tag in the type table but in no open scope, the field
`struct N *next` makes `toTypeEx` enter a new declaration under the tag, so after the call
that completes the old declaration the name maps to another handle. -/
theorem compileStructOrUnion_handle_changes :
    mapGet ctxHiddenTag.typdecls "struct_N" = some 0 ∧
    ∃ r ctx1, compileStructOrUnion exampleExternals 3 ctxHiddenTag "struct_N" structN =
        .ok (r, ctx1) ∧
      mapGet ctx1.typdecls "struct_N" = some 1 ∧
      ctx1.pkg.State 0 =
        some (.TyStateInited (.struct [("next", .pointer (.named 1), false)])) ∧
      ctx1.pkg.State 1 = some .TyStateUninited :=
  ⟨rfl, _, _, rfl, rfl, rfl, rfl⟩

/-- Assignment to another key leaves a lookup alone. -/
theorem mapGet_mapSet_ne (m : List (String × Nat)) (key other : String) (v : Nat)
    (hne : other ≠ key) : mapGet (mapSet m other v) key = mapGet m key := by
  have hb : (other == key) = false := by simpa using hne
  have hmap : mapGet (m.map (fun e => if e.1 == other then (other, v) else e)) key =
      mapGet m key := by
    induction m with
    | nil => rfl
    | cons e m ih =>
      simp only [mapGet, List.map_cons, List.find?_cons] at ih ⊢
      by_cases he : e.1 = other
      · have h1 : (e.1 == other) = true := by simpa using he
        have h2 : (e.1 == key) = false := by rw [he]; exact hb
        simp only [h1, if_true, hb, h2]
        exact ih
      · have h1 : (e.1 == other) = false := by simpa using he
        simp only [h1, Bool.false_eq_true, if_false]
        cases hk : e.1 == key
        · exact ih
        · rfl
  unfold mapSet
  split
  · exact hmap
  · simp only [mapGet, List.find?_append, List.find?_cons, hb, List.find?_nil]
    cases List.find? (fun e => e.1 == key) m <;> rfl

/-- Lookup of the key just assigned. -/
theorem mapGet_mapSet_self (m : List (String × Nat)) (key : String) (v : Nat) :
    mapGet (mapSet m key v) key = some v := by
  have hmap : (mapGet m key).isSome →
      mapGet (m.map (fun e => if e.1 == key then (key, v) else e)) key = some v := by
    induction m with
    | nil => intro h; simp [mapGet] at h
    | cons e m ih =>
      intro h
      simp only [mapGet, List.map_cons, List.find?_cons] at h ih ⊢
      cases hk : e.1 == key
      · simp only [hk, Bool.false_eq_true, if_false] at h ⊢
        exact ih h
      · simp
  unfold mapSet
  split
  · rename_i h
    exact hmap h
  · rename_i h
    simp only [mapGet, List.find?_append, List.find?_cons, beq_self_eq_true, List.find?_nil]
    simp only [mapGet, Option.isSome_map'] at h
    cases hf : List.find? (fun e => e.1 == key) m with
    | none => rfl
    | some e => simp [hf] at h

/-- What a successful `NewType` does. -/
theorem NewType_ok (pkg pkg1 : gox.Package) (name : String) (t : Nat)
    (h : pkg.NewType name = .ok (t, pkg1)) :
    (pkg.scopeAt 0).Lookup name = none ∧ t = pkg.tdecls.length ∧
    pkg1 = { pkg with
      scopes := pkg.scopes.set 0 (pkg.scopeAt 0 ++ [.decl "type" name (.named t)])
      tdecls := pkg.tdecls ++ [⟨name, .TyStateUninited⟩] } := by
  simp only [gox.Package.NewType, Scope.Insert, Object.Name] at h
  cases hl : (pkg.scopeAt 0).Lookup name with
  | some o => simp [hl] at h
  | none =>
    simp only [hl, Except.ok.injEq, Prod.mk.injEq] at h
    obtain ⟨h1, h2⟩ := h
    subst h1
    exact ⟨rfl, rfl, by rw [← h2]; rfl⟩

/-- A name held by `cb.Scope()` is still held after `NewType`, and is not the new name. -/
theorem NewType_held (pkg pkg1 : gox.Package) (name lit : String) (t : Nat)
    (hheld : ((pkg.scopeAt 0).Lookup name).isSome) (h : pkg.NewType lit = .ok (t, pkg1)) :
    ((pkg1.scopeAt 0).Lookup name).isSome ∧ lit ≠ name := by
  obtain ⟨hl, _, hp⟩ := NewType_ok pkg pkg1 lit t h
  have hne : lit ≠ name := by
    intro heq
    subst heq
    simp [hl] at hheld
  refine ⟨?_, hne⟩
  have hpos : 0 < pkg.scopes.length := by
    rcases Nat.eq_zero_or_pos pkg.scopes.length with h0 | h0
    · have : pkg.scopes = [] := List.length_eq_zero.1 h0
      simp [gox.Package.scopeAt, this, Scope.Lookup] at hheld
    · exact h0
  rw [hp]
  simp only [gox.Package.scopeAt, List.getD_eq_getElem?_getD, List.getElem?_set_self hpos,
    Option.getD_some]
  rw [Scope.Lookup_append]
  cases hs : Scope.Lookup (pkg.scopes[0]?.getD []) name with
  | none => simp [gox.Package.scopeAt, List.getD_eq_getElem?_getD, hs] at hheld
  | some o => simp

/-- The name just declared by `NewType` is held by `cb.Scope()` when there is one. -/
theorem NewType_holds (pkg pkg1 : gox.Package) (name : String) (t : Nat)
    (hsc : pkg.scopes ≠ []) (h : pkg.NewType name = .ok (t, pkg1)) :
    ((pkg1.scopeAt 0).Lookup name).isSome := by
  obtain ⟨hl, _, hp⟩ := NewType_ok pkg pkg1 name t h
  have hpos : 0 < pkg.scopes.length := List.length_pos.2 hsc
  rw [hp]
  simp only [gox.Package.scopeAt, List.getD_eq_getElem?_getD, List.getElem?_set_self hpos,
    Option.getD_some]
  rw [Scope.Lookup_append]
  simp only [gox.Package.scopeAt, List.getD_eq_getElem?_getD] at hl
  simp [hl, Scope.Lookup, Object.Name]

/-- A property of the context that `toTypeEx`, the nested compilations and a change of the
counter keep is kept by the scan of one child of a struct. -/
theorem structChild_inv (E : Externals) (fuel : Nat)
    (recur : blockCtx → String → Node → SuResult) (P : blockCtx → Prop)
    (hT : ∀ fuel ctx scope ty qt fl r ctx1, P ctx →
      toTypeEx E fuel ctx scope ty qt fl = .ok (r, ctx1) → P ctx1)
    (hR : ∀ ctx n d r ctx1, P ctx → recur ctx n d = .ok (r, ctx1) → P ctx1)
    (hB : ∀ (ctx : blockCtx) b, P ctx → P { ctx with base := b })
    (st st1 : FieldScan) (decl : Node) (pending : Option (GoType × String))
    (hP : P st.ctx) (h : structChild E fuel recur st decl = .ok (st1, pending)) :
    P st1.ctx := by
  unfold structChild at h
  split at h
  · simp only at h
    split at h
    · cases h
    · rename_i typ kind ctx1 ht
      have hP1 := hT _ _ _ _ _ _ _ _ hP ht
      split at h
      · split at h
        · cases h
        · split at h
          · cases h
          · simp only [Except.ok.injEq, Prod.mk.injEq] at h
            rw [← h.1]
            exact hP1
      · simp only [Except.ok.injEq, Prod.mk.injEq] at h
        rw [← h.1]
        exact hP1
  · split at h
    · simp only at h
      have hP0 : P (getSuName E.MangledName st.ctx decl decl.TagUsed).2 := by
        unfold getSuName
        split
        · exact hP
        · exact hB _ _ hP
      split at h
      · cases h
      · rename_i typ del ctx1 hr
        have hP1 := hR _ _ _ _ _ hP0 hr
        split at h
        · simp only [Except.ok.injEq, Prod.mk.injEq] at h
          rw [← h.1]
          exact hP1
        · simp only [Except.ok.injEq, Prod.mk.injEq] at h
          rw [← h.1]
          exact hP1
    · split at h
      · simp only [Except.ok.injEq, Prod.mk.injEq] at h
        rw [← h.1]
        exact hP
      · cases h

/-- A property that `toTypeEx` keeps is kept by `checkAnonymous`. -/
theorem checkAnonymous_inv (E : Externals) (P : blockCtx → Prop)
    (hT : ∀ fuel ctx scope ty qt fl r ctx1, P ctx →
      toTypeEx E fuel ctx scope ty qt fl = .ok (r, ctx1) → P ctx1)
    (fuel : Nat) (ctx ctx1 : blockCtx) (scope : ScopeRef) (typ : GoType) (v : Node)
    (r : GoType × Bool) (hP : P ctx)
    (h : checkAnonymous E fuel ctx scope typ v = .ok (r, ctx1)) : P ctx1 := by
  unfold checkAnonymous at h
  split at h
  · cases h
  · rename_i ret kind ctx2 ht
    simp only [Except.ok.injEq, Prod.mk.injEq] at h
    rw [← h.2]
    exact hT _ _ _ _ _ _ _ _ hP ht

/-- A kept property is kept by the scan of the children of a struct. -/
theorem structFields_inv (E : Externals) (fuel : Nat)
    (recur : blockCtx → String → Node → SuResult) (P : blockCtx → Prop)
    (hT : ∀ fuel ctx scope ty qt fl r ctx1, P ctx →
      toTypeEx E fuel ctx scope ty qt fl = .ok (r, ctx1) → P ctx1)
    (hR : ∀ ctx n d r ctx1, P ctx → recur ctx n d = .ok (r, ctx1) → P ctx1)
    (hB : ∀ (ctx : blockCtx) b, P ctx → P { ctx with base := b }) :
    ∀ (rest : List Node) (st st1 : FieldScan) (pending : Option (GoType × String)),
      P st.ctx → structFields E fuel recur st pending rest = .ok st1 → P st1.ctx := by
  intro rest
  induction rest with
  | nil =>
    intro st st1 pending hP h
    simp only [structFields, Except.ok.injEq] at h
    rw [← h]
    exact hP
  | cons decl rest ih =>
    intro st st1 pending hP h
    have plain : ∀ st0 : FieldScan, P st0.ctx →
        (match structChild E fuel recur st0 decl with
          | .error msg => (Except.error msg : Except String FieldScan)
          | .ok (st2, pending2) => structFields E fuel recur st2 pending2 rest) = .ok st1 →
        P st1.ctx := by
      intro st0 hP0 h0
      split at h0
      · cases h0
      · rename_i st2 pending2 hc
        exact ih _ _ _ (structChild_inv E fuel recur P hT hR hB _ _ _ _ hP0 hc) h0
    cases pending with
    | none =>
      simp only [structFields] at h
      exact plain st hP h
    | some tn =>
      obtain ⟨typ, name⟩ := tn
      simp only [structFields] at h
      split at h
      · split at h
        · refine ih _ _ _ ?_ h
          exact hP
        · cases hc : checkAnonymous E fuel st.ctx (.child 0) typ decl with
          | error msg =>
            rw [hc] at h
            cases h
          | ok v =>
            obtain ⟨⟨ret, isAnon⟩, ctx1⟩ := v
            have hP1 := checkAnonymous_inv E P hT _ _ _ _ _ _ _ hP hc
            rw [hc] at h
            cases isAnon with
            | true =>
              simp only at h
              refine ih _ _ _ ?_ h
              exact hP1
            | false =>
              simp only at h
              exact plain { st with ctx := ctx1 } hP1 h
      · exact plain st hP h

/-- A kept property is kept by the scan of one child of a union. -/
theorem unionChild_inv (E : Externals) (fuel : Nat)
    (recur : blockCtx → String → Node → SuResult) (P : blockCtx → Prop)
    (hT : ∀ fuel ctx scope ty qt fl r ctx1, P ctx →
      toTypeEx E fuel ctx scope ty qt fl = .ok (r, ctx1) → P ctx1)
    (hR : ∀ ctx n d r ctx1, P ctx → recur ctx n d = .ok (r, ctx1) → P ctx1)
    (hB : ∀ (ctx : blockCtx) b, P ctx → P { ctx with base := b })
    (st st1 : FieldScan) (decl : Node) (pending : Option (GoType × String))
    (hP : P st.ctx) (h : unionChild E fuel recur st decl = .ok (st1, pending)) :
    P st1.ctx := by
  unfold unionChild at h
  split at h
  · split at h
    · cases h
    · rename_i typ kind ctx1 ht
      have hP1 := hT _ _ _ _ _ _ _ _ hP ht
      simp only [Except.ok.injEq, Prod.mk.injEq] at h
      rw [← h.1]
      exact hP1
  · split at h
    · simp only at h
      have hP0 : P (getSuName E.MangledName st.ctx decl decl.TagUsed).2 := by
        unfold getSuName
        split
        · exact hP
        · exact hB _ _ hP
      split at h
      · cases h
      · rename_i typ del ctx1 hr
        have hP1 := hR _ _ _ _ _ hP0 hr
        split at h
        · simp only [Except.ok.injEq, Prod.mk.injEq] at h
          rw [← h.1]
          exact hP1
        · simp only [Except.ok.injEq, Prod.mk.injEq] at h
          rw [← h.1]
          exact hP1
    · split at h
      · simp only [Except.ok.injEq, Prod.mk.injEq] at h
        rw [← h.1]
        exact hP
      · cases h

/-- A kept property is kept by the scan of the children of a union. -/
theorem unionFields_inv (E : Externals) (fuel : Nat)
    (recur : blockCtx → String → Node → SuResult) (P : blockCtx → Prop)
    (hT : ∀ fuel ctx scope ty qt fl r ctx1, P ctx →
      toTypeEx E fuel ctx scope ty qt fl = .ok (r, ctx1) → P ctx1)
    (hR : ∀ ctx n d r ctx1, P ctx → recur ctx n d = .ok (r, ctx1) → P ctx1)
    (hB : ∀ (ctx : blockCtx) b, P ctx → P { ctx with base := b }) :
    ∀ (rest : List Node) (st st1 : FieldScan) (pending : Option (GoType × String)),
      P st.ctx → unionFields E fuel recur st pending rest = .ok st1 → P st1.ctx := by
  intro rest
  induction rest with
  | nil =>
    intro st st1 pending hP h
    simp only [unionFields, Except.ok.injEq] at h
    rw [← h]
    exact hP
  | cons decl rest ih =>
    intro st st1 pending hP h
    have plain : ∀ st0 : FieldScan, P st0.ctx →
        (match unionChild E fuel recur st0 decl with
          | .error msg => (Except.error msg : Except String FieldScan)
          | .ok (st2, pending2) => unionFields E fuel recur st2 pending2 rest) = .ok st1 →
        P st1.ctx := by
      intro st0 hP0 h0
      split at h0
      · cases h0
      · rename_i st2 pending2 hc
        exact ih _ _ _ (unionChild_inv E fuel recur P hT hR hB _ _ _ _ hP0 hc) h0
    cases pending with
    | none =>
      simp only [unionFields] at h
      exact plain st hP h
    | some tn =>
      obtain ⟨typ, name⟩ := tn
      simp only [unionFields] at h
      split at h
      · split at h
        · refine ih _ _ _ ?_ h
          exact hP
        · cases hc : checkAnonymous E fuel st.ctx (.child 0) typ decl with
          | error msg =>
            rw [hc] at h
            cases h
          | ok v =>
            obtain ⟨⟨ret, isAnon⟩, ctx1⟩ := v
            have hP1 := checkAnonymous_inv E P hT _ _ _ _ _ _ _ hP hc
            rw [hc] at h
            cases isAnon with
            | true =>
              simp only at h
              refine ih _ _ _ ?_ h
              exact hP1
            | false =>
              simp only at h
              exact plain { st with ctx := ctx1 } hP1 h
      · exact plain st hP h

/-- A property kept by `toTypeEx`, by a change of the counter, by the lookup or declaration
of a name and by `InitType` is kept by `compileStructOrUnion`. -/
theorem compileStructOrUnion_inv (E : Externals) (P : blockCtx → Prop)
    (hT : ∀ fuel ctx scope ty qt fl r ctx1, P ctx →
      toTypeEx E fuel ctx scope ty qt fl = .ok (r, ctx1) → P ctx1)
    (hB : ∀ (ctx : blockCtx) b, P ctx → P { ctx with base := b })
    (hN : ∀ ctx n t ctx1, P ctx → lookupOrNewType ctx n = .ok (t, ctx1) → P ctx1)
    (hI : ∀ (ctx : blockCtx) t inner pkg3, P ctx → ctx.pkg.InitType t inner = .ok pkg3 →
      P { ctx with pkg := pkg3 }) :
    ∀ (fuel : Nat) (ctx : blockCtx) (n : String) (d : Node) (r : GoType × List String)
      (ctx1 : blockCtx), P ctx → compileStructOrUnion E fuel ctx n d = .ok (r, ctx1) → P ctx1 := by
  intro fuel
  induction fuel with
  | zero =>
    intro ctx n d r ctx1 _ h
    simp [compileStructOrUnion] at h
  | succ fuel ih =>
    intro ctx n d r ctx1 hP h
    simp only [compileStructOrUnion] at h
    split at h
    · cases h
    · rename_i t ctx2 hl
      have hP2 := hN _ _ _ _ hP hl
      split at h
      · split at h
        · cases h
        · rename_i inner del ctx3 hb
          have hP3 : P ctx3 := by
            split at hb
            · simp only [toStructType] at hb
              split at hb
              · cases hb
              · rename_i st hs
                simp only [Except.ok.injEq, Prod.mk.injEq] at hb
                rw [← hb.2]
                exact structFields_inv E fuel _ P hT ih hB _ _ _ _ hP2 hs
            · simp only [toUnionType] at hb
              split at hb
              · cases hb
              · rename_i st hs
                simp only [Except.ok.injEq, Prod.mk.injEq] at hb
                rw [← hb.2]
                exact unionFields_inv E fuel _ P hT ih hB _ _ _ _ hP2 hs
          split at h
          · cases h
          · rename_i pkg3 hi
            simp only [Except.ok.injEq, Prod.mk.injEq] at h
            rw [← h.2]
            exact hI _ _ _ _ hP3 hi
      · simp only [Except.ok.injEq, Prod.mk.injEq] at h
        rw [← h.2]
        exact hP2

/-- Declaring another name keeps the entry of a tag. -/
theorem keepsTag_newType (E : Externals) (name lit : String) (t tdecl : Nat)
    (ctx : blockCtx) (pkg1 : gox.Package) (hk : keepsTag E name t ctx) (hne : lit ≠ name)
    (hnew : ctx.pkg.NewType lit = .ok (tdecl, pkg1)) :
    keepsTag E name t { ctx with pkg := pkg1, typdecls := mapSet ctx.typdecls lit tdecl } := by
  obtain ⟨hget, hst⟩ := hk
  refine ⟨?_, ?_⟩
  · show mapGet (mapSet ctx.typdecls lit tdecl) name = some t
    rw [mapGet_mapSet_ne _ _ _ _ hne]
    exact hget
  · rcases hst with hheld | hparse
    · exact Or.inl (NewType_held _ _ _ _ _ hheld hnew).1
    · exact Or.inr hparse

/-- `toTypeEx` keeps the entry of a tag that cannot be entered again. -/
theorem toTypeEx_keepsTag (E : Externals) (name : String) (t : Nat) :
    ∀ (fuel : Nat) (ctx : blockCtx) (scope : ScopeRef) (ty : Option GoType) (qt : String)
      (fl : Nat) (r : GoType × Nat) (ctx1 : blockCtx), keepsTag E name t ctx →
      toTypeEx E fuel ctx scope ty qt fl = .ok (r, ctx1) → keepsTag E name t ctx1 := by
  intro fuel
  induction fuel with
  | zero =>
    intro ctx scope ty qt fl r ctx1 _ h
    simp [toTypeEx] at h
  | succ fuel ih =>
    intro ctx scope ty qt fl r ctx1 hk h
    simp only [toTypeEx] at h
    split at h
    · simp only [Except.ok.injEq, Prod.mk.injEq] at h
      rw [← h.2]
      exact hk
    · rename_i lit hp
      split at h
      · cases h
      · rename_i tdecl pkg1 hnew
        have hne : lit ≠ name := by
          rcases hk.2 with hheld | hparse
          · exact (NewType_held _ _ _ _ _ hheld hnew).2
          · intro heq
            subst heq
            exact hparse _ _ hp
        exact ih _ _ _ _ _ _ _ (keepsTag_newType E name lit t tdecl ctx pkg1 hk hne hnew) h
    · cases h
    · cases h

/-- Looking a name up in the type table, or declaring it, keeps the entry of a tag. -/
theorem lookupOrNewType_keepsTag (E : Externals) (name : String) (t : Nat)
    (ctx : blockCtx) (n : String) (t2 : Nat) (ctx1 : blockCtx) (hk : keepsTag E name t ctx)
    (h : lookupOrNewType ctx n = .ok (t2, ctx1)) : keepsTag E name t ctx1 := by
  unfold lookupOrNewType at h
  split at h
  · simp only [Except.ok.injEq, Prod.mk.injEq] at h
    rw [← h.2]
    exact hk
  · rename_i hnone
    split at h
    · cases h
    · rename_i tdecl pkg1 hnew
      simp only [Except.ok.injEq, Prod.mk.injEq] at h
      rw [← h.2]
      have hne : n ≠ name := by
        intro heq
        subst heq
        rw [hk.1] at hnone
        cases hnone
      exact keepsTag_newType E name n t tdecl ctx pkg1 hk hne hnew

/-- `compileStructOrUnion`, of any record, keeps the entry of a tag that cannot be entered
again. -/
theorem compileStructOrUnion_keepsTag (E : Externals) (name : String) (t : Nat)
    (fuel : Nat) (ctx : blockCtx) (n : String) (d : Node) (r : GoType × List String)
    (ctx1 : blockCtx) (hk : keepsTag E name t ctx)
    (h : compileStructOrUnion E fuel ctx n d = .ok (r, ctx1)) : keepsTag E name t ctx1 :=
  compileStructOrUnion_inv E (keepsTag E name t) (toTypeEx_keepsTag E name t)
    (fun _ _ hk0 => hk0)
    (fun ctx0 n0 t0 ctx2 hk0 h0 => lookupOrNewType_keepsTag E name t ctx0 n0 t0 ctx2 hk0 h0)
    (fun ctx0 t0 inner pkg3 hk0 h0 => by
      obtain ⟨hget, hst⟩ := hk0
      refine ⟨hget, ?_⟩
      rcases hst with hheld | hparse
      · left
        show ((pkg3.scopeAt 0).Lookup name).isSome
        simp only [gox.Package.scopeAt, (InitType_frame _ _ _ _ h0).2.2]
        exact hheld
      · exact Or.inr hparse)
    fuel ctx n d r ctx1 hk h

/-- `InitType` succeeds on an uninitialised declaration only, which it completes. -/
theorem InitType_result (pkg pkg1 : gox.Package) (h : Nat) (typ : GoType)
    (hr : pkg.InitType h typ = .ok pkg1) :
    ∃ nm, pkg.tdecls[h]? = some ⟨nm, .TyStateUninited⟩ ∧
      pkg1.tdecls[h]? = some ⟨nm, .TyStateInited typ⟩ := by
  unfold gox.Package.InitType at hr
  split at hr
  · rename_i nm hd
    simp only [Except.ok.injEq] at hr
    subst hr
    have hlt : h < pkg.tdecls.length := by
      rcases Nat.lt_or_ge h pkg.tdecls.length with hl | hl
      · exact hl
      · rw [List.getElem?_eq_none hl] at hd
        cases hd
    exact ⟨nm, hd, by simp [gox.Package.emit, List.getElem?_set_self, hlt]⟩
  · cases hr
  · cases hr
  · cases hr

/-- After the first statements of `compileStructOrUnion` the name is in the type table, so
running them again changes nothing. -/
theorem lookupOrNewType_again (ctx ctx1 : blockCtx) (name : String) (t : Nat)
    (h : lookupOrNewType ctx name = .ok (t, ctx1)) :
    lookupOrNewType ctx1 name = .ok (t, ctx1) := by
  unfold lookupOrNewType at h
  split at h
  · rename_i t0 hget
    simp only [Except.ok.injEq, Prod.mk.injEq] at h
    rw [← h.2, ← h.1]
    simp [lookupOrNewType, hget]
  · split at h
    · cases h
    · rename_i tdecl pkg1 hnew
      simp only [Except.ok.injEq, Prod.mk.injEq] at h
      rw [← h.2, ← h.1]
      have : mapGet (mapSet ctx.typdecls name tdecl) name = some tdecl :=
        mapGet_mapSet_self _ _ _
      simp only [lookupOrNewType, this]

/-- C6, amended. For a name the type table holds, `compileStructOrUnion` on a node that is
no complete definition returns the type of that entry and changes nothing; on a complete
definition, when it returns, it returns the type of that entry and has completed the entry,
uninitialised until then, in place; and the name maps to the same handle afterwards provided
the tag cannot be entered again while the fields are resolved, that is `cb.Scope()` holds
the tag or the parser never reports it as not found. A name the table does not hold gets
one new declaration, to which the name maps afterwards; a node that is no complete
definition adds exactly that entry. -/
theorem compileStructOrUnion_entry (E : Externals) (fuel : Nat) (ctx : blockCtx)
    (name : String) (decl : Node) :
    (∀ t, mapGet ctx.typdecls name = some t →
      (decl.CompleteDefinition = false →
        compileStructOrUnion E (fuel + 1) ctx name decl = .ok ((.named t, []), ctx)) ∧
      (∀ r ctx1, decl.CompleteDefinition = true →
        compileStructOrUnion E (fuel + 1) ctx name decl = .ok (r, ctx1) →
        r.1 = .named t ∧
        (∃ (nm : String) (inner : GoType) (ctx2 : blockCtx),
          ctx2.pkg.tdecls[t]? = some ⟨nm, .TyStateUninited⟩ ∧
          ctx2.pkg.InitType t inner = .ok ctx1.pkg ∧
          ctx1.pkg.tdecls[t]? = some ⟨nm, .TyStateInited inner⟩) ∧
        ((((ctx.pkg.scopeAt 0).Lookup name).isSome ∨
            ∀ qualType conf, E.ParseType qualType conf ≠ .error (.TypeNotFound name true)) →
          mapGet ctx1.typdecls name = some t))) ∧
    (mapGet ctx.typdecls name = none → ctx.pkg.scopes ≠ [] →
      ∀ r ctx1, compileStructOrUnion E (fuel + 1) ctx name decl = .ok (r, ctx1) →
        r.1 = .named ctx.pkg.tdecls.length ∧
        mapGet ctx1.typdecls name = some ctx.pkg.tdecls.length ∧
        (decl.CompleteDefinition = false →
          ctx1.typdecls = ctx.typdecls ++ [(name, ctx.pkg.tdecls.length)] ∧
          ctx1.pkg.tdecls = ctx.pkg.tdecls ++ [⟨name, .TyStateUninited⟩])) := by
  have hcomplete : ∀ (ctx0 : blockCtx) (t : Nat) (r : GoType × List String) (ctx1 : blockCtx),
      lookupOrNewType ctx0 name = .ok (t, ctx0) → decl.CompleteDefinition = true →
      compileStructOrUnion E (fuel + 1) ctx0 name decl = .ok (r, ctx1) →
      r.1 = .named t ∧
      ∃ (nm : String) (inner : GoType) (ctx2 : blockCtx),
        ctx2.pkg.tdecls[t]? = some ⟨nm, .TyStateUninited⟩ ∧
        ctx2.pkg.InitType t inner = .ok ctx1.pkg ∧
        ctx1.pkg.tdecls[t]? = some ⟨nm, .TyStateInited inner⟩ := by
    intro ctx0 t r ctx1 hl hc h
    simp only [compileStructOrUnion, hl, hc, if_true] at h
    split at h
    · cases h
    · rename_i inner del ctx2 hb
      split at h
      · cases h
      · rename_i pkg3 hi
        simp only [Except.ok.injEq, Prod.mk.injEq] at h
        obtain ⟨nm, h1, h2⟩ := InitType_result _ _ _ _ hi
        rw [← h.1, ← h.2]
        exact ⟨rfl, nm, inner, ctx2, h1, hi, h2⟩
  refine ⟨?_, ?_⟩
  · intro t hget
    have hl : lookupOrNewType ctx name = .ok (t, ctx) := by
      simp [lookupOrNewType, hget]
    refine ⟨?_, ?_⟩
    · intro hc
      simp [compileStructOrUnion, hl, hc]
    · intro r ctx1 hc h
      obtain ⟨h1, h2⟩ := hcomplete ctx t r ctx1 hl hc h
      refine ⟨h1, h2, ?_⟩
      intro hst
      exact (compileStructOrUnion_keepsTag E name t _ ctx name decl r ctx1 ⟨hget, hst⟩ h).1
  · intro hnone hsc r ctx1 h
    have hunf : compileStructOrUnion E (fuel + 1) ctx name decl =
        match ctx.pkg.NewType name with
        | .error msg => .error msg
        | .ok (t, pkg1) =>
          compileStructOrUnion E (fuel + 1)
            { ctx with pkg := pkg1, typdecls := mapSet ctx.typdecls name t } name decl := by
      cases hnew : ctx.pkg.NewType name with
      | error msg => simp [compileStructOrUnion, lookupOrNewType, hnone, hnew]
      | ok v =>
        obtain ⟨t, pkg1⟩ := v
        have hl : lookupOrNewType ctx name =
            .ok (t, { ctx with pkg := pkg1, typdecls := mapSet ctx.typdecls name t }) := by
          simp [lookupOrNewType, hnone, hnew]
        have hl2 := lookupOrNewType_again _ _ _ _ hl
        simp only [compileStructOrUnion, hl, hl2]
    rw [hunf] at h
    cases hnew : ctx.pkg.NewType name with
    | error msg =>
      rw [hnew] at h
      cases h
    | ok v =>
      obtain ⟨t, pkg1⟩ := v
      rw [hnew] at h
      simp only at h
      obtain ⟨_, ht, hp⟩ := NewType_ok _ _ _ _ hnew
      have hget : mapGet (mapSet ctx.typdecls name t) name = some t := mapGet_mapSet_self _ _ _
      have hl : lookupOrNewType
          { ctx with pkg := pkg1, typdecls := mapSet ctx.typdecls name t } name =
          .ok (t, { ctx with pkg := pkg1, typdecls := mapSet ctx.typdecls name t }) := by
        simp only [lookupOrNewType, hget]
      have hk : keepsTag E name t
          { ctx with pkg := pkg1, typdecls := mapSet ctx.typdecls name t } :=
        ⟨hget, Or.inl (NewType_holds _ _ _ _ hsc hnew)⟩
      have hkeep := (compileStructOrUnion_keepsTag E name t _ _ name decl r ctx1 hk h).1
      rw [← ht]
      refine ⟨?_, hkeep, ?_⟩
      · cases hc : decl.CompleteDefinition with
        | true => exact (hcomplete _ t r ctx1 hl hc h).1
        | false =>
          simp only [compileStructOrUnion, hl, hc, Bool.false_eq_true, if_false,
            Except.ok.injEq, Prod.mk.injEq] at h
          rw [← h.1]
      · intro hc
        simp only [compileStructOrUnion, hl, hc, Bool.false_eq_true, if_false,
          Except.ok.injEq, Prod.mk.injEq] at h
        rw [← h.2, hp]
        refine ⟨?_, rfl⟩
        show mapSet ctx.typdecls name t = ctx.typdecls ++ [(name, t)]
        simp [mapSet, hnone]

/-- C9, the failing input. For `static const int N = 10;` at file scope `compileVarDecl`
declares the constant under the mangled name and returns from the branch of
`tryNewConstInteger`: no substitution is installed, the scope does not hold the original
name. For `static int N = 10;` the substitution to the mangled variable is installed. -/
theorem compileVarDecl_static_const :
    (∃ ctx1 decl1, compileVarDecl exampleExternals 2 {} staticConstN true = .ok (ctx1, decl1) ∧
      decl1.Name = "N_cgo1" ∧
      (ctx1.pkg.scopeAt 0).Lookup "N_cgo1" = some (.decl "const" "N_cgo1" (.basic "int32")) ∧
      (ctx1.pkg.scopeAt 0).Lookup "N" = none) ∧
    (∃ ctx1 decl1, compileVarDecl exampleExternals 2 {} staticN true = .ok (ctx1, decl1) ∧
      decl1.Name = "N_cgo1" ∧
      (ctx1.pkg.scopeAt 0).Lookup "N" =
        some (.subst "N" (some (.decl "var" "N_cgo1" (.basic "int32"))))) :=
  ⟨⟨_, _, rfl, rfl, rfl, rfl⟩, ⟨_, _, rfl, rfl, rfl⟩⟩

/-- The case of an opaque forward reference at package level: the scope holds the tag, the
definition completes the declaration in place and the name keeps its handle. -/
theorem compileStructOrUnion_example :
    ∃ r ctx1, compileStructOrUnion exampleExternals 3
        { typdecls := [("struct_N", 0)]
          pkg := { scopes := [[.decl "type" "struct_N" (.named 0)]]
                   tdecls := [⟨"struct_N", .TyStateUninited⟩] } }
        "struct_N" structN = .ok (r, ctx1) ∧
      r.1 = .named 0 ∧ mapGet ctx1.typdecls "struct_N" = some 0 ∧
      ctx1.pkg.State 0 =
        some (.TyStateInited (.struct [("next", .pointer (.named 0), false)])) :=
  ⟨_, _, rfl, rfl, rfl, rfl⟩

/-- The pieces `strings.Split` returns do not contain the separator, and joined by it they
give the string back. -/
theorem splitAux_spec (sep : Char) :
    ∀ s : List Char, (∀ l ∈ splitAux sep s, sep ∉ l) ∧
      List.intercalate [sep] (splitAux sep s) = s ∧ splitAux sep s ≠ [] := by
  intro s
  induction s with
  | nil => simp [splitAux, List.intercalate]
  | cons c cs ih =>
    obtain ⟨h1, h2, h3⟩ := ih
    simp only [splitAux]
    split
    · rename_i hc
      subst hc
      refine ⟨?_, ?_, by simp⟩
      · intro l hl
        rcases List.mem_cons.1 hl with h | h
        · subst h; simp
        · exact h1 l h
      · cases hs : splitAux c cs with
        | nil => exact absurd hs h3
        | cons l ls =>
          rw [hs] at h2
          simp only [List.intercalate, List.intersperse, List.flatten] at h2 ⊢
          simpa using h2
    · rename_i hc
      cases hs : splitAux sep cs with
      | nil => exact absurd hs h3
      | cons l ls =>
        rw [hs] at h1 h2
        refine ⟨?_, ?_, by simp⟩
        · intro l2 hl2
          rcases List.mem_cons.1 hl2 with h | h
          · subst h
            intro hmem
            rcases List.mem_cons.1 hmem with h4 | h4
            · exact hc h4.symm
            · exact h1 l (List.mem_cons_self _ _) h4
          · exact h1 l2 (List.mem_cons_of_mem _ h)
        · cases ls with
          | nil =>
            simp only [List.intercalate, List.intersperse, List.flatten] at h2 ⊢
            simpa using h2
          | cons l3 ls3 =>
            simp only [List.intercalate, List.intersperse, List.flatten] at h2 ⊢
            simpa using h2

/-- The fields `strings.Fields` returns are not empty and contain no white space. -/
theorem fieldsAux_spec :
    ∀ (s cur : List Char), (∀ c ∈ cur, isSpace c = false) →
      ∀ f ∈ fieldsAux s cur, f ≠ [] ∧ ∀ c ∈ f, isSpace c = false := by
  intro s
  induction s with
  | nil =>
    intro cur hcur f hf
    simp only [fieldsAux] at hf
    split at hf
    · simp at hf
    · rename_i hne
      simp only [List.mem_singleton] at hf
      subst hf
      exact ⟨hne, hcur⟩
  | cons c cs ih =>
    intro cur hcur f hf
    simp only [fieldsAux] at hf
    split at hf
    · split at hf
      · exact ih [] (by simp) f hf
      · rename_i hne
        rcases List.mem_cons.1 hf with h | h
        · subst h
          exact ⟨hne, hcur⟩
        · exact ih [] (by simp) f h
    · rename_i hsp
      refine ih (cur ++ [c]) ?_ f hf
      intro d hd
      rcases List.mem_append.1 hd with h | h
      · exact hcur d h
      · simp only [List.mem_singleton] at h
        subst h
        simpa using hsp

/-- The loop of `logFile` gives the kind of the first directory, in the order of iteration,
that is a path prefix of the file, and the value it started with when there is none. -/
theorem logFileIncs_find (f : String) (incs : List (String × Nat)) (d : Bool) :
    logFileIncs f incs d =
      ((incs.find? (fun e => isPathPrefix f e.1)).map (fun e => e.2 == incInDeps)).getD d := by
  induction incs with
  | nil => rfl
  | cons e incs ih =>
    obtain ⟨dir, kind⟩ := e
    rw [List.find?_cons]
    unfold logFileIncs isPathPrefix
    by_cases hp : dir.data.isPrefixOf f.data = true
    · rw [if_pos hp, hp]
      cases hs : f.data.drop dir.data.length with
      | nil => simp
      | cons c cs =>
        by_cases hc : c = '/' ∨ c = '\\'
        · have hb : (decide (c = '/') || decide (c = '\\')) = true := by simpa using hc
          simp only [if_pos hc, Bool.true_and, hb, Option.map_some', Option.getD_some]
        · have hb : (decide (c = '/') || decide (c = '\\')) = false := by simpa using hc
          simp only [if_neg hc, Bool.true_and, hb]
          exact ih
    · rw [if_neg hp]
      have hp2 : dir.data.isPrefixOf f.data = false := Bool.eq_false_iff.mpr hp
      simp only [hp2, Bool.false_and]
      exact ih

/-- What `logFile` does for a node that comes from a header in multi-file mode. -/
theorem logFile_header (h : Host) (hdr : String) (p : blockCtx) (node : Node)
    (hm : p.hasMulti = true) (hf : node.PresumedFile ≠ "")
    (hx : h.Ext node.PresumedFile ≠ ".c") :
    logFile h hdr p node =
      { p with
        inHeader := true
        inDepPkg := logFileIncs (absPath h node.PresumedFile) p.incs p.skipLibcH
        pkg := (p.pkg.SetCurFile hdr).2 } := by
  unfold logFile
  simp only [hm, if_true, hf, hx, ne_eq, not_false_eq_true, if_false]

/-- The first match of a predicate in a list is in the list and satisfies the
predicate. -/
theorem find_some_holds {α : Type} (q : α → Bool) (l : List α) (a : α)
    (h : l.find? q = some a) : a ∈ l ∧ q a = true :=
  ⟨List.mem_of_find?_eq_some h, List.find?_some h⟩

/-- The first match of a predicate in a list does not depend on the order of the list, as
far as a function is concerned that agrees on all elements that match. -/
theorem find_perm_agree {α β : Type} (q : α → Bool) (g : α → β) (l l2 : List α)
    (hperm : l2.Perm l) (hsame : ∀ a ∈ l, ∀ b ∈ l, q a = true → q b = true → g a = g b) :
    (l2.find? q).map g = (l.find? q).map g := by
  cases h1 : l.find? q with
  | none =>
    have hn : l2.find? q = none := by
      rw [List.find?_eq_none] at h1 ⊢
      intro x hx
      exact h1 x (hperm.mem_iff.mp hx)
    rw [hn]
  | some e =>
    obtain ⟨he, hq⟩ := find_some_holds q l e h1
    cases h2 : l2.find? q with
    | none =>
      rw [List.find?_eq_none] at h2
      exact absurd hq (h2 e (hperm.mem_iff.mpr he))
    | some e2 =>
      obtain ⟨he2, hq2⟩ := find_some_holds q l2 e2 h2
      simp only [Option.map_some', Option.some.injEq]
      exact hsame e2 (hperm.mem_iff.mp he2) e he hq2 hq

/-- The fold that keeps the longest entry returns the entry it started with or an entry of
the list. -/
theorem longest_fold_mem (l : List (String × Nat)) :
    ∀ (best : Option (String × Nat)) (e : String × Nat),
      l.foldl (fun best e =>
          match best with
          | none => some e
          | some b => if b.1.length < e.1.length then some e else some b) best = some e →
        best = some e ∨ e ∈ l := by
  induction l with
  | nil => intro best e h; exact Or.inl h
  | cons a l ih =>
    intro best e h
    rw [List.foldl_cons] at h
    rcases ih _ e h with h1 | h1
    · cases best with
      | none =>
        simp only [Option.some.injEq] at h1
        exact Or.inr (by rw [h1]; exact List.mem_cons_self _ _)
      | some b =>
        simp only at h1
        split at h1
        · simp only [Option.some.injEq] at h1
          exact Or.inr (by rw [h1]; exact List.mem_cons_self _ _)
        · exact Or.inl h1
    · exact Or.inr (List.mem_cons_of_mem _ h1)

/-- The longest registered path prefix is registered and is a path prefix. -/
theorem longestPathPrefix_mem (f : String) (incs : List (String × Nat)) (e : String × Nat)
    (h : longestPathPrefix f incs = some e) : e ∈ incs ∧ isPathPrefix f e.1 = true := by
  unfold longestPathPrefix at h
  rcases longest_fold_mem _ none e h with h1 | h1
  · exact absurd h1 (by simp)
  · simpa [List.mem_filter] using h1

/-- C11, counterexample: with `/a` registered for the package and `/a/b` for a dependency,
the header `/a/b/x.h` is classified as content of the package when the table is iterated
with `/a` first and as content of the dependency when it is iterated with `/a/b` first,
while the longest registered path prefix is `/a/b`, a dependency directory, in both
orders. -/
theorem logFile_order_dependent :
    ctxNestedRev.incs.Perm ctxNested.incs ∧
    longestPathPrefix "/a/b/x.h" ctxNested.incs = some ("/a/b", incInDeps) ∧
    longestPathPrefix "/a/b/x.h" ctxNestedRev.incs = some ("/a/b", incInDeps) ∧
    (logFile exampleHost exampleHeaderGoFile ctxNested headerNode).inDepPkg = false ∧
    (logFile exampleHost exampleHeaderGoFile ctxNestedRev headerNode).inDepPkg = true :=
  ⟨List.Perm.swap _ _ _, by decide, by decide, by decide, by decide⟩

/-- C11, amended: for a node from a header in multi-file mode, `logFile` classifies the
header by the first registered include directory, in the order in which the table is
iterated, that is a path prefix of the absolute header path: dependency content exactly
when that directory is registered as a dependency directory. When all registered
directories that are path prefixes of the header are registered with the same kind, this
is the kind of the longest of them and the classification is the same for every order of
iteration. -/
theorem logFile_first_match (h : Host) (hdr : String) (p : blockCtx) (node : Node)
    (hm : p.hasMulti = true) (hf : node.PresumedFile ≠ "")
    (hx : h.Ext node.PresumedFile ≠ ".c") :
    (∀ e, p.incs.find? (fun e => isPathPrefix (absPath h node.PresumedFile) e.1) = some e →
      ((logFile h hdr p node).inDepPkg = true ↔ e.2 = incInDeps)) ∧
    ((∀ e1 ∈ p.incs, ∀ e2 ∈ p.incs, isPathPrefix (absPath h node.PresumedFile) e1.1 = true →
        isPathPrefix (absPath h node.PresumedFile) e2.1 = true → e1.2 = e2.2) →
      (∀ e, longestPathPrefix (absPath h node.PresumedFile) p.incs = some e →
        ((logFile h hdr p node).inDepPkg = true ↔ e.2 = incInDeps)) ∧
      (∀ incs2 : List (String × Nat), incs2.Perm p.incs →
        (logFile h hdr { p with incs := incs2 } node).inDepPkg =
          (logFile h hdr p node).inDepPkg)) := by
  have hfirst : (logFile h hdr p node).inDepPkg =
      ((p.incs.find? (fun e => isPathPrefix (absPath h node.PresumedFile) e.1)).map
        (fun e => e.2 == incInDeps)).getD p.skipLibcH := by
    rw [logFile_header h hdr p node hm hf hx]
    exact logFileIncs_find _ _ _
  refine ⟨?_, fun hsame => ⟨?_, ?_⟩⟩
  · intro e he
    rw [hfirst, he]
    simp only [Option.map_some', Option.getD_some, beq_iff_eq]
  · intro e he
    obtain ⟨hmem, hpre⟩ := longestPathPrefix_mem _ _ _ he
    rw [hfirst]
    cases hfind : p.incs.find? (fun e => isPathPrefix (absPath h node.PresumedFile) e.1) with
    | none =>
      rw [List.find?_eq_none] at hfind
      exact absurd hpre (hfind e hmem)
    | some e1 =>
      obtain ⟨hmem1, hpre1⟩ := find_some_holds _ _ _ hfind
      have h1 : e1.2 = e.2 := hsame e1 hmem1 e hmem hpre1 hpre
      simp only [Option.map_some', Option.getD_some, h1, beq_iff_eq]
  · intro incs2 hperm
    rw [hfirst, logFile_header h hdr { p with incs := incs2 } node hm hf hx]
    simp only
    rw [logFileIncs_find]
    rw [find_perm_agree (fun e => isPathPrefix (absPath h node.PresumedFile) e.1)
      (fun e => e.2 == incInDeps) p.incs incs2 hperm
      (fun a ha b hb qa qb => by simp only [hsame a ha b hb qa qb])]

/-- C11, witness: the header `/a/b/x.h` with the one registered directory `/a/b`. -/
theorem logFile_first_match_witness :
    (logFile exampleHost exampleHeaderGoFile
      { hasMulti := true, incs := [("/a/b", incInDeps)] } headerNode).inDepPkg = true :=
  ((logFile_first_match exampleHost exampleHeaderGoFile
    { hasMulti := true, incs := [("/a/b", incInDeps)] } headerNode rfl (by decide)
    (by decide)).1 ("/a/b", incInDeps) (by decide)).mpr rfl

/-- The loop of `depPkgs.init` sets `skipLibcH` when it meets the dependency `C` and leaves
it as it is otherwise. -/
theorem initDeps_skipLibcH (h : Host) (proc : Option (String → FS → Except String FS))
    (gomod : Option (String → Except String String)) :
    ∀ (deps : List String) (p : depPkgs) (fs : FS) (d : depPkgs) (fs2 : FS),
      depPkgs.initDeps h proc gomod p fs deps = .ok (d, fs2) →
        (d.skipLibcH = true ↔ p.skipLibcH = true ∨ "C" ∈ deps) := by
  intro deps
  induction deps with
  | nil =>
    intro p fs d fs2 hrun
    simp only [depPkgs.initDeps, Except.ok.injEq, Prod.mk.injEq] at hrun
    rw [← hrun.1]
    simp
  | cons dep deps ih =>
    intro p fs d fs2 hrun
    unfold depPkgs.initDeps at hrun
    by_cases hC : dep = "C"
    · rw [if_pos hC] at hrun
      have := ih _ _ _ _ hrun
      rw [this, hC]
      simp
    · rw [if_neg hC] at hrun
      have hne : ¬ "C" = dep := fun e => hC e.symm
      cases h1 : findPkgDir h gomod dep with
      | error msg => rw [h1] at hrun; exact absurd hrun (by simp)
      | ok dir =>
        rw [h1] at hrun
        simp only at hrun
        split at hrun
        · exact absurd hrun (by simp)
        · split at hrun
          · exact absurd hrun (by simp)
          · split at hrun
            · exact absurd hrun (by simp)
            · rename_i p1 hload
              have := ih _ _ _ _ hrun
              rw [this]
              unfold depPkgs.loadPubFile at hload
              split at hload
              · exact absurd hload (by simp)
              · simp only [Except.ok.injEq] at hload
                rw [← hload]
                simp [hne]

/-- After `depPkgs.init` on the dependencies of a new session, `skipLibcH` is set exactly
when `C` is among the configured dependencies. -/
theorem init_skipLibcH (h : Host) (conf : Config) (fs : FS) (d : depPkgs) (fs2 : FS)
    (hrun : depPkgs.init h {} conf fs = .ok (d, fs2)) :
    d.skipLibcH = true ↔ "C" ∈ conf.Deps := by
  unfold depPkgs.init at hrun
  simp only [Bool.false_eq_true, if_false] at hrun
  split at hrun
  · rename_i hlen
    simp only [Except.ok.injEq, Prod.mk.injEq] at hrun
    rw [← hrun.1, List.length_eq_zero.mp hlen]
    simp
  · split at hrun
    · exact absurd hrun (by simp)
    · have := initDeps_skipLibcH _ _ _ _ _ _ _ _ hrun
      rw [this]
      simp

/-- In a new session (no package info, no dependencies loaded yet) the controller that
`initMultiFileCtl` returns is in multi-file mode and skips the headers of the C library
exactly when `C` is among the configured dependencies. -/
theorem initMultiFileCtl_new (h : Host) (Ref : String → String → Option Object)
    (fmt : Object → String) (p : multiFileCtl) (pkg : gox.Package) (conf : Config) (fs : FS)
    (m : multiFileCtl) (pkg1 : gox.Package) (r : Option Reused) (fs1 : FS)
    (hnew : conf.Reused = some {})
    (hrun : initMultiFileCtl h Ref fmt p pkg conf fs = .ok (m, pkg1, r, fs1)) :
    m.hasMulti = true ∧ (m.skipLibcH = true ↔ "C" ∈ conf.Deps) := by
  unfold initMultiFileCtl at hrun
  rw [hnew] at hrun
  simp only at hrun
  unfold sessionPkgInfo at hrun
  simp only at hrun
  cases hd : depPkgs.init h {} conf fs with
  | error msg => rw [hd] at hrun; exact absurd hrun (by simp)
  | ok res =>
    obtain ⟨d, fs2⟩ := res
    rw [hd] at hrun
    simp only at hrun
    cases hi : initDepPkgs Ref fmt pkg d with
    | error msg => rw [hi] at hrun; exact absurd hrun (by simp)
    | ok pkg2 =>
      rw [hi] at hrun
      simp only [Except.ok.injEq, Prod.mk.injEq] at hrun
      rw [← hrun.1]
      exact ⟨rfl, init_skipLibcH h conf fs d fs2 hd⟩

/-- C12, counterexample: in a session whose configured dependencies are the C library
alone, no include directory is registered, and the header `/a/b/x.h` is classified as
dependency content. -/
theorem logFile_unmatched_libc :
    ∃ m pkg1 r fs1,
      initMultiFileCtl exampleHost libcRef showObject {} {}
        { Deps := ["C"], Reused := some {} } noCfgFS = .ok (m, pkg1, r, fs1) ∧
      m.incs = [] ∧
      (logFile exampleHost exampleHeaderGoFile { tomultiFileCtl := m, pkg := pkg1 }
        headerNode).inDepPkg = true :=
  ⟨_, _, _, _, rfl, rfl, by decide⟩

/-- C12, amended: for a node from a header in multi-file mode that has no registered
include directory as a path prefix, `logFile` sets `inDepPkg` to `skipLibcH`: the header is
classified as content of the package itself exactly when the controller does not skip the
headers of the C library, and in a new session that is exactly when `C` is not among the
configured dependencies. -/
theorem logFile_unmatched (h : Host) (hdr : String) (p : blockCtx) (node : Node)
    (hm : p.hasMulti = true) (hf : node.PresumedFile ≠ "")
    (hx : h.Ext node.PresumedFile ≠ ".c")
    (hno : ∀ e ∈ p.incs, isPathPrefix (absPath h node.PresumedFile) e.1 = false) :
    (logFile h hdr p node).inDepPkg = p.skipLibcH ∧
    ∀ (Ref : String → String → Option Object) (fmt : Object → String) (p0 : multiFileCtl)
      (pkg : gox.Package) (conf : Config) (fs : FS) (pkg1 : gox.Package)
      (r : Option Reused) (fs1 : FS),
      conf.Reused = some {} →
      initMultiFileCtl h Ref fmt p0 pkg conf fs = .ok (p.tomultiFileCtl, pkg1, r, fs1) →
        ((logFile h hdr p node).inDepPkg = false ↔ "C" ∉ conf.Deps) := by
  have hfirst : (logFile h hdr p node).inDepPkg = p.skipLibcH := by
    rw [logFile_header h hdr p node hm hf hx]
    simp only
    rw [logFileIncs_find]
    have hn : p.incs.find? (fun e => isPathPrefix (absPath h node.PresumedFile) e.1) = none := by
      rw [List.find?_eq_none]
      intro e he
      rw [hno e he]
      decide
    rw [hn]
    rfl
  refine ⟨hfirst, ?_⟩
  intro Ref fmt p0 pkg conf fs pkg1 r fs1 hnew hrun
  have hs := (initMultiFileCtl_new h Ref fmt p0 pkg conf fs _ pkg1 r fs1 hnew hrun).2
  rw [hfirst, ← hs]
  simp

/-- C12, witness: the header `/a/b/x.h` in a session with no include directory and no
dependency on the C library. -/
theorem logFile_unmatched_witness :
    (logFile exampleHost exampleHeaderGoFile { hasMulti := true } headerNode).inDepPkg = false :=
  (logFile_unmatched exampleHost exampleHeaderGoFile { hasMulti := true } headerNode rfl
    (by decide) (by decide) (by simp)).1

/-- C13, counterexample: the dependency `dep` has a manifest and no file `c2go.cfg`;
`findIncludeDirs` returns the error of reading the file, and `depPkgs.init` aborts. With
the file in place it loads the manifest. -/
theorem findIncludeDirs_absent_aborts :
    findIncludeDirs exampleHost noCfgFS "/mod/dep" =
      .error "open /mod/dep/c2go.cfg: no such file or directory" ∧
    depPkgs.init exampleHost {} { Deps := ["dep"] } noCfgFS =
      .error "findIncludeDirs: open /mod/dep/c2go.cfg: no such file or directory\n" ∧
    (depPkgs.init exampleHost {} { Deps := ["dep"] } cfgFS).toOption.map (fun r => r.1.pkgs) =
      some [{ path := "dep", pubs := [{ name := "printf", goName := "Xprintf" }] }] :=
  ⟨rfl, rfl, rfl⟩

/-- C13, amended: when reading the file `c2go.cfg` of a dependency fails, as it does when
the file is absent, `findIncludeDirs` returns the error of the read and no include list,
and the loop of `depPkgs.init` aborts with a `findIncludeDirs:` error when it reaches that
dependency, before it loads the manifest of the dependency. -/
theorem findIncludeDirs_absent (h : Host) (fs : FS) (pkgDir err : String)
    (habs : fs (h.Join pkgDir "c2go.cfg") = .error err) :
    findIncludeDirs h fs pkgDir = .error err ∧
    ∀ (proc : Option (String → FS → Except String FS))
      (gomod : Option (String → Except String String)) (p : depPkgs) (fs0 : FS)
      (dep : String) (deps : List String),
      dep ≠ "C" → findPkgDir h gomod dep = .ok pkgDir →
      runProcDepPkg proc pkgDir fs0 = .ok fs →
        depPkgs.initDeps h proc gomod p fs0 (dep :: deps) =
          .error ("findIncludeDirs: " ++ err ++ "\n") := by
  have hfind : findIncludeDirs h fs pkgDir = .error err := by
    unfold findIncludeDirs
    rw [habs]
  refine ⟨hfind, ?_⟩
  intro proc gomod p fs0 dep deps hC hdir hproc
  unfold depPkgs.initDeps
  rw [if_neg hC, hdir]
  simp only
  rw [hproc]
  simp only
  rw [hfind]

/-- C13, witness: the dependency `dep` without the file `c2go.cfg`. -/
theorem findIncludeDirs_absent_witness :
    findIncludeDirs exampleHost noCfgFS "/mod/dep" =
      .error "open /mod/dep/c2go.cfg: no such file or directory" :=
  (findIncludeDirs_absent exampleHost noCfgFS "/mod/dep"
    "open /mod/dep/c2go.cfg: no such file or directory" rfl).1

/-- Outside multi-file mode `logFile` changes nothing. -/
theorem logFile_single (h : Host) (hdr : String) (p : blockCtx) (node : Node)
    (hm : p.hasMulti = false) : logFile h hdr p node = p := by
  unfold logFile
  simp [hm]

/-- The fields `logFile` leaves alone, and the one condition under which it sets
`inHeader`. -/
theorem logFile_frame (h : Host) (hdr : String) (p : blockCtx) (node : Node) :
    (logFile h hdr p node).hasMulti = p.hasMulti ∧
    (logFile h hdr p node).exists_ = p.exists_ ∧
    ((logFile h hdr p node).inHeader = true →
      p.hasMulti = true ∨ p.inHeader = true) ∧
    ((node.PresumedFile = "" ∨ h.Ext node.PresumedFile = ".c") → p.inHeader = false →
      (logFile h hdr p node).inHeader = false) := by
  unfold logFile
  by_cases hf : node.PresumedFile = ""
  · simp [hf]
    tauto
  · by_cases hm : p.hasMulti = true
    · by_cases hx : h.Ext node.PresumedFile = ".c"
      · simp [hf, hm, hx]
      · simp [hf, hm, hx]
    · simp [hf, hm]

/-- The invariant of the controller: `inHeader` is set only in multi-file mode, and in
multi-file mode the set of seen symbols is allocated. -/
theorem ctlCalls_keeps (h : Host) (hdr : String) :
    ∀ (calls : List CtlCall) (p : blockCtx),
      (p.inHeader = true → p.hasMulti = true) → (p.hasMulti = true → p.exists_.isSome = true) →
      ∃ rs p2, ctlCalls h hdr p calls = .ok (rs, p2) ∧
        (p2.inHeader = true → p2.hasMulti = true) ∧
        (p2.hasMulti = true → p2.exists_.isSome = true) := by
  intro calls
  induction calls with
  | nil => intro p h1 h2; exact ⟨[], p, rfl, h1, h2⟩
  | cons call calls ih =>
    intro p h1 h2
    cases call with
    | logFile node =>
      obtain ⟨hm, he, hi, _⟩ := logFile_frame h hdr p node
      have g1 : (logFile h hdr p node).inHeader = true → (logFile h hdr p node).hasMulti = true := by
        intro hh
        rw [hm]
        rcases hi hh with a | a
        · exact a
        · exact h1 a
      have g2 : (logFile h hdr p node).hasMulti = true →
          (logFile h hdr p node).exists_.isSome = true := by
        rw [hm, he]; exact h2
      obtain ⟨rs, p2, hrun, r1, r2⟩ := ih _ g1 g2
      exact ⟨rs, p2, by simpa only [ctlCalls] using hrun, r1, r2⟩
    | checkExists name =>
      have hstep : ∃ r p1, checkExists p name = .ok (r, p1) ∧
          (p1.inHeader = true → p1.hasMulti = true) ∧
          (p1.hasMulti = true → p1.exists_.isSome = true) := by
        unfold checkExists
        by_cases hin : p.inHeader = true
        · rw [if_pos hin]
          cases hm : p.exists_ with
          | none =>
            have := h2 (h1 hin)
            rw [hm] at this
            exact absurd this (by simp)
          | some m =>
            by_cases hc : m.contains name = true
            · exact ⟨true, p, by simp only [hc, if_true], h1, h2⟩
            · refine ⟨false, { p with exists_ := some (name :: m) }, ?_, h1, fun _ => rfl⟩
              simp only [hc, if_false, Bool.false_eq_true]
        · exact ⟨false, p, by rw [if_neg hin], h1, h2⟩
      obtain ⟨r, p1, hce, g1, g2⟩ := hstep
      obtain ⟨rs, p2, hrun, r1, r2⟩ := ih p1 g1 g2
      refine ⟨r :: rs, p2, ?_, r1, r2⟩
      simp only [ctlCalls, hce, hrun]

/-- While no node from a header is logged, every call of `checkExists` returns false and
the set of seen symbols stays as it is. -/
theorem ctlCalls_noheader (h : Host) (hdr : String) :
    ∀ (calls : List CtlCall) (p : blockCtx), p.inHeader = false →
      (∀ n, CtlCall.logFile n ∈ calls → n.PresumedFile = "" ∨ h.Ext n.PresumedFile = ".c") →
      ∃ rs p2, ctlCalls h hdr p calls = .ok (rs, p2) ∧ (∀ b ∈ rs, b = false) ∧
        p2.exists_ = p.exists_ ∧ p2.inHeader = false := by
  intro calls
  induction calls with
  | nil => intro p hin _; exact ⟨[], p, rfl, by simp, rfl, hin⟩
  | cons call calls ih =>
    intro p hin hcalls
    have hrest : ∀ n, CtlCall.logFile n ∈ calls →
        n.PresumedFile = "" ∨ h.Ext n.PresumedFile = ".c" :=
      fun n hn => hcalls n (List.mem_cons_of_mem _ hn)
    cases call with
    | logFile node =>
      obtain ⟨_, he, _, hi⟩ := logFile_frame h hdr p node
      obtain ⟨rs, p2, hrun, r1, r2, r3⟩ :=
        ih (logFile h hdr p node) (hi (hcalls node (List.mem_cons_self _ _)) hin) hrest
      exact ⟨rs, p2, by simpa only [ctlCalls] using hrun, r1, r2.trans he, r3⟩
    | checkExists name =>
      have hce : checkExists p name = .ok (false, p) := by
        unfold checkExists
        simp [hin]
      obtain ⟨rs, p2, hrun, r1, r2, r3⟩ := ih p hin hrest
      refine ⟨false :: rs, p2, ?_, ?_, r2, r3⟩
      · simp only [ctlCalls, hce, hrun]
      · intro b hb
        rcases List.mem_cons.mp hb with e | e
        · exact e
        · exact r1 b e

/-- What `initMultiFileCtl` leaves in a controller that was new: without a reused session
nothing is set, with one the controller is in multi-file mode and its set of seen symbols
is allocated. -/
theorem initMultiFileCtl_modes (h : Host) (Ref : String → String → Option Object)
    (fmt : Object → String) (pkg : gox.Package) (conf : Config) (fs : FS)
    (m : multiFileCtl) (pkg1 : gox.Package) (r : Option Reused) (fs1 : FS)
    (hrun : initMultiFileCtl h Ref fmt {} pkg conf fs = .ok (m, pkg1, r, fs1)) :
    m.inHeader = false ∧ (m.hasMulti = true → m.exists_.isSome = true) ∧
    (conf.Reused = none → m.hasMulti = false ∧ m.exists_ = none) := by
  unfold initMultiFileCtl at hrun
  cases hr : conf.Reused with
  | none =>
    rw [hr] at hrun
    simp only [Except.ok.injEq, Prod.mk.injEq] at hrun
    rw [← hrun.1]
    simp
  | some reused =>
    rw [hr] at hrun
    simp only at hrun
    split at hrun
    · exact absurd hrun (by simp)
    · simp only [Except.ok.injEq, Prod.mk.injEq] at hrun
      rw [← hrun.1]
      simp

/-- C14: a context initialised by `initMultiFileCtl` accepts every sequence of calls of
`logFile` and `checkExists` without a write to an unallocated map, and whenever `inHeader`
is set afterwards, `hasMulti` holds and the set of seen symbols is allocated. When it was
initialised without a reused session, `hasMulti` is false and the set is not allocated,
the calls leave the whole context as it was (no classification state changes, no output
file is selected, `inHeader` stays false, the set is neither read nor written), and every
call of `checkExists` returns false. -/
theorem single_file_bypass (h : Host) (Ref : String → String → Option Object)
    (fmt : Object → String) (hdr : String) (pkg : gox.Package) (conf : Config) (fs : FS)
    (m : multiFileCtl) (pkg1 : gox.Package) (r : Option Reused) (fs1 : FS)
    (calls : List CtlCall)
    (hinit : initMultiFileCtl h Ref fmt {} pkg conf fs = .ok (m, pkg1, r, fs1)) :
    ∃ rs p2, ctlCalls h hdr { tomultiFileCtl := m, pkg := pkg1 } calls = .ok (rs, p2) ∧
      (p2.inHeader = true → p2.hasMulti = true ∧ p2.exists_.isSome = true) ∧
      (conf.Reused = none →
        m.hasMulti = false ∧ m.exists_ = none ∧
        p2 = { tomultiFileCtl := m, pkg := pkg1 } ∧ p2.inHeader = false ∧
        (∀ b ∈ rs, b = false) ∧
        (∀ node, logFile h hdr p2 node = p2) ∧
        ∀ name, checkExists p2 name = .ok (false, p2)) := by
  obtain ⟨hin, hex, hnone⟩ := initMultiFileCtl_modes h Ref fmt pkg conf fs m pkg1 r fs1 hinit
  obtain ⟨rs, p2, hrun, r1, r2⟩ := ctlCalls_keeps h hdr calls
    { tomultiFileCtl := m, pkg := pkg1 } (fun hh => absurd hh (by simp [hin])) hex
  refine ⟨rs, p2, hrun, fun hh => ⟨r1 hh, r2 (r1 hh)⟩, ?_⟩
  intro hr
  obtain ⟨hm, he⟩ := hnone hr
  have hsame : ∀ (cs : List CtlCall) (p : blockCtx), p.hasMulti = false → p.inHeader = false →
      ∃ bs, ctlCalls h hdr p cs = .ok (bs, p) ∧ ∀ b ∈ bs, b = false := by
    intro cs
    induction cs with
    | nil => intro p _ _; exact ⟨[], rfl, by simp⟩
    | cons c cs ih =>
      intro p hpm hpi
      obtain ⟨bs, hbs, hall⟩ := ih p hpm hpi
      cases c with
      | logFile node =>
        refine ⟨bs, ?_, hall⟩
        simp only [ctlCalls, logFile_single h hdr p node hpm, hbs]
      | checkExists name =>
        have hce : checkExists p name = .ok (false, p) := by
          unfold checkExists
          simp [hpi]
        refine ⟨false :: bs, ?_, ?_⟩
        · simp only [ctlCalls, hce, hbs]
        · intro b hb
          rcases List.mem_cons.mp hb with e | e
          · exact e
          · exact hall b e
  obtain ⟨bs, hbs, hall⟩ := hsame calls { tomultiFileCtl := m, pkg := pkg1 } hm hin
  rw [hbs] at hrun
  simp only [Except.ok.injEq, Prod.mk.injEq] at hrun
  obtain ⟨e1, e2⟩ := hrun
  subst e1
  subst e2
  refine ⟨hm, he, rfl, hin, hall, fun node => logFile_single h hdr _ node hm, ?_⟩
  intro name
  unfold checkExists
  simp [hin]

/-- C14, witness: a compilation without a reused session, with a node from a header logged
and a name checked. -/
theorem single_file_bypass_witness :
    ∃ rs p2,
      ctlCalls exampleHost exampleHeaderGoFile {}
        [.logFile headerNode, .checkExists "x"] = .ok (rs, p2) ∧
      (p2.inHeader = true → p2.hasMulti = true ∧ p2.exists_.isSome = true) ∧
      (({} : Config).Reused = none →
        ({} : multiFileCtl).hasMulti = false ∧ ({} : multiFileCtl).exists_ = none ∧
        p2 = {} ∧ p2.inHeader = false ∧
        (∀ b ∈ rs, b = false) ∧
        (∀ node, logFile exampleHost exampleHeaderGoFile p2 node = p2) ∧
        ∀ name, checkExists p2 name = .ok (false, p2)) :=
  single_file_bypass exampleHost libcRef showObject exampleHeaderGoFile {} {} noCfgFS
    {} {} none noCfgFS [.logFile headerNode, .checkExists "x"] rfl

/-- C15: in multi-file mode, for a node whose origin file has the extension `.c`, `logFile`
makes the file `<base name>.i.go` the current file and clears `inHeader` and `inDepPkg`;
in every sequence of calls after it that logs no node from a header, each call of
`checkExists` returns false and the set of seen symbols stays as it was. -/
theorem logFile_source_file (h : Host) (hdr : String) (p : blockCtx) (node : Node)
    (calls : List CtlCall)
    (hm : p.hasMulti = true) (hf : node.PresumedFile ≠ "")
    (hx : h.Ext node.PresumedFile = ".c")
    (hcalls : ∀ n, CtlCall.logFile n ∈ calls →
      n.PresumedFile = "" ∨ h.Ext n.PresumedFile = ".c") :
    (logFile h hdr p node).pkg.curFile = h.Base node.PresumedFile ++ ".i.go" ∧
    (logFile h hdr p node).inHeader = false ∧
    (logFile h hdr p node).inDepPkg = false ∧
    ∃ rs p2, ctlCalls h hdr (logFile h hdr p node) calls = .ok (rs, p2) ∧
      (∀ b ∈ rs, b = false) ∧ p2.exists_ = p.exists_ := by
  have hlog : logFile h hdr p node =
      { p with
        inHeader := false
        inDepPkg := false
        pkg := (p.pkg.SetCurFile (h.Base node.PresumedFile ++ ".i.go")).2 } := by
    unfold logFile
    simp [hm, hf, hx]
  refine ⟨by rw [hlog]; rfl, by rw [hlog], by rw [hlog], ?_⟩
  obtain ⟨rs, p2, hrun, hall, hex, _⟩ :=
    ctlCalls_noheader h hdr calls (logFile h hdr p node) (by rw [hlog]) hcalls
  exact ⟨rs, p2, hrun, hall, by rw [hex, hlog]⟩

/-- C15, witness: the node from `/src/main.c`, followed by two checks of names. -/
theorem logFile_source_file_witness :
    (logFile exampleHost exampleHeaderGoFile ctxNested sourceNode).pkg.curFile =
      "main.c.i.go" ∧
    (logFile exampleHost exampleHeaderGoFile ctxNested sourceNode).inHeader = false ∧
    (logFile exampleHost exampleHeaderGoFile ctxNested sourceNode).inDepPkg = false ∧
    ∃ rs p2, ctlCalls exampleHost exampleHeaderGoFile
        (logFile exampleHost exampleHeaderGoFile ctxNested sourceNode)
        [.checkExists "y", .checkExists "y"] = .ok (rs, p2) ∧
      (∀ b ∈ rs, b = false) ∧ p2.exists_ = ctxNested.exists_ :=
  logFile_source_file exampleHost exampleHeaderGoFile ctxNested sourceNode
    [.checkExists "y", .checkExists "y"] rfl (by decide) (by decide) (by simp)

/-- The decimal digits of a number are identifier characters. -/
theorem Itoa_isIdentChar (n : Nat) : (Itoa n).data.all isIdentChar = true := by
  rw [List.all_eq_true]
  intro c hc
  unfold isIdentChar
  rw [Itoa_isDigit n c hc]
  simp

/-- A valid identifier followed by identifier characters is a valid identifier. -/
theorem isCIdent_append (s t : String) (hs : isCIdent s = true)
    (ht : t.data.all isIdentChar = true) : isCIdent (s ++ t) = true := by
  unfold isCIdent at hs ⊢
  rw [String.data_append]
  cases hd : s.data with
  | nil => rw [hd] at hs; exact absurd hs (by simp)
  | cons c cs =>
    rw [hd] at hs
    simp only [Bool.and_eq_true] at hs
    simp only [List.cons_append, List.all_append, Bool.and_eq_true]
    exact ⟨hs.1, hs.2, ht⟩

/-- C16, counterexample: the name generated for the first untagged aggregate of a session is
`_cgoa_1` and the name generated for the static variable `x` is `x_cgo1`; both are valid C
identifiers, so a program can declare them itself. -/
theorem generated_names_are_identifiers :
    (getSuName exampleExternals.MangledName {} untagged "struct").1 =
      ("_cgoa_1", suAnonymous) ∧
    isCIdent "_cgoa_1" = true ∧
    (autoStaticName {} "x").1 = "x_cgo1" ∧
    isCIdent "x_cgo1" = true :=
  ⟨by decide, by decide, by decide, by decide⟩

/-- C16, amended: every name derived from the anonymous counter is made of characters that
are all permitted in a C identifier. The name `getSuName` generates for an untagged
aggregate is `_cgoa_` followed by the decimal digits of the counter and is a valid C
identifier; the name `autoStaticName` generates for a static variable is the name of the
variable followed by `_cgo` and the decimal digits of the counter, and is a valid C
identifier whenever the name of the variable is. -/
theorem generated_names_valid :
    (∀ (MangledName : String → String → String) (p : blockCtx) (v : Node) (tag : String),
      v.Name = "" →
        (getSuName MangledName p v tag).1 = ("_cgoa_" ++ Itoa (p.base + 1), suAnonymous) ∧
        isCIdent (getSuName MangledName p v tag).1.1 = true) ∧
    (∀ (p : blockCtx) (name : String),
      (autoStaticName p name).1 = name ++ "_cgo" ++ Itoa (p.base + 1) ∧
      (isCIdent name = true → isCIdent (autoStaticName p name).1 = true)) := by
  constructor
  · intro MangledName p v tag hv
    have hname : (getSuName MangledName p v tag).1 =
        ("_cgoa_" ++ Itoa (p.base + 1), suAnonymous) := by
      unfold getSuName
      simp [hv]
    refine ⟨hname, ?_⟩
    rw [hname]
    exact isCIdent_append "_cgoa_" _ (by decide) (Itoa_isIdentChar _)
  · intro p name
    refine ⟨rfl, fun hn => ?_⟩
    show isCIdent (name ++ "_cgo" ++ Itoa (p.base + 1)) = true
    exact isCIdent_append _ _ (isCIdent_append name "_cgo" hn (by decide)) (Itoa_isIdentChar _)

/-- The scan of one child of a struct does not read the fields built so far: fields put
before them stay in front. -/
theorem structChild_prepend (E : Externals) (fuel : Nat)
    (recur : blockCtx → String → Node → SuResult) (b0 : List FieldDesc) (st : FieldScan)
    (decl : Node) :
    structChild E fuel recur (st.prepend b0) decl =
      (structChild E fuel recur st decl).map (fun r => (r.1.prepend b0, r.2)) := by
  unfold structChild FieldScan.prepend
  by_cases h1 : decl.Kind = "FieldDecl"
  · simp only [h1, if_true]
    cases toTypeEx E fuel st.ctx (.child 0) none decl.QualType E.FlagIsField with
    | error msg => rfl
    | ok r =>
      obtain ⟨⟨typ, kind⟩, ctx1⟩ := r
      simp only
      by_cases hb : decl.IsBitfield = true
      · simp only [hb, if_true]
        cases decl.Inner with
        | nil => rfl
        | cons e es =>
          simp only
          cases toInt64 E e "non-constant bit field" with
          | error msg => rfl
          | ok bits => simp [Except.map, builderBitField]
      · simp [hb, Except.map, builderField]
  · simp only [h1, if_false]
    by_cases h2 : decl.Kind = "RecordDecl"
    · simp only [h2, if_true]
      cases recur (getSuName E.MangledName st.ctx decl decl.TagUsed).2
          (getSuName E.MangledName st.ctx decl decl.TagUsed).1.1 decl with
      | error msg => rfl
      | ok r =>
        obtain ⟨⟨typ, del⟩, ctx1⟩ := r
        simp only
        by_cases h3 : (getSuName E.MangledName st.ctx decl decl.TagUsed).1.2 ≠ suAnonymous
        · simp [h3, Except.map]
        · simp [h3, Except.map]
    · simp only [h2, if_false]
      split
      · rfl
      · rfl

/-- The scan of the children of a struct does not read the fields built so far. -/
theorem structFields_prepend (E : Externals) (fuel : Nat)
    (recur : blockCtx → String → Node → SuResult) (b0 : List FieldDesc) :
    ∀ (l : List Node) (st : FieldScan) (pending : Option (GoType × String)),
      structFields E fuel recur (st.prepend b0) pending l =
        (structFields E fuel recur st pending l).map (FieldScan.prepend b0) := by
  intro l
  induction l with
  | nil => intro st pending; cases pending <;> rfl
  | cons next rest ih =>
    intro st pending
    cases pending with
    | none =>
      simp only [structFields]
      rw [structChild_prepend]
      cases structChild E fuel recur st next with
      | error msg => rfl
      | ok r =>
        obtain ⟨st1, pend⟩ := r
        simp only [Except.map]
        exact ih st1 pend
    | some tn =>
      obtain ⟨typ, name⟩ := tn
      simp only [structFields]
      by_cases hk : next.Kind = "FieldDecl"
      · simp only [hk, if_true]
        by_cases hi : next.IsImplicit = true
        · simp only [hi, if_true]
          have e1 : ({ st.prepend b0 with b := builderField (st.prepend b0).b typ name true } :
              FieldScan) =
              FieldScan.prepend b0 { st with b := builderField st.b typ name true } := by
            simp [FieldScan.prepend, builderField]
          rw [e1]
          exact ih _ _
        · simp only [hi, if_false]
          have e0 : (st.prepend b0).ctx = st.ctx := rfl
          rw [e0]
          cases checkAnonymous E fuel st.ctx (.child 0) typ next with
          | error msg => rfl
          | ok r =>
            obtain ⟨⟨ret, ok⟩, ctx1⟩ := r
            cases ok with
            | true =>
              simp only
              have e1 : ({ st.prepend b0 with
                  ctx := ctx1, b := builderField (st.prepend b0).b ret next.Name false } :
                  FieldScan) =
                  FieldScan.prepend b0
                    { st with ctx := ctx1, b := builderField st.b ret next.Name false } := by
                simp [FieldScan.prepend, builderField]
              rw [e1]
              exact ih _ _
            | false =>
              simp only
              have e1 : ({ st.prepend b0 with ctx := ctx1 } : FieldScan) =
                  FieldScan.prepend b0 { st with ctx := ctx1 } := rfl
              rw [e1, structChild_prepend]
              cases structChild E fuel recur { st with ctx := ctx1 } next with
              | error msg => rfl
              | ok r =>
                obtain ⟨st1, pend⟩ := r
                simp only [Except.map]
                exact ih st1 pend
      · simp only [hk, if_false]
        rw [structChild_prepend]
        cases structChild E fuel recur st next with
        | error msg => rfl
        | ok r =>
          obtain ⟨st1, pend⟩ := r
          simp only [Except.map]
          exact ih st1 pend

/-- The scan of one child of a union does not read the fields built so far. -/
theorem unionChild_prepend (E : Externals) (fuel : Nat)
    (recur : blockCtx → String → Node → SuResult) (b0 : List FieldDesc) (st : FieldScan)
    (decl : Node) :
    unionChild E fuel recur (st.prepend b0) decl =
      (unionChild E fuel recur st decl).map (fun r => (r.1.prepend b0, r.2)) := by
  unfold unionChild FieldScan.prepend
  by_cases h1 : decl.Kind = "FieldDecl"
  · simp only [h1, if_true]
    cases toTypeEx E fuel st.ctx (.child 0) none decl.QualType 0 with
    | error msg => rfl
    | ok r =>
      obtain ⟨⟨typ, kind⟩, ctx1⟩ := r
      simp [Except.map, builderField]
  · simp only [h1, if_false]
    by_cases h2 : decl.Kind = "RecordDecl"
    · simp only [h2, if_true]
      cases recur (getSuName E.MangledName st.ctx decl decl.TagUsed).2
          (getSuName E.MangledName st.ctx decl decl.TagUsed).1.1 decl with
      | error msg => rfl
      | ok r =>
        obtain ⟨⟨typ, del⟩, ctx1⟩ := r
        simp only
        by_cases h3 : (getSuName E.MangledName st.ctx decl decl.TagUsed).1.2 ≠ suAnonymous
        · simp [h3, Except.map]
        · simp [h3, Except.map]
    · simp only [h2, if_false]
      split
      · rfl
      · rfl

/-- The scan of the children of a union does not read the fields built so far. -/
theorem unionFields_prepend (E : Externals) (fuel : Nat)
    (recur : blockCtx → String → Node → SuResult) (b0 : List FieldDesc) :
    ∀ (l : List Node) (st : FieldScan) (pending : Option (GoType × String)),
      unionFields E fuel recur (st.prepend b0) pending l =
        (unionFields E fuel recur st pending l).map (FieldScan.prepend b0) := by
  intro l
  induction l with
  | nil => intro st pending; cases pending <;> rfl
  | cons next rest ih =>
    intro st pending
    cases pending with
    | none =>
      simp only [unionFields]
      rw [unionChild_prepend]
      cases unionChild E fuel recur st next with
      | error msg => rfl
      | ok r =>
        obtain ⟨st1, pend⟩ := r
        simp only [Except.map]
        exact ih st1 pend
    | some tn =>
      obtain ⟨typ, name⟩ := tn
      simp only [unionFields]
      by_cases hk : next.Kind = "FieldDecl"
      · simp only [hk, if_true]
        by_cases hi : next.IsImplicit = true
        · simp only [hi, if_true]
          have e1 : ({ st.prepend b0 with b := builderField (st.prepend b0).b typ name true } :
              FieldScan) =
              FieldScan.prepend b0 { st with b := builderField st.b typ name true } := by
            simp [FieldScan.prepend, builderField]
          rw [e1]
          exact ih _ _
        · simp only [hi, if_false]
          have e0 : (st.prepend b0).ctx = st.ctx := rfl
          rw [e0]
          cases checkAnonymous E fuel st.ctx (.child 0) typ next with
          | error msg => rfl
          | ok r =>
            obtain ⟨⟨ret, ok⟩, ctx1⟩ := r
            cases ok with
            | true =>
              simp only
              have e1 : ({ st.prepend b0 with
                  ctx := ctx1, b := builderField (st.prepend b0).b ret next.Name false } :
                  FieldScan) =
                  FieldScan.prepend b0
                    { st with ctx := ctx1, b := builderField st.b ret next.Name false } := by
                simp [FieldScan.prepend, builderField]
              rw [e1]
              exact ih _ _
            | false =>
              simp only
              have e1 : ({ st.prepend b0 with ctx := ctx1 } : FieldScan) =
                  FieldScan.prepend b0 { st with ctx := ctx1 } := rfl
              rw [e1, unionChild_prepend]
              cases unionChild E fuel recur { st with ctx := ctx1 } next with
              | error msg => rfl
              | ok r =>
                obtain ⟨st1, pend⟩ := r
                simp only [Except.map]
                exact ih st1 pend
      · simp only [hk, if_false]
        rw [unionChild_prepend]
        cases unionChild E fuel recur st next with
        | error msg => rfl
        | ok r =>
          obtain ⟨st1, pend⟩ := r
          simp only [Except.map]
          exact ih st1 pend

/-- C17, counterexample: in a struct and in a union whose children are an anonymous record,
a field `x` declared with it and an implicit field, the field list holds the sibling `x`
and, from the implicit field that follows it, the anonymous aggregate itself as an embedded
field under its generated name. -/
theorem alias_then_implicit :
    (compileStructOrUnion anonExternals 5 {} "struct_S" (aggregateS "struct")).toOption.map
        (fun r => r.2.pkg.declsOf "") =
      some [.typeDecl "_cgoa_1" (.struct [("a", .basic "int32", false)]),
        .typeDecl "struct_S"
          (.struct [("x", .named 1, false), ("_cgoa_1", .named 1, true)])] ∧
    (compileStructOrUnion anonExternals 5 {} "union_S" (aggregateS "union")).toOption.map
        (fun r => r.2.pkg.declsOf "") =
      some [.typeDecl "_cgoa_1" (.struct [("a", .basic "int32", false)]),
        .typeDecl "union_S"
          (.union [("x", .named 1, false), ("_cgoa_1", .named 1, true)])] :=
  ⟨rfl, rfl⟩

/-- C17, amended: when the scan of a struct or union reaches an anonymous record that is
immediately followed by a non-implicit field whose type resolves with the anonymous bit
set, the two children add exactly one field to the fields built so far, the sibling under
its own name with the type it resolves to: it is not dropped and it is not scanned again
as a plain field. The scan goes on with the children after the sibling while the inner
loop for the anonymous record is still open, so what follows in the field list is what
these children add to an empty list. -/
theorem alias_after_anonymous (E : Externals) (fuel : Nat)
    (recur : blockCtx → String → Node → SuResult) (st : FieldScan) (decl next : Node)
    (rest : List Node) (typ ret : GoType) (del : List String) (ctx1 ctx2 : blockCtx)
    (hk : decl.Kind = "RecordDecl") (hn : decl.Name = "")
    (hnk : next.Kind = "FieldDecl") (hni : next.IsImplicit = false)
    (hrec : recur { st.ctx with base := st.ctx.base + 1 }
      ("_cgoa_" ++ Itoa (st.ctx.base + 1)) decl = .ok ((typ, del), ctx1))
    (hali : checkAnonymous E fuel ctx1 (.child 0) typ next = .ok ((ret, true), ctx2)) :
    structFields E fuel recur st none (decl :: next :: rest) =
      (structFields E fuel recur
        { ctx := ctx2, b := [], dels := st.dels ++ ["_cgoa_" ++ Itoa (st.ctx.base + 1)] ++ del }
        (some (typ, "_cgoa_" ++ Itoa (st.ctx.base + 1))) rest).map
        (FieldScan.prepend
          (st.b ++ [{ name := next.Name, typ := ret, bits := none, embedded := false }])) ∧
    unionFields E fuel recur st none (decl :: next :: rest) =
      (unionFields E fuel recur
        { ctx := ctx2, b := [], dels := st.dels ++ ["_cgoa_" ++ Itoa (st.ctx.base + 1)] ++ del }
        (some (typ, "_cgoa_" ++ Itoa (st.ctx.base + 1))) rest).map
        (FieldScan.prepend
          (st.b ++ [{ name := next.Name, typ := ret, bits := none, embedded := false }])) := by
  have hsu : getSuName E.MangledName st.ctx decl decl.TagUsed =
      (("_cgoa_" ++ Itoa (st.ctx.base + 1), suAnonymous),
        { st.ctx with base := st.ctx.base + 1 }) := by
    unfold getSuName
    simp [hn]
  have hkf : decl.Kind ≠ "FieldDecl" := by rw [hk]; decide
  have hs : structChild E fuel recur st decl =
      .ok ({ st with ctx := ctx1, dels := st.dels ++ ["_cgoa_" ++ Itoa (st.ctx.base + 1)] ++ del },
        some (typ, "_cgoa_" ++ Itoa (st.ctx.base + 1))) := by
    unfold structChild
    rw [if_neg hkf, if_pos hk, hsu]
    simp only [hrec]
    simp
  have hu : unionChild E fuel recur st decl =
      .ok ({ st with ctx := ctx1, dels := st.dels ++ ["_cgoa_" ++ Itoa (st.ctx.base + 1)] ++ del },
        some (typ, "_cgoa_" ++ Itoa (st.ctx.base + 1))) := by
    unfold unionChild
    rw [if_neg hkf, if_pos hk, hsu]
    simp only [hrec]
    simp
  have hst : (⟨ctx2, builderField st.b ret next.Name false,
      st.dels ++ ["_cgoa_" ++ Itoa (st.ctx.base + 1)] ++ del⟩ : FieldScan) =
      FieldScan.prepend
        (st.b ++ [{ name := next.Name, typ := ret, bits := none, embedded := false }])
        ⟨ctx2, [], st.dels ++ ["_cgoa_" ++ Itoa (st.ctx.base + 1)] ++ del⟩ := by
    simp [FieldScan.prepend, builderField]
  constructor
  · rw [← structFields_prepend, ← hst]
    simp only [structFields, hs, hnk, if_true, hni, Bool.false_eq_true, if_false, hali]
  · rw [← unionFields_prepend, ← hst]
    simp only [unionFields, hu, hnk, if_true, hni, Bool.false_eq_true, if_false, hali]

/-- C17, witness: the anonymous record of the examples followed by the field `x` and an
implicit field, in a struct. -/
theorem alias_after_anonymous_witness :
    (structFields anonExternals 5 (compileStructOrUnion anonExternals 5) ⟨{}, [], []⟩ none
      aliasThenImplicit).toOption.map (fun s => s.b) =
      some [⟨"x", .named 0, none, false⟩, ⟨"_cgoa_1", .named 0, none, true⟩] :=
  (congrArg (fun r => r.toOption.map (fun s => s.b))
    (alias_after_anonymous anonExternals 5 (compileStructOrUnion anonExternals 5) ⟨{}, [], []⟩
      anonRecord aliasField [implicitField] (.named 0) (.named 0) [] ctxAfterAnon ctxAfterAnon
      rfl rfl rfl rfl rfl rfl).1).trans rfl

/-- The scan of a struct that reaches a child of an unknown kind aborts, and it passes over
a child of a benign kind. -/
theorem structFields_kinds (E : Externals) (fuel : Nat)
    (recur : blockCtx → String → Node → SuResult) (st : FieldScan)
    (pending : Option (GoType × String)) (decl : Node) (rest : List Node) :
    (decl.Kind ∉ ["FieldDecl", "RecordDecl", "IndirectFieldDecl", "MaxFieldAlignmentAttr",
        "AlignedAttr", "PackedAttr"] →
      structFields E fuel recur st pending (decl :: rest) =
        .error ("toStructType: unknown field kind = " ++ decl.Kind ++ "\n")) ∧
    (decl.Kind ∈ ["IndirectFieldDecl", "MaxFieldAlignmentAttr", "AlignedAttr", "PackedAttr"] →
      structFields E fuel recur st pending (decl :: rest) =
        structFields E fuel recur st none rest) := by
  constructor
  · intro hk
    simp only [List.mem_cons, List.mem_singleton, not_or, List.not_mem_nil, or_false] at hk
    obtain ⟨h1, h2, h3, h4, h5, h6⟩ := hk
    have hc : structChild E fuel recur st decl =
        .error ("toStructType: unknown field kind = " ++ decl.Kind ++ "\n") := by
      unfold structChild
      simp [h1, h2, h3, h4, h5, h6]
    cases pending with
    | none => simp only [structFields, hc]
    | some tn => simp only [structFields, h1, if_false, hc]
  · intro hk
    have h1 : decl.Kind ≠ "FieldDecl" := by
      intro e; rw [e] at hk; exact absurd hk (by decide)
    have h2 : decl.Kind ≠ "RecordDecl" := by
      intro e; rw [e] at hk; exact absurd hk (by decide)
    have hc : structChild E fuel recur st decl = .ok (st, none) := by
      unfold structChild
      rw [if_neg h1, if_neg h2, if_pos hk]
    cases pending with
    | none => simp only [structFields, hc]
    | some tn => simp only [structFields, h1, if_false, hc]

/-- The scan of a union that reaches a child of an unknown kind aborts, and it passes over
a child of a benign kind. -/
theorem unionFields_kinds (E : Externals) (fuel : Nat)
    (recur : blockCtx → String → Node → SuResult) (st : FieldScan)
    (pending : Option (GoType × String)) (decl : Node) (rest : List Node) :
    (decl.Kind ∉ ["FieldDecl", "RecordDecl", "IndirectFieldDecl", "MaxFieldAlignmentAttr",
        "AlignedAttr", "PackedAttr"] →
      unionFields E fuel recur st pending (decl :: rest) =
        .error ("toUnionType: unknown field kind = " ++ decl.Kind ++ "\n")) ∧
    (decl.Kind ∈ ["IndirectFieldDecl", "MaxFieldAlignmentAttr", "AlignedAttr", "PackedAttr"] →
      unionFields E fuel recur st pending (decl :: rest) =
        unionFields E fuel recur st none rest) := by
  constructor
  · intro hk
    simp only [List.mem_cons, List.mem_singleton, not_or, List.not_mem_nil, or_false] at hk
    obtain ⟨h1, h2, h3, h4, h5, h6⟩ := hk
    have hc : unionChild E fuel recur st decl =
        .error ("toUnionType: unknown field kind = " ++ decl.Kind ++ "\n") := by
      unfold unionChild
      simp [h1, h2, h3, h4, h5, h6]
    cases pending with
    | none => simp only [unionFields, hc]
    | some tn => simp only [unionFields, h1, if_false, hc]
  · intro hk
    have h1 : decl.Kind ≠ "FieldDecl" := by
      intro e; rw [e] at hk; exact absurd hk (by decide)
    have h2 : decl.Kind ≠ "RecordDecl" := by
      intro e; rw [e] at hk; exact absurd hk (by decide)
    have hc : unionChild E fuel recur st decl = .ok (st, none) := by
      unfold unionChild
      rw [if_neg h1, if_neg h2, if_pos hk]
    cases pending with
    | none => simp only [unionFields, hc]
    | some tn => simp only [unionFields, h1, if_false, hc]

/-- One step of the scan of a struct: it aborts, or it goes on with the children that
follow. -/
theorem structFields_step (E : Externals) (fuel : Nat)
    (recur : blockCtx → String → Node → SuResult) (st : FieldScan)
    (pending : Option (GoType × String)) (next : Node) (rest : List Node) :
    (∃ msg, structFields E fuel recur st pending (next :: rest) = .error msg) ∨
    ∃ st1 p1, structFields E fuel recur st pending (next :: rest) =
      structFields E fuel recur st1 p1 rest := by
  have hchild : ∀ s : FieldScan,
      (∃ msg, (match structChild E fuel recur s next with
        | .error msg => (Except.error msg : Except String FieldScan)
        | .ok (st1, pending) => structFields E fuel recur st1 pending rest) = .error msg) ∨
      ∃ st1 p1, (match structChild E fuel recur s next with
        | .error msg => (Except.error msg : Except String FieldScan)
        | .ok (st1, pending) => structFields E fuel recur st1 pending rest) =
        structFields E fuel recur st1 p1 rest := by
    intro s
    cases structChild E fuel recur s next with
    | error msg => exact Or.inl ⟨msg, rfl⟩
    | ok r => exact Or.inr ⟨r.1, r.2, rfl⟩
  cases pending with
  | none =>
    simp only [structFields]
    exact hchild st
  | some tn =>
    obtain ⟨typ, name⟩ := tn
    simp only [structFields]
    by_cases hk : next.Kind = "FieldDecl"
    · simp only [hk, if_true]
      by_cases hi : next.IsImplicit = true
      · simp only [hi, if_true]
        exact Or.inr ⟨_, _, rfl⟩
      · simp only [hi, if_false]
        cases checkAnonymous E fuel st.ctx (.child 0) typ next with
        | error msg => exact Or.inl ⟨msg, rfl⟩
        | ok r =>
          obtain ⟨⟨ret, ok⟩, ctx1⟩ := r
          cases ok with
          | true => exact Or.inr ⟨_, _, rfl⟩
          | false => exact hchild _
    · simp only [hk, if_false]
      exact hchild st

/-- The scan of a struct with a child of an unknown kind does not end well. -/
theorem structFields_unknown_fails (E : Externals) (fuel : Nat)
    (recur : blockCtx → String → Node → SuResult) :
    ∀ (l : List Node), (∃ d ∈ l, d.Kind ∉ ["FieldDecl", "RecordDecl", "IndirectFieldDecl",
        "MaxFieldAlignmentAttr", "AlignedAttr", "PackedAttr"]) →
      ∀ (st : FieldScan) (pending : Option (GoType × String)),
        ∃ msg, structFields E fuel recur st pending l = .error msg := by
  intro l
  induction l with
  | nil => intro h; obtain ⟨d, hd, _⟩ := h; exact absurd hd (List.not_mem_nil d)
  | cons next rest ih =>
    intro h st pending
    obtain ⟨d, hd, hk⟩ := h
    rcases List.mem_cons.mp hd with e | e
    · subst e
      exact ⟨_, (structFields_kinds E fuel recur st pending d rest).1 hk⟩
    · rcases structFields_step E fuel recur st pending next rest with ⟨msg, hm⟩ | ⟨st1, p1, hs⟩
      · exact ⟨msg, hm⟩
      · rw [hs]
        exact ih ⟨d, e, hk⟩ st1 p1

/-- One step of the scan of a union: it aborts, or it goes on with the children that
follow. -/
theorem unionFields_step (E : Externals) (fuel : Nat)
    (recur : blockCtx → String → Node → SuResult) (st : FieldScan)
    (pending : Option (GoType × String)) (next : Node) (rest : List Node) :
    (∃ msg, unionFields E fuel recur st pending (next :: rest) = .error msg) ∨
    ∃ st1 p1, unionFields E fuel recur st pending (next :: rest) =
      unionFields E fuel recur st1 p1 rest := by
  have hchild : ∀ s : FieldScan,
      (∃ msg, (match unionChild E fuel recur s next with
        | .error msg => (Except.error msg : Except String FieldScan)
        | .ok (st1, pending) => unionFields E fuel recur st1 pending rest) = .error msg) ∨
      ∃ st1 p1, (match unionChild E fuel recur s next with
        | .error msg => (Except.error msg : Except String FieldScan)
        | .ok (st1, pending) => unionFields E fuel recur st1 pending rest) =
        unionFields E fuel recur st1 p1 rest := by
    intro s
    cases unionChild E fuel recur s next with
    | error msg => exact Or.inl ⟨msg, rfl⟩
    | ok r => exact Or.inr ⟨r.1, r.2, rfl⟩
  cases pending with
  | none =>
    simp only [unionFields]
    exact hchild st
  | some tn =>
    obtain ⟨typ, name⟩ := tn
    simp only [unionFields]
    by_cases hk : next.Kind = "FieldDecl"
    · simp only [hk, if_true]
      by_cases hi : next.IsImplicit = true
      · simp only [hi, if_true]
        exact Or.inr ⟨_, _, rfl⟩
      · simp only [hi, if_false]
        cases checkAnonymous E fuel st.ctx (.child 0) typ next with
        | error msg => exact Or.inl ⟨msg, rfl⟩
        | ok r =>
          obtain ⟨⟨ret, ok⟩, ctx1⟩ := r
          cases ok with
          | true => exact Or.inr ⟨_, _, rfl⟩
          | false => exact hchild _
    · simp only [hk, if_false]
      exact hchild st

/-- The scan of a union with a child of an unknown kind does not end well. -/
theorem unionFields_unknown_fails (E : Externals) (fuel : Nat)
    (recur : blockCtx → String → Node → SuResult) :
    ∀ (l : List Node), (∃ d ∈ l, d.Kind ∉ ["FieldDecl", "RecordDecl", "IndirectFieldDecl",
        "MaxFieldAlignmentAttr", "AlignedAttr", "PackedAttr"]) →
      ∀ (st : FieldScan) (pending : Option (GoType × String)),
        ∃ msg, unionFields E fuel recur st pending l = .error msg := by
  intro l
  induction l with
  | nil => intro h; obtain ⟨d, hd, _⟩ := h; exact absurd hd (List.not_mem_nil d)
  | cons next rest ih =>
    intro h st pending
    obtain ⟨d, hd, hk⟩ := h
    rcases List.mem_cons.mp hd with e | e
    · subst e
      exact ⟨_, (unionFields_kinds E fuel recur st pending d rest).1 hk⟩
    · rcases unionFields_step E fuel recur st pending next rest with ⟨msg, hm⟩ | ⟨st1, p1, hs⟩
      · exact ⟨msg, hm⟩
      · rw [hs]
        exact ih ⟨d, e, hk⟩ st1 p1

/-- C20: when the scan of a struct or union reaches a child whose kind is none of
FieldDecl, RecordDecl, IndirectFieldDecl, MaxFieldAlignmentAttr, AlignedAttr and
PackedAttr, it aborts with the error `unknown field kind`, whether or not the inner loop
after an anonymous record is open, so that building an aggregate with such a child never
ends well; a child of one of the four benign kinds adds no field, changes nothing in the
state of the scan and does not abort: the scan goes on with the children that follow. -/
theorem unknown_field_kind (E : Externals) (fuel : Nat)
    (recur : blockCtx → String → Node → SuResult) :
    (∀ (st : FieldScan) (pending : Option (GoType × String)) (decl : Node) (rest : List Node),
      decl.Kind ∉ ["FieldDecl", "RecordDecl", "IndirectFieldDecl", "MaxFieldAlignmentAttr",
        "AlignedAttr", "PackedAttr"] →
      structFields E fuel recur st pending (decl :: rest) =
        .error ("toStructType: unknown field kind = " ++ decl.Kind ++ "\n") ∧
      unionFields E fuel recur st pending (decl :: rest) =
        .error ("toUnionType: unknown field kind = " ++ decl.Kind ++ "\n")) ∧
    (∀ (ctx : blockCtx) (t : GoType) (node : Node),
      (∃ d ∈ node.Inner, d.Kind ∉ ["FieldDecl", "RecordDecl", "IndirectFieldDecl",
        "MaxFieldAlignmentAttr", "AlignedAttr", "PackedAttr"]) →
      (∃ msg, toStructType E fuel recur ctx t node = .error msg) ∧
      ∃ msg, toUnionType E fuel recur ctx t node = .error msg) ∧
    (∀ (st : FieldScan) (pending : Option (GoType × String)) (decl : Node) (rest : List Node),
      decl.Kind ∈ ["IndirectFieldDecl", "MaxFieldAlignmentAttr", "AlignedAttr",
        "PackedAttr"] →
      structFields E fuel recur st pending (decl :: rest) =
        structFields E fuel recur st none rest ∧
      unionFields E fuel recur st pending (decl :: rest) =
        unionFields E fuel recur st none rest) := by
  refine ⟨fun st pending decl rest hk => ?_, fun ctx t node hex => ?_,
    fun st pending decl rest hk => ?_⟩
  · exact ⟨(structFields_kinds E fuel recur st pending decl rest).1 hk,
      (unionFields_kinds E fuel recur st pending decl rest).1 hk⟩
  · constructor
    · obtain ⟨msg, hm⟩ := structFields_unknown_fails E fuel recur node.Inner hex
        { ctx := ctx, b := [], dels := [] } none
      exact ⟨msg, by simp only [toStructType, hm]⟩
    · obtain ⟨msg, hm⟩ := unionFields_unknown_fails E fuel recur node.Inner hex
        { ctx := ctx, b := [], dels := [] } none
      exact ⟨msg, by simp only [toUnionType, hm]⟩
  · exact ⟨(structFields_kinds E fuel recur st pending decl rest).2 hk,
      (unionFields_kinds E fuel recur st pending decl rest).2 hk⟩

/-- A struct `S { int a; <method>; }` and a struct `S { <packed>; int a; }`: the first
aborts at the child of the unknown kind, the second has the one field `a`. -/
theorem unknown_field_kind_example :
    compileStructOrUnion anonExternals 5 {} "struct_S"
      { Kind := "RecordDecl", Name := "S", TagUsed := "struct", CompleteDefinition := true,
        ArrayFiller := [],
        Inner := [
          { Kind := "FieldDecl", Name := "a", QualType := "int", ArrayFiller := [], Inner := [] },
          { Kind := "CXXMethodDecl", Name := "f", ArrayFiller := [], Inner := [] }] } =
      .error "toStructType: unknown field kind = CXXMethodDecl\n" ∧
    (compileStructOrUnion anonExternals 5 {} "struct_S"
      { Kind := "RecordDecl", Name := "S", TagUsed := "struct", CompleteDefinition := true,
        ArrayFiller := [],
        Inner := [
          { Kind := "PackedAttr", ArrayFiller := [], Inner := [] },
          { Kind := "FieldDecl", Name := "a", QualType := "int", ArrayFiller := [],
            Inner := [] }] }).toOption.map (fun r => r.2.pkg.declsOf "") =
      some [.typeDecl "struct_S" (.struct [("a", .basic "int32", false)])] :=
  ⟨rfl, rfl⟩

/-- The count `initLit` returns is 0 for a bitfield after the first of its run and 1 in
every other case. -/
theorem initLit_count (I : InitExternals) (fuel : Nat) (ctx : blockCtx) (cb cb1 : List CbCall)
    (typ : FieldType) (initExpr : Node) (k : Nat)
    (h : initLit I fuel ctx cb typ initExpr = .ok (k, cb1)) :
    k = if typ.isLaterBitfield then 0 else 1 := by
  cases fuel with
  | zero => exact absurd h (by simp [initLit])
  | succ fuel =>
    cases typ with
    | bfType word first =>
      simp only [initLit] at h
      split at h
      · exact absurd h (by simp)
      · cases first with
        | true =>
          simp only [Bool.not_true, Bool.false_eq_true, if_false, Except.ok.injEq,
            Prod.mk.injEq] at h
          simp [FieldType.isLaterBitfield, ← h.1]
        | false =>
          simp only [Bool.not_false, if_true, Except.ok.injEq, Prod.mk.injEq] at h
          simp [FieldType.isLaterBitfield, ← h.1]
    | type t =>
      have hk : k = 1 := by
        cases t with
        | array elem len =>
          simp only [initLit] at h
          split at h
          · exact absurd h (by simp)
          · simp only [Except.ok.injEq, Prod.mk.injEq] at h; exact h.1.symm
          · split at h
            · exact absurd h (by simp)
            · simp only [Except.ok.injEq, Prod.mk.injEq] at h; exact h.1.symm
        | named decl =>
          simp only [initLit] at h
          split at h
          · exact absurd h (by simp)
          · simp only [Except.ok.injEq, Prod.mk.injEq] at h; exact h.1.symm
        | basic name =>
          simp only [initLit] at h
          split at h
          · exact absurd h (by simp)
          · simp only [Except.ok.injEq, Prod.mk.injEq] at h; exact h.1.symm
        | pointer elem =>
          simp only [initLit] at h
          split at h
          · exact absurd h (by simp)
          · simp only [Except.ok.injEq, Prod.mk.injEq] at h; exact h.1.symm
        | signature descr =>
          simp only [initLit] at h
          split at h
          · exact absurd h (by simp)
          · simp only [Except.ok.injEq, Prod.mk.injEq] at h; exact h.1.symm
        | struct fields =>
          simp only [initLit] at h
          split at h
          · exact absurd h (by simp)
          · simp only [Except.ok.injEq, Prod.mk.injEq] at h; exact h.1.symm
        | union fields =>
          simp only [initLit] at h
          split at h
          · exact absurd h (by simp)
          · simp only [Except.ok.injEq, Prod.mk.injEq] at h; exact h.1.symm
        | bitfield elem bits =>
          simp only [initLit] at h
          split at h
          · exact absurd h (by simp)
          · simp only [Except.ok.injEq, Prod.mk.injEq] at h; exact h.1.symm
      simp [FieldType.isLaterBitfield, hk]

/-- The count of the loop of `structLit`: every initializer has a field, and the count grows
by the number of initializers less the number of their fields that are bitfields after the
first of a run. -/
theorem structLitElems_count
    (rec : List CbCall → FieldType → Node → Except String (Nat × List CbCall))
    (hrec : ∀ cb f e k cb1, rec cb f e = .ok (k, cb1) →
      k = if f.isLaterBitfield then 0 else 1) :
    ∀ (inits : List Node) (fields : List FieldType) (n : Nat) (cb cb1 : List CbCall) (m : Nat),
      structLitElems rec fields n cb inits = .ok (m, cb1) →
        inits.length ≤ fields.length ∧
        m + ((fields.take inits.length).filter FieldType.isLaterBitfield).length =
          n + inits.length := by
  intro inits
  induction inits with
  | nil =>
    intro fields n cb cb1 m h
    have h2 : m = n := by
      cases fields <;> simp only [structLitElems, Except.ok.injEq, Prod.mk.injEq] at h <;>
        exact h.1.symm
    simp [h2]
  | cons e es ih =>
    intro fields n cb cb1 m h
    cases fields with
    | nil => exact absurd h (by simp [structLitElems])
    | cons f fs =>
      simp only [structLitElems] at h
      cases hr : rec cb f e with
      | error msg => rw [hr] at h; exact absurd h (by simp)
      | ok r =>
        obtain ⟨k, cb2⟩ := r
        rw [hr] at h
        simp only at h
        obtain ⟨hlen, hm⟩ := ih fs (n + k) cb2 cb1 m h
        have hk := hrec cb f e k cb2 hr
        refine ⟨by simpa using hlen, ?_⟩
        simp only [List.length_cons, List.take_succ_cons, List.filter_cons]
        by_cases hl : f.isLaterBitfield = true
        · simp only [hl, if_true, List.length_cons] at hk ⊢
          omega
        · simp only [hl, if_false, Bool.false_eq_true] at hk ⊢
          omega

/-- What `initLit` does for a bitfield. -/
theorem initLit_bfType (I : InitExternals) (fuel : Nat) (ctx : blockCtx) (cb : List CbCall)
    (word : GoType) (first : Bool) (e : Node) :
    (e.Kind = ImplicitValueInitExpr →
      initLit I (fuel + 1) ctx cb (.bfType word first) e =
        if first then .ok (1, cb ++ [.ZeroLit word]) else .ok (0, cb)) ∧
    (e.Kind ≠ ImplicitValueInitExpr →
      initLit I (fuel + 1) ctx cb (.bfType word first) e =
        .error "initLit bfType: TODO\n") := by
  constructor
  · intro hk
    cases first <;> simp [initLit, hk]
  · intro hk
    simp [initLit, hk]

/-- An initializer that needs no nested list is compiled with any fuel. -/
theorem initLit_flat (I : InitExternals) (fuel : Nat) (ctx : blockCtx) (cb : List CbCall)
    (f : FieldType) (e : Node) (h : initializesFlat I f e = true) :
    ∃ k cb1, initLit I (fuel + 1) ctx cb f e = .ok (k, cb1) := by
  cases f with
  | bfType word first =>
    have hk : e.Kind = ImplicitValueInitExpr := by simpa [initializesFlat] using h
    rw [(initLit_bfType I fuel ctx cb word first e).1 hk]
    cases first
    · exact ⟨0, cb, rfl⟩
    · exact ⟨1, _, rfl⟩
  | type t =>
    have hexpr : ∀ hne : (∀ elem len, t ≠ .array elem len) ∧ (∀ d, t ≠ .named d),
        (I.compileExpr e).toOption.isSome = true →
        ∃ k cb1, initLit I (fuel + 1) ctx cb (.type t) e = .ok (k, cb1) := by
      intro hne hc
      cases hv : I.compileExpr e with
      | error msg => rw [hv] at hc; exact absurd hc (by simp [Except.toOption])
      | ok v =>
        refine ⟨1, cb ++ [.Expr v], ?_⟩
        cases t with
        | array elem len => exact absurd rfl (hne.1 elem len)
        | named d => exact absurd rfl (hne.2 d)
        | basic name => simp only [initLit, hv]
        | pointer elem => simp only [initLit, hv]
        | signature descr => simp only [initLit, hv]
        | struct fields => simp only [initLit, hv]
        | union fields => simp only [initLit, hv]
        | bitfield elem bits => simp only [initLit, hv]
    cases t with
    | array elem len => exact absurd h (by simp [initializesFlat])
    | named d => exact absurd h (by simp [initializesFlat])
    | basic name =>
      exact hexpr ⟨fun _ _ => by simp, fun _ => by simp⟩ (by simpa [initializesFlat] using h)
    | pointer elem =>
      exact hexpr ⟨fun _ _ => by simp, fun _ => by simp⟩ (by simpa [initializesFlat] using h)
    | signature descr =>
      exact hexpr ⟨fun _ _ => by simp, fun _ => by simp⟩ (by simpa [initializesFlat] using h)
    | struct fields =>
      exact hexpr ⟨fun _ _ => by simp, fun _ => by simp⟩ (by simpa [initializesFlat] using h)
    | union fields =>
      exact hexpr ⟨fun _ _ => by simp, fun _ => by simp⟩ (by simpa [initializesFlat] using h)
    | bitfield elem bits =>
      exact hexpr ⟨fun _ _ => by simp, fun _ => by simp⟩ (by simpa [initializesFlat] using h)

/-- The loop of `structLit` ends well when every initializer has a field and needs no
nested list. -/
theorem structLitElems_flat (I : InitExternals) (fuel : Nat) (ctx : blockCtx) :
    ∀ (inits : List Node) (fields : List FieldType) (n : Nat) (cb : List CbCall),
      inits.length ≤ fields.length →
      (∀ p ∈ fields.zip inits, initializesFlat I p.1 p.2 = true) →
      ∃ m cb1, structLitElems (initLit I (fuel + 1) ctx) fields n cb inits = .ok (m, cb1) := by
  intro inits
  induction inits with
  | nil => intro fields n cb _ _; exact ⟨n, cb, by cases fields <;> rfl⟩
  | cons e es ih =>
    intro fields n cb hlen hall
    cases fields with
    | nil => simp at hlen
    | cons f fs =>
      obtain ⟨k, cb1, hk⟩ := initLit_flat I fuel ctx cb f e
        (hall (f, e) (by simp))
      obtain ⟨m, cb2, hm⟩ := ih fs (n + k) cb1 (by simpa using hlen)
        (fun p hp => hall p (by simp [hp]))
      exact ⟨m, cb2, by simp only [structLitElems, hk, hm]⟩

/-- C18: for a bitfield `initLit` aborts unless the initializer is an implicit value
initializer; for the first bitfield of a packed run it emits one zero value of the shared
word and returns the count 1, for a later bitfield of the run it emits nothing and returns
the count 0. Whenever `structLit` ends well, every initializer has a field and the literal
it emits has as many elements as there are initializers less the positions among them
whose field is a later bitfield of a run; it ends well, with any fuel for one level, when
every initializer has a field and is an implicit value for a bitfield or an expression
that compiles for a field that is no array and no named type. -/
theorem structLit_bitfields (I : InitExternals) (fuel : Nat) (ctx : blockCtx) :
    (∀ (cb : List CbCall) (word : GoType) (first : Bool) (e : Node),
      (e.Kind = ImplicitValueInitExpr →
        initLit I (fuel + 1) ctx cb (.bfType word true) e = .ok (1, cb ++ [.ZeroLit word]) ∧
        initLit I (fuel + 1) ctx cb (.bfType word false) e = .ok (0, cb)) ∧
      (e.Kind ≠ ImplicitValueInitExpr →
        initLit I (fuel + 1) ctx cb (.bfType word first) e =
          .error "initLit bfType: TODO\n")) ∧
    (∀ (cb : List CbCall) (typ : GoType) (decl : Node) (cb1 : List CbCall),
      structLit I (initLit I fuel ctx) ctx cb typ decl = .ok cb1 →
      ∃ fields cb0, I.getVStruct ctx typ = .ok fields ∧
        decl.Inner.length ≤ fields.length ∧
        cb1 = cb0 ++ [.StructLit typ
          (decl.Inner.length -
            ((fields.take decl.Inner.length).filter FieldType.isLaterBitfield).length)
          false]) ∧
    (∀ (cb : List CbCall) (typ : GoType) (decl : Node) (fields : List FieldType),
      I.getVStruct ctx typ = .ok fields → decl.Inner.length ≤ fields.length →
      (∀ p ∈ fields.zip decl.Inner, initializesFlat I p.1 p.2 = true) →
      ∃ cb1, structLit I (initLit I (fuel + 1) ctx) ctx cb typ decl = .ok cb1) := by
  refine ⟨fun cb word first e => ⟨fun hk => ⟨?_, ?_⟩, fun hk => ?_⟩,
    fun cb typ decl cb1 h => ?_, fun cb typ decl fields hg hlen hall => ?_⟩
  · exact (initLit_bfType I fuel ctx cb word true e).1 hk
  · exact (initLit_bfType I fuel ctx cb word false e).1 hk
  · exact (initLit_bfType I fuel ctx cb word first e).2 hk
  · unfold structLit at h
    cases hg : I.getVStruct ctx typ with
    | error msg => rw [hg] at h; exact absurd h (by simp)
    | ok fields =>
      rw [hg] at h
      simp only at h
      cases hl : structLitElems (initLit I fuel ctx) fields 0 cb decl.Inner with
      | error msg => rw [hl] at h; exact absurd h (by simp)
      | ok r =>
        obtain ⟨n, cb0⟩ := r
        rw [hl] at h
        simp only [Except.ok.injEq] at h
        obtain ⟨hlen, hn⟩ := structLitElems_count (initLit I fuel ctx)
          (fun cb f e k cb1 hr => initLit_count I fuel ctx cb cb1 f e k hr)
          decl.Inner fields 0 cb cb0 n hl
        refine ⟨fields, cb0, rfl, hlen, ?_⟩
        rw [← h]
        have : n = decl.Inner.length -
            ((fields.take decl.Inner.length).filter FieldType.isLaterBitfield).length := by
          omega
        rw [← this]
  · obtain ⟨m, cb1, hm⟩ := structLitElems_flat I fuel ctx decl.Inner fields 0 cb hlen hall
    exact ⟨cb1 ++ [.StructLit typ m false], by simp only [structLit, hg, hm]⟩

/-- The initializer list `{ 5, <implicit>, <implicit>, 5 }` for the struct of the examples,
whose second and third fields are bitfields of one packed run: four initializers, a
literal of three elements. -/
theorem structLit_example :
    initLit exampleInit 2 {} [] (.type (.named 0)) initList =
      .ok (1, [.Expr ⟨some (.int64Val 5)⟩, .ZeroLit (.basic "uint32"),
        .Expr ⟨some (.int64Val 5)⟩, .StructLit (.named 0) 3 false]) := by
  rfl

/-- The loop over the alternatives finds nothing exactly when no alternative has a type
identical to `t`. -/
theorem unionAlternative_none (I : InitExternals) (t : GoType) (ufs : List (String × GoType)) :
    unionAlternative I t ufs = none ↔ ∀ fld ∈ ufs, I.Identical fld.2 t = false := by
  induction ufs with
  | nil => simp [unionAlternative]
  | cons fld ufs ih =>
    unfold unionAlternative
    by_cases h : I.Identical fld.2 t = true
    · simp [h]
    · have hf : I.Identical fld.2 t = false := Bool.eq_false_iff.mpr h
      simp [hf, ih]

/-- The loop over the alternatives returns the first alternative, in the order of
declaration, whose type is identical to `t`. -/
theorem unionAlternative_first (I : InitExternals) (t : GoType) (fld : String × GoType)
    (post : List (String × GoType)) :
    ∀ (pre : List (String × GoType)), (∀ f ∈ pre, I.Identical f.2 t = false) →
      I.Identical fld.2 t = true →
      unionAlternative I t (pre ++ fld :: post) = some fld := by
  intro pre
  induction pre with
  | nil => intro _ h; simp [unionAlternative, h]
  | cons f pre ih =>
    intro hpre h
    have hf : I.Identical f.2 t = false := hpre f (List.mem_cons_self _ _)
    simp only [List.cons_append, unionAlternative, hf, Bool.false_eq_true, if_false]
    exact ih (fun g hg => hpre g (List.mem_cons_of_mem _ hg)) h

/-- C19: when the type of the first element of the initializer resolves to `t`,
`initUnionVar` aborts with the error `init with unexpect type` when no alternative of the
union has a type identical to `t`; otherwise it takes the first alternative, in the order
of declaration, whose type is identical to `t`, and emits the assignment to that member:
the value and the member reference, the initializer compiled by `initLit`, and the
assignment, inside a function `init` exactly when the current scope is the scope of the
package. It ends well whenever `initLit` does, and unless `initLit` itself aborts with that
message, the error `init with unexpect type` arises if and only if no alternative has an
identical type. -/
theorem initUnionVar_alternative (E : Externals) (I : InitExternals) (fuel : Nat)
    (ctx : blockCtx) (cb : List CbCall) (name : String) (ufs : List (String × GoType))
    (decl initExpr : Node) (rest : List Node) (t : GoType) (kind : Nat) (ctx1 : blockCtx)
    (hdecl : decl.Inner = initExpr :: rest)
    (htype : toTypeEx E fuel ctx (.scope 0) none initExpr.QualType 0 = .ok ((t, kind), ctx1)) :
    ((∀ fld ∈ ufs, I.Identical fld.2 t = false) →
      initUnionVar E I fuel ctx cb name ufs decl =
        .error ("initUnion: init with unexpect type - " ++ I.fmt t ++ "\n")) ∧
    (∀ (pre : List (String × GoType)) (fld : String × GoType) (post : List (String × GoType)),
      ufs = pre ++ fld :: post → (∀ f ∈ pre, I.Identical f.2 t = false) →
      I.Identical fld.2 t = true →
      initUnionVar E I fuel ctx cb name ufs decl =
        if ctx1.pkg.typesScope = 0 then
          (initLit I fuel ctx1 (cb ++ [.NewFunc "init", .Val name, .MemberRef fld.1])
            (.type t) initExpr).map (fun r => (ctx1, r.2 ++ [.Assign 1, .End]))
        else
          (initLit I fuel ctx1 (cb ++ [.Val name, .MemberRef fld.1])
            (.type t) initExpr).map (fun r => (ctx1, r.2 ++ [.Assign 1]))) ∧
    ((∀ cb2, initLit I fuel ctx1 cb2 (.type t) initExpr ≠
        .error ("initUnion: init with unexpect type - " ++ I.fmt t ++ "\n")) →
      (initUnionVar E I fuel ctx cb name ufs decl =
          .error ("initUnion: init with unexpect type - " ++ I.fmt t ++ "\n") ↔
        ∀ fld ∈ ufs, I.Identical fld.2 t = false)) := by
  have hnone : (∀ fld ∈ ufs, I.Identical fld.2 t = false) →
      initUnionVar E I fuel ctx cb name ufs decl =
        .error ("initUnion: init with unexpect type - " ++ I.fmt t ++ "\n") := by
    intro h
    unfold initUnionVar
    rw [hdecl]
    simp only [htype, (unionAlternative_none I t ufs).mpr h]
  have hsome : ∀ fld, unionAlternative I t ufs = some fld →
      initUnionVar E I fuel ctx cb name ufs decl =
        if ctx1.pkg.typesScope = 0 then
          (initLit I fuel ctx1 (cb ++ [.NewFunc "init", .Val name, .MemberRef fld.1])
            (.type t) initExpr).map (fun r => (ctx1, r.2 ++ [.Assign 1, .End]))
        else
          (initLit I fuel ctx1 (cb ++ [.Val name, .MemberRef fld.1])
            (.type t) initExpr).map (fun r => (ctx1, r.2 ++ [.Assign 1])) := by
    intro fld h
    unfold initUnionVar
    rw [hdecl]
    simp only [htype, h]
    by_cases hg : ctx1.pkg.typesScope = 0
    · simp only [hg, if_true, List.append_assoc, List.singleton_append]
      cases initLit I fuel ctx1 (cb ++ [.NewFunc "init", .Val name, .MemberRef fld.1])
          (.type t) initExpr with
      | error msg => rfl
      | ok r => rfl
    · simp only [hg, if_false]
      cases initLit I fuel ctx1 (cb ++ [.Val name, .MemberRef fld.1]) (.type t) initExpr with
      | error msg => rfl
      | ok r => rfl
  refine ⟨hnone, ?_, ?_⟩
  · intro pre fld post hufs hpre hfld
    exact hsome fld (by rw [hufs]; exact unionAlternative_first I t fld post pre hpre hfld)
  · intro hlit
    refine ⟨fun herr => ?_, hnone⟩
    cases ha : unionAlternative I t ufs with
    | none => exact (unionAlternative_none I t ufs).mp ha
    | some fld =>
      exfalso
      rw [hsome fld ha] at herr
      by_cases hg : ctx1.pkg.typesScope = 0
      · rw [if_pos hg] at herr
        cases hl : initLit I fuel ctx1 (cb ++ [.NewFunc "init", .Val name, .MemberRef fld.1])
            (.type t) initExpr with
        | error msg =>
          rw [hl] at herr
          simp only [Except.map, Except.error.injEq] at herr
          exact hlit _ (by rw [hl, herr])
        | ok r => rw [hl] at herr; simp [Except.map] at herr
      · rw [if_neg hg] at herr
        cases hl : initLit I fuel ctx1 (cb ++ [.Val name, .MemberRef fld.1])
            (.type t) initExpr with
        | error msg =>
          rw [hl] at herr
          simp only [Except.map, Except.error.injEq] at herr
          exact hlit _ (by rw [hl, herr])
        | ok r => rw [hl] at herr; simp [Except.map] at herr

/-- C19, witness: a union with the alternatives `f` of type `float32` and `i`, `j` of type
`int32`, initialized at package level with an integer: the member `i` is assigned in a
function `init`. -/
theorem initUnionVar_alternative_witness :
    initUnionVar anonExternals exampleInit 3 {} [] "u"
        [("f", .basic "float32"), ("i", .basic "int32"), ("j", .basic "int32")] initList =
      .ok ({}, [.NewFunc "init", .Val "u", .MemberRef "i", .Expr ⟨some (.int64Val 5)⟩,
        .Assign 1, .End]) :=
  ((initUnionVar_alternative anonExternals exampleInit 3 {} [] "u"
    [("f", .basic "float32"), ("i", .basic "int32"), ("j", .basic "int32")] initList
    intLiteral [implicitValue, implicitValue, intLiteral] (.basic "int32") 0 {} rfl rfl).2.1
    [("f", .basic "float32")] ("i", .basic "int32") [("j", .basic "int32")] rfl
    (by decide) rfl).trans rfl

/-- The same union initialized inside a function body, and a union without an alternative
of the type of the initializer. -/
theorem initUnionVar_example :
    (initUnionVar anonExternals exampleInit 3 { pkg := { scopes := [[], []] } } [] "u"
        [("f", .basic "float32"), ("i", .basic "int32"), ("j", .basic "int32")]
        initList).toOption.map (fun r => r.2) =
      some [.Val "u", .MemberRef "i", .Expr ⟨some (.int64Val 5)⟩, .Assign 1] ∧
    initUnionVar anonExternals exampleInit 3 {} [] "u" [("f", .basic "float32")] initList =
      .error "initUnion: init with unexpect type - int32\n" :=
  ⟨rfl, rfl⟩

/-- The identifiers `avoidKeyword` renames are the keywords of Go that are no keywords of
C. -/
theorem avoided_keywords (k : String) :
    k ∈ ["map", "type", "range", "chan", "var", "func", "go", "select", "defer", "package",
      "import", "interface", "fallthrough"] ↔ k ∈ goKeywords ∧ k ∉ cKeywords := by
  constructor
  · intro h
    fin_cases h <;> decide
  · rintro ⟨hg, hc⟩
    unfold goKeywords at hg
    fin_cases hg <;> first | decide | exact absurd (by decide) hc

/-- A renamed identifier is not renamed again and is no keyword of Go. -/
theorem avoided_underscore (k : String)
    (h : k ∈ ["map", "type", "range", "chan", "var", "func", "go", "select", "defer",
      "package", "import", "interface", "fallthrough"]) :
    avoidKeyword (k ++ "_") = k ++ "_" ∧ k ++ "_" ∉ goKeywords := by
  fin_cases h <;> exact ⟨by decide, by decide⟩

/-- C21: `avoidKeyword` appends one underscore to each of map, type, range, chan, var, func,
go, select, defer, package, import, interface and fallthrough and leaves every other
identifier as it is; these thirteen are exactly the keywords of Go that are no keywords of
C, so for a valid C identifier (an identifier that is no keyword of C) the result is no
keyword of Go, `var` becomes `var_`, and applying `avoidKeyword` twice gives the same as
applying it once. -/
theorem avoidKeyword_spec (name : String) :
    (name ∈ ["map", "type", "range", "chan", "var", "func", "go", "select", "defer",
        "package", "import", "interface", "fallthrough"] →
      avoidKeyword name = name ++ "_") ∧
    (name ∉ ["map", "type", "range", "chan", "var", "func", "go", "select", "defer",
        "package", "import", "interface", "fallthrough"] →
      avoidKeyword name = name) ∧
    (∀ k, k ∈ ["map", "type", "range", "chan", "var", "func", "go", "select", "defer",
        "package", "import", "interface", "fallthrough"] ↔ k ∈ goKeywords ∧ k ∉ cKeywords) ∧
    (isCIdent name = true → name ∉ cKeywords → avoidKeyword name ∉ goKeywords) ∧
    avoidKeyword "var" = "var_" ∧
    avoidKeyword (avoidKeyword name) = avoidKeyword name := by
  have hin : name ∈ ["map", "type", "range", "chan", "var", "func", "go", "select", "defer",
      "package", "import", "interface", "fallthrough"] → avoidKeyword name = name ++ "_" := by
    intro h
    unfold avoidKeyword
    rw [if_pos h]
  have hout : name ∉ ["map", "type", "range", "chan", "var", "func", "go", "select", "defer",
      "package", "import", "interface", "fallthrough"] → avoidKeyword name = name := by
    intro h
    unfold avoidKeyword
    rw [if_neg h]
  refine ⟨hin, hout, avoided_keywords, ?_, by decide, ?_⟩
  · intro _ hc
    by_cases h : name ∈ ["map", "type", "range", "chan", "var", "func", "go", "select",
        "defer", "package", "import", "interface", "fallthrough"]
    · rw [hin h]
      exact (avoided_underscore name h).2
    · rw [hout h]
      intro hg
      exact h ((avoided_keywords name).mpr ⟨hg, hc⟩)
  · by_cases h : name ∈ ["map", "type", "range", "chan", "var", "func", "go", "select",
        "defer", "package", "import", "interface", "fallthrough"]
    · rw [hin h]
      exact (avoided_underscore name h).1
    · rw [hout h, hout h]

/-- `isPublicFrom` holds exactly when the file ends with one of the suffixes. -/
theorem isPublicFrom_iff (f : String) (pubFrom : List String) :
    isPublicFrom f pubFrom = true ↔ ∃ frm ∈ pubFrom, HasSuffix f frm = true := by
  induction pubFrom with
  | nil => simp [isPublicFrom]
  | cons frm pubFrom ih =>
    unfold isPublicFrom
    by_cases h : HasSuffix f frm = true
    · simp [h]
    · simp [h, ih]

/-- The effective origin file after one more declaration. -/
theorem lastOrigin_snoc (pre : List Node) (d : Node) :
    lastOrigin (pre ++ [d]) =
      if d.PresumedFile ≠ "" then some d.PresumedFile else lastOrigin pre := by
  unfold lastOrigin
  rw [List.reverse_append, List.reverse_singleton, List.singleton_append, List.find?_cons]
  by_cases h : d.PresumedFile = ""
  · simp [h]
  · simp [h]

/-- `canPub` on a name that is not empty. -/
theorem canPub_eq (name : String) (h : name ≠ "") : canPub name = .ok (firstLower name) := by
  unfold canPub firstLower
  cases hd : name.data with
  | nil =>
    exfalso
    apply h
    cases name
    simp only at hd
    rw [hd]
  | cons c cs => rfl

/-- The declarations of a list with one more declaration at its end: those of the list, and
the new one. -/
theorem snoc_split {α : Type} (Q : List α → α → Prop) (pre : List α) (a : α) :
    (∃ l1 d l2, pre ++ [a] = l1 ++ d :: l2 ∧ Q l1 d) ↔
      (∃ l1 d l2, pre = l1 ++ d :: l2 ∧ Q l1 d) ∨ Q pre a := by
  constructor
  · rintro ⟨l1, d, l2, heq, hq⟩
    rcases List.eq_nil_or_concat l2 with h2 | ⟨l3, b, h2⟩
    · subst h2
      have h3 : pre ++ [a] = l1 ++ [d] := heq
      obtain ⟨e1, e2⟩ := List.append_inj' h3 rfl
      simp only [List.cons.injEq, and_true] at e2
      subst e1
      subst e2
      exact Or.inr hq
    · subst h2
      have h3 : pre ++ [a] = (l1 ++ d :: l3) ++ [b] := by
        rw [heq]; simp
      obtain ⟨e1, _⟩ := List.append_inj' h3 rfl
      exact Or.inl ⟨l1, d, l3, e1, hq⟩
  · rintro (⟨l1, d, l2, heq, hq⟩ | hq)
    · exact ⟨l1, d, l2 ++ [a], by rw [heq]; simp, hq⟩
    · exact ⟨pre, a, [], rfl, hq⟩

/-- The loop of `initPublicFrom`: after the declarations `pre`, with the flag set exactly
when their effective origin file ends with one of the suffixes and the set holding the
public names among them, the loop over the declarations `rest` ends well with the public
names among all of them. -/
theorem publicFromLoop_spec (pubFrom : List String) :
    ∀ (rest pre : List Node) (isPub : Bool) (acc : List String),
      (∀ d ∈ rest, d.Name ≠ "") →
      (isPub = true ↔ ∃ f, lastOrigin pre = some f ∧ isPublicFrom f pubFrom = true) →
      (∀ name, name ∈ acc ↔ ∃ l1 d l2, pre = l1 ++ d :: l2 ∧ isPublicDecl pubFrom l1 d name) →
      ∃ m, publicFromLoop pubFrom isPub acc rest = .ok m ∧
        ∀ name, name ∈ m ↔
          ∃ l1 d l2, pre ++ rest = l1 ++ d :: l2 ∧ isPublicDecl pubFrom l1 d name := by
  intro rest
  induction rest with
  | nil =>
    intro pre isPub acc _ _ hacc
    exact ⟨acc, rfl, by simpa using hacc⟩
  | cons decl rest ih =>
    intro pre isPub acc hnames hpub hacc
    have hrest : ∀ d ∈ rest, d.Name ≠ "" := fun d hd => hnames d (List.mem_cons_of_mem _ hd)
    have hname : decl.Name ≠ "" := hnames decl (List.mem_cons_self _ _)
    have hpub1 : ((if decl.PresumedFile ≠ "" then isPublicFrom decl.PresumedFile pubFrom
        else isPub) = true ↔
        ∃ f, lastOrigin (pre ++ [decl]) = some f ∧ isPublicFrom f pubFrom = true) := by
      rw [lastOrigin_snoc]
      by_cases hf : decl.PresumedFile = ""
      · simp only [hf, ne_eq, not_true_eq_false, if_false]
        exact hpub
      · simp only [hf, ne_eq, not_false_eq_true, if_true, Option.some.injEq]
        constructor
        · intro h; exact ⟨_, rfl, h⟩
        · rintro ⟨f, e, h⟩; rw [e]; exact h
    have hq : ∀ name, isPublicDecl pubFrom pre decl name ↔
        (decl.Name = name ∧ decl.Kind ∈ ["VarDecl", "TypedefDecl", "FunctionDecl"] ∧
          firstLower name = true ∧
          (if decl.PresumedFile ≠ "" then isPublicFrom decl.PresumedFile pubFrom
            else isPub) = true) := by
      intro name
      unfold isPublicDecl
      rw [hpub1]
      simp only [isPublicFrom_iff]
    have hstep : ∀ acc1 : List String,
        (∀ name, name ∈ acc1 ↔ name ∈ acc ∨ isPublicDecl pubFrom pre decl name) →
        ∃ m, publicFromLoop pubFrom
            (if decl.PresumedFile ≠ "" then isPublicFrom decl.PresumedFile pubFrom else isPub)
            acc1 rest = .ok m ∧
          ∀ name, name ∈ m ↔
            ∃ l1 d l2, pre ++ decl :: rest = l1 ++ d :: l2 ∧ isPublicDecl pubFrom l1 d name := by
      intro acc1 hacc1
      have := ih (pre ++ [decl]) _ acc1 hrest hpub1 (by
        intro name
        rw [hacc1 name, hacc name]
        exact (snoc_split (fun l1 d => isPublicDecl pubFrom l1 d name) pre decl).symm)
      simpa only [List.append_assoc, List.singleton_append] using this
    have hskip : (∀ name, ¬ isPublicDecl pubFrom pre decl name) →
        ∃ m, publicFromLoop pubFrom
            (if decl.PresumedFile ≠ "" then isPublicFrom decl.PresumedFile pubFrom else isPub)
            acc rest = .ok m ∧
          ∀ name, name ∈ m ↔
            ∃ l1 d l2, pre ++ decl :: rest = l1 ++ d :: l2 ∧ isPublicDecl pubFrom l1 d name :=
      fun hno => hstep acc (fun name => by simp [hno name])
    unfold publicFromLoop
    simp only
    by_cases hp : (if decl.PresumedFile ≠ "" then isPublicFrom decl.PresumedFile pubFrom
        else isPub) = true
    · rw [if_pos hp]
      by_cases hk : decl.Kind ∈ ["VarDecl", "TypedefDecl", "FunctionDecl"]
      · rw [if_pos hk, canPub_eq decl.Name hname]
        cases hl : firstLower decl.Name with
        | true =>
          simp only
          refine hstep _ (fun name => ?_)
          rw [hq name]
          by_cases hc : acc.contains decl.Name = true
          · rw [if_pos hc]
            constructor
            · exact Or.inl
            · rintro (h | ⟨h, _⟩)
              · exact h
              · rw [← h]; simpa using hc
          · rw [if_neg hc, List.mem_cons]
            constructor
            · rintro (h | h)
              · exact Or.inr ⟨h.symm, hk, by rw [h]; exact hl, hp⟩
              · exact Or.inl h
            · rintro (h | ⟨h, _⟩)
              · exact Or.inr h
              · exact Or.inl h.symm
        | false =>
          simp only
          refine hskip (fun name hn => ?_)
          obtain ⟨h1, _, h3, _⟩ := (hq name).mp hn
          rw [← h1, hl] at h3
          exact absurd h3 (by simp)
      · rw [if_neg hk]
        exact hskip (fun name hn => hk ((hq name).mp hn).2.1)
    · rw [if_neg hp]
      exact hskip (fun name hn => hp ((hq name).mp hn).2.2.2)

/-- C22: with an empty list of suffixes `initPublicFrom` leaves the filter as it is (none
is created). With a list that is not empty, for declarations whose names are not empty, it
ends well with a new filter that holds exactly the names of the variable, typedef and
function declarations whose name starts with a lower-case letter a..z and whose effective
origin file, the nearest non-empty origin file at or before the declaration, ends with one
of the suffixes. -/
theorem initPublicFrom_spec (autopub : Option (List String)) (conf : Config) (node : Node)
    (hnames : ∀ d ∈ node.Inner, d.Name ≠ "") :
    (conf.PublicFrom = [] → initPublicFrom autopub conf node = .ok autopub) ∧
    (conf.PublicFrom ≠ [] →
      ∃ m, initPublicFrom autopub conf node = .ok (some m) ∧
        ∀ name, name ∈ m ↔
          ∃ l1 d l2, node.Inner = l1 ++ d :: l2 ∧ isPublicDecl conf.PublicFrom l1 d name) := by
  constructor
  · intro h
    unfold initPublicFrom
    simp [h]
  · intro h
    have hlen : ¬ conf.PublicFrom.length = 0 := fun e => h (List.length_eq_zero.mp e)
    obtain ⟨m, hm, hspec⟩ := publicFromLoop_spec conf.PublicFrom node.Inner [] false []
      hnames (by simp [lastOrigin]) (by simp)
    refine ⟨m, ?_, fun name => ?_⟩
    · unfold initPublicFrom
      rw [if_neg hlen, hm]
    · rw [hspec name]
      simp only [List.nil_append]

/-- C22, witness: the translation unit of the examples with the suffix `pub.h`. -/
theorem initPublicFrom_spec_witness :
    ∃ m, initPublicFrom none { PublicFrom := ["pub.h"] } pubDecls = .ok (some m) ∧
      ∀ name, name ∈ m ↔
        ∃ l1 d l2, pubDecls.Inner = l1 ++ d :: l2 ∧ isPublicDecl ["pub.h"] l1 d name :=
  (initPublicFrom_spec none { PublicFrom := ["pub.h"] } pubDecls (by decide)).2 (by decide)

/-- The filter of the example holds `foo` and `bar`: `Baz` starts with a capital letter and
`qux` comes from another header. -/
theorem initPublicFrom_example :
    initPublicFrom none { PublicFrom := ["pub.h"] } pubDecls = .ok (some ["bar", "foo"]) ∧
    initPublicFrom none { PublicFrom := [] } pubDecls = .ok none :=
  ⟨rfl, rfl⟩

/-- The scan of an untagged record as a child of a struct: the record is compiled under
the next generated name, its name and the names it deletes are recorded, no field is
added, and the inner loop is opened with its type and name. -/
theorem structChild_anonymous (E : Externals) (fuel : Nat)
    (recur : blockCtx → String → Node → SuResult) (st : FieldScan) (decl : Node)
    (typ : GoType) (del : List String) (ctx1 : blockCtx)
    (hk : decl.Kind = "RecordDecl") (hn : decl.Name = "")
    (hrec : recur { st.ctx with base := st.ctx.base + 1 }
      ("_cgoa_" ++ Itoa (st.ctx.base + 1)) decl = .ok ((typ, del), ctx1)) :
    structChild E fuel recur st decl =
      .ok (⟨ctx1, st.b, st.dels ++ ["_cgoa_" ++ Itoa (st.ctx.base + 1)] ++ del⟩,
        some (typ, "_cgoa_" ++ Itoa (st.ctx.base + 1))) := by
  have hsu : getSuName E.MangledName st.ctx decl decl.TagUsed =
      (("_cgoa_" ++ Itoa (st.ctx.base + 1), suAnonymous),
        { st.ctx with base := st.ctx.base + 1 }) := by
    unfold getSuName
    simp [hn]
  have hkf : decl.Kind ≠ "FieldDecl" := by rw [hk]; decide
  unfold structChild
  rw [if_neg hkf, if_pos hk, hsu]
  simp only [hrec]
  simp

/-- The scan of an untagged record as a child of a union. -/
theorem unionChild_anonymous (E : Externals) (fuel : Nat)
    (recur : blockCtx → String → Node → SuResult) (st : FieldScan) (decl : Node)
    (typ : GoType) (del : List String) (ctx1 : blockCtx)
    (hk : decl.Kind = "RecordDecl") (hn : decl.Name = "")
    (hrec : recur { st.ctx with base := st.ctx.base + 1 }
      ("_cgoa_" ++ Itoa (st.ctx.base + 1)) decl = .ok ((typ, del), ctx1)) :
    unionChild E fuel recur st decl =
      .ok (⟨ctx1, st.b, st.dels ++ ["_cgoa_" ++ Itoa (st.ctx.base + 1)] ++ del⟩,
        some (typ, "_cgoa_" ++ Itoa (st.ctx.base + 1))) := by
  have hsu : getSuName E.MangledName st.ctx decl decl.TagUsed =
      (("_cgoa_" ++ Itoa (st.ctx.base + 1), suAnonymous),
        { st.ctx with base := st.ctx.base + 1 }) := by
    unfold getSuName
    simp [hn]
  have hkf : decl.Kind ≠ "FieldDecl" := by rw [hk]; decide
  unfold unionChild
  rw [if_neg hkf, if_pos hk, hsu]
  simp only [hrec]
  simp

/-- C23: when the scan of a struct or union reaches an anonymous record that is
immediately followed by an implicit field node, the two children add exactly one field to
the fields built so far: an embedded field whose name is the generated anonymous name and
whose type is the aggregate just built. The implicit node is consumed without a type
resolution and adds nothing more, the inner loop ends, and the scan goes on with the
child after the implicit node. -/
theorem implicit_after_anonymous (E : Externals) (fuel : Nat)
    (recur : blockCtx → String → Node → SuResult) (st : FieldScan) (decl next : Node)
    (rest : List Node) (typ : GoType) (del : List String) (ctx1 : blockCtx)
    (hk : decl.Kind = "RecordDecl") (hn : decl.Name = "")
    (hnk : next.Kind = "FieldDecl") (hni : next.IsImplicit = true)
    (hrec : recur { st.ctx with base := st.ctx.base + 1 }
      ("_cgoa_" ++ Itoa (st.ctx.base + 1)) decl = .ok ((typ, del), ctx1)) :
    structFields E fuel recur st none (decl :: next :: rest) =
      (structFields E fuel recur
        ⟨ctx1, [], st.dels ++ ["_cgoa_" ++ Itoa (st.ctx.base + 1)] ++ del⟩ none rest).map
        (FieldScan.prepend (st.b ++ [⟨"_cgoa_" ++ Itoa (st.ctx.base + 1), typ, none, true⟩])) ∧
    unionFields E fuel recur st none (decl :: next :: rest) =
      (unionFields E fuel recur
        ⟨ctx1, [], st.dels ++ ["_cgoa_" ++ Itoa (st.ctx.base + 1)] ++ del⟩ none rest).map
        (FieldScan.prepend (st.b ++ [⟨"_cgoa_" ++ Itoa (st.ctx.base + 1), typ, none, true⟩])) := by
  have hst : (⟨ctx1, builderField st.b typ ("_cgoa_" ++ Itoa (st.ctx.base + 1)) true,
      st.dels ++ ["_cgoa_" ++ Itoa (st.ctx.base + 1)] ++ del⟩ : FieldScan) =
      FieldScan.prepend
        (st.b ++ [⟨"_cgoa_" ++ Itoa (st.ctx.base + 1), typ, none, true⟩])
        ⟨ctx1, [], st.dels ++ ["_cgoa_" ++ Itoa (st.ctx.base + 1)] ++ del⟩ := by
    simp [FieldScan.prepend, builderField]
  constructor
  · rw [← structFields_prepend, ← hst]
    simp only [structFields, structChild_anonymous E fuel recur st decl typ del ctx1 hk hn hrec,
      hnk, if_true, hni]
  · rw [← unionFields_prepend, ← hst]
    simp only [unionFields, unionChild_anonymous E fuel recur st decl typ del ctx1 hk hn hrec,
      hnk, if_true, hni]

/-- C23, witness: the anonymous record of the examples followed by an implicit field and
the field `b`, in a struct. -/
theorem implicit_after_anonymous_witness :
    (structFields anonExternals 5 (compileStructOrUnion anonExternals 5) ⟨{}, [], []⟩ none
      [anonRecord, implicitField, fieldB]).toOption.map (fun s => s.b) =
      some [⟨"_cgoa_1", .named 0, none, true⟩, ⟨"b", .basic "int32", none, false⟩] :=
  (congrArg (fun r => r.toOption.map (fun s => s.b))
    (implicit_after_anonymous anonExternals 5 (compileStructOrUnion anonExternals 5)
      ⟨{}, [], []⟩ anonRecord implicitField [fieldB] (.named 0) [] ctxAfterAnon
      rfl rfl rfl rfl rfl).1).trans rfl

/-- C24, counterexample: a struct and a union whose children are an anonymous record and
the field `int b`, and a struct whose only child is an anonymous record: the field list
holds `b` alone, respectively nothing; the anonymous aggregate is not in it. -/
theorem anonymous_adds_no_field :
    (compileStructOrUnion anonExternals 5 {} "struct_S"
        (aggregateWith "struct" [anonRecord, fieldB])).toOption.map
        (fun r => r.2.pkg.declsOf "") =
      some [.typeDecl "_cgoa_1" (.struct [("a", .basic "int32", false)]),
        .typeDecl "struct_S" (.struct [("b", .basic "int32", false)])] ∧
    (compileStructOrUnion anonExternals 5 {} "union_S"
        (aggregateWith "union" [anonRecord, fieldB])).toOption.map
        (fun r => r.2.pkg.declsOf "") =
      some [.typeDecl "_cgoa_1" (.struct [("a", .basic "int32", false)]),
        .typeDecl "union_S" (.union [("b", .basic "int32", false)])] ∧
    (compileStructOrUnion anonExternals 5 {} "struct_S"
        (aggregateWith "struct" [anonRecord])).toOption.map
        (fun r => r.2.pkg.declsOf "") =
      some [.typeDecl "_cgoa_1" (.struct [("a", .basic "int32", false)]),
        .typeDecl "struct_S" (.struct [])] :=
  ⟨rfl, rfl, rfl⟩

/-- C24, amended: when the scan of a struct or union reaches an anonymous record that is
the last child, or is followed by a child that is no field declaration, or by a field that
is not implicit and whose type does not resolve with the anonymous bit set, the anonymous
aggregate adds no field: its generated name and the names it deletes are recorded, the
fields built so far stay as they are, and the next sibling is then scanned as in any other
iteration, in the last case from the context the type resolution of the check left. -/
theorem anonymous_without_field (E : Externals) (fuel : Nat)
    (recur : blockCtx → String → Node → SuResult) (st : FieldScan) (decl : Node)
    (typ : GoType) (del : List String) (ctx1 : blockCtx)
    (hk : decl.Kind = "RecordDecl") (hn : decl.Name = "")
    (hrec : recur { st.ctx with base := st.ctx.base + 1 }
      ("_cgoa_" ++ Itoa (st.ctx.base + 1)) decl = .ok ((typ, del), ctx1)) :
    (structFields E fuel recur st none [decl] =
        .ok ⟨ctx1, st.b, st.dels ++ ["_cgoa_" ++ Itoa (st.ctx.base + 1)] ++ del⟩ ∧
      unionFields E fuel recur st none [decl] =
        .ok ⟨ctx1, st.b, st.dels ++ ["_cgoa_" ++ Itoa (st.ctx.base + 1)] ++ del⟩) ∧
    (∀ (next : Node) (rest : List Node), next.Kind ≠ "FieldDecl" →
      structFields E fuel recur st none (decl :: next :: rest) =
        structFields E fuel recur
          ⟨ctx1, st.b, st.dels ++ ["_cgoa_" ++ Itoa (st.ctx.base + 1)] ++ del⟩ none
          (next :: rest) ∧
      unionFields E fuel recur st none (decl :: next :: rest) =
        unionFields E fuel recur
          ⟨ctx1, st.b, st.dels ++ ["_cgoa_" ++ Itoa (st.ctx.base + 1)] ++ del⟩ none
          (next :: rest)) ∧
    (∀ (next : Node) (rest : List Node) (ret : GoType) (ctx2 : blockCtx),
      next.Kind = "FieldDecl" → next.IsImplicit = false →
      checkAnonymous E fuel ctx1 (.child 0) typ next = .ok ((ret, false), ctx2) →
      structFields E fuel recur st none (decl :: next :: rest) =
        structFields E fuel recur
          ⟨ctx2, st.b, st.dels ++ ["_cgoa_" ++ Itoa (st.ctx.base + 1)] ++ del⟩ none
          (next :: rest) ∧
      unionFields E fuel recur st none (decl :: next :: rest) =
        unionFields E fuel recur
          ⟨ctx2, st.b, st.dels ++ ["_cgoa_" ++ Itoa (st.ctx.base + 1)] ++ del⟩ none
          (next :: rest)) := by
  have hs := structChild_anonymous E fuel recur st decl typ del ctx1 hk hn hrec
  have hu := unionChild_anonymous E fuel recur st decl typ del ctx1 hk hn hrec
  refine ⟨⟨?_, ?_⟩, fun next rest hnk => ⟨?_, ?_⟩, fun next rest ret ctx2 hnk hni hc => ⟨?_, ?_⟩⟩
  · simp only [structFields, hs]
  · simp only [unionFields, hu]
  · simp only [structFields, hs, hnk, if_false]
  · simp only [unionFields, hu, hnk, if_false]
  · simp only [structFields, hs, hnk, if_true, hni, Bool.false_eq_true, if_false, hc]
  · simp only [unionFields, hu, hnk, if_true, hni, Bool.false_eq_true, if_false, hc]

/-- C24, witness: the anonymous record of the examples as the last child of a struct. -/
theorem anonymous_without_field_witness :
    (structFields anonExternals 5 (compileStructOrUnion anonExternals 5) ⟨{}, [], []⟩ none
      [anonRecord]).toOption.map (fun s => (s.b.length, s.dels)) = some (0, ["_cgoa_1"]) :=
  (congrArg (fun r => r.toOption.map (fun s => (s.b.length, s.dels)))
    (anonymous_without_field anonExternals 5 (compileStructOrUnion anonExternals 5)
      ⟨{}, [], []⟩ anonRecord (.named 0) [] ctxAfterAnon rfl rfl rfl).1.1).trans rfl

/-- C25, counterexample: the type table maps the tag `struct_N` to the handle 0, but no
open scope holds the tag; the parser reports it as not found, `toTypeEx` declares a new
opaque type and the table maps the tag to the new handle 1 after the call. -/
theorem toTypeEx_replaces_entry :
    mapGet ctxHiddenTag.typdecls "struct_N" = some 0 ∧
    exampleExternals.ParseType "struct N *"
        { Scope := (ScopeRef.scope 0).chain ctxHiddenTag.pkg, Flags := 0, TyAnonym := none } =
      .error (.TypeNotFound "struct_N" true) ∧
    ∃ r ctx1, toTypeEx exampleExternals 2 ctxHiddenTag (.scope 0) none "struct N *" 0 =
        .ok (r, ctx1) ∧
      mapGet ctx1.typdecls "struct_N" = some 1 ∧
      ctx1.pkg.State 0 = some .TyStateUninited ∧ ctx1.pkg.State 1 = some .TyStateUninited :=
  ⟨rfl, rfl, _, _, rfl, rfl, rfl, rfl⟩

/-- C25, amended: when `toTypeEx` meets an undeclared struct or union tag (the parser
reports the tag as not found) whose name is already present in the type table, it does not
reuse the entry: it declares a new opaque type for the tag in `cb.Scope()`, stores the new
handle in the table under the name in place of the old one, and parses again, so that the
table maps the name to the new handle, not to the handle it held, when the call ends well;
when `cb.Scope()` already holds the name the call aborts instead. -/
theorem toTypeEx_overwrites (E : Externals) (fuel : Nat) (ctx : blockCtx) (scope : ScopeRef)
    (ty : Option GoType) (qt : String) (fl : Nat) (lit : String) (t : Nat)
    (hnf : E.ParseType qt { Scope := scope.chain ctx.pkg, Flags := fl, TyAnonym := ty } =
      .error (.TypeNotFound lit true))
    (hpresent : mapGet ctx.typdecls lit = some t) (hvalid : t < ctx.pkg.tdecls.length)
    (hsc : ctx.pkg.scopes ≠ []) :
    (∀ msg, ctx.pkg.NewType lit = .error msg →
      toTypeEx E (fuel + 1) ctx scope ty qt fl = .error msg) ∧
    (((ctx.pkg.scopeAt 0).Lookup lit).isSome → ∃ msg, ctx.pkg.NewType lit = .error msg) ∧
    (∀ tdecl pkg1, ctx.pkg.NewType lit = .ok (tdecl, pkg1) →
      tdecl = ctx.pkg.tdecls.length ∧ tdecl ≠ t ∧
      toTypeEx E (fuel + 1) ctx scope ty qt fl =
        toTypeEx E fuel { ctx with pkg := pkg1, typdecls := mapSet ctx.typdecls lit tdecl }
          scope ty qt fl ∧
      (∀ r, E.ParseType qt { Scope := scope.chain pkg1, Flags := fl, TyAnonym := ty } = .ok r →
        toTypeEx E (fuel + 2) ctx scope ty qt fl =
          .ok (r, { ctx with pkg := pkg1, typdecls := mapSet ctx.typdecls lit tdecl })) ∧
      (∀ r ctx1, toTypeEx E (fuel + 1) ctx scope ty qt fl = .ok (r, ctx1) →
        mapGet ctx1.typdecls lit = some tdecl ∧
        mapGet ctx1.typdecls lit ≠ mapGet ctx.typdecls lit)) := by
  refine ⟨fun msg hm => ?_, fun hheld => ?_, fun tdecl pkg1 hnew => ?_⟩
  · simp only [toTypeEx, hnf, hm]
  · unfold gox.Package.NewType Scope.Insert
    simp only [Object.Name]
    cases hl : (ctx.pkg.scopeAt 0).Lookup lit with
    | none => rw [hl] at hheld; exact absurd hheld (by simp)
    | some o => exact ⟨_, rfl⟩
  · obtain ⟨_, ht, _⟩ := NewType_ok _ _ _ _ hnew
    have hs1 : toTypeEx E (fuel + 1) ctx scope ty qt fl =
        toTypeEx E fuel { ctx with pkg := pkg1, typdecls := mapSet ctx.typdecls lit tdecl }
          scope ty qt fl := by
      simp only [toTypeEx, hnf, hnew]
    refine ⟨ht, by omega, hs1, fun r hr => ?_, fun r ctx1 hrun => ?_⟩
    · simp only [toTypeEx, hnf, hnew, hr]
    · rw [hs1] at hrun
      have hk : keepsTag E lit tdecl
          { ctx with pkg := pkg1, typdecls := mapSet ctx.typdecls lit tdecl } :=
        ⟨mapGet_mapSet_self _ _ _, Or.inl (NewType_holds _ _ _ _ hsc hnew)⟩
      have hfin := (toTypeEx_keepsTag E lit tdecl fuel _ scope ty qt fl r ctx1 hk hrun).1
      refine ⟨hfin, ?_⟩
      rw [hfin, hpresent]
      intro e
      simp only [Option.some.injEq] at e
      omega

/-- C25, witness: the context of the counterexample. -/
theorem toTypeEx_overwrites_witness :
    ∃ r ctx1, toTypeEx exampleExternals 2 ctxHiddenTag (.scope 0) none "struct N *" 0 =
        .ok (r, ctx1) ∧
      mapGet ctx1.typdecls "struct_N" = some 1 :=
  ⟨_, _, rfl,
    (((toTypeEx_overwrites exampleExternals 1 ctxHiddenTag (.scope 0) none "struct N *" 0
      "struct_N" 0 rfl rfl (by decide) (List.cons_ne_nil _ _)).2.2 1 _ rfl).2.2.2.2 _ _ rfl).1⟩

/-- One round of `hasFnPtrMember`: an array is replaced by its element type, any other
type is answered by its direct fields. -/
theorem hasFnPtrMember_round (pkg : gox.Package) (fuel : Nat) (typ : GoType) :
    (∀ elem len, pkg.Underlying typ = some (.array elem len) →
      hasFnPtrMember pkg (fuel + 1) typ = hasFnPtrMember pkg fuel elem) ∧
    (isArrayType pkg typ = false →
      hasFnPtrMember pkg (fuel + 1) typ = .ok (hasFuncField pkg typ)) := by
  constructor
  · intro elem len h
    simp only [hasFnPtrMember, h]
  · intro h
    unfold isArrayType at h
    unfold hasFuncField
    cases hu : pkg.Underlying typ with
    | none => simp only [hasFnPtrMember, hu]
    | some u =>
      rw [hu] at h
      cases u with
      | array elem len => simp at h
      | struct fields => simp only [hasFnPtrMember, hu]
      | basic name => simp only [hasFnPtrMember, hu]
      | pointer elem => simp only [hasFnPtrMember, hu]
      | signature descr => simp only [hasFnPtrMember, hu]
      | union fields => simp only [hasFnPtrMember, hu]
      | bitfield elem bits => simp only [hasFnPtrMember, hu]
      | named d => simp only [hasFnPtrMember, hu]

/-- `hasFnPtrMember` ends when the fuel exceeds the number of array layers, with the answer
for the type under the layers. -/
theorem hasFnPtrMember_strip (pkg : gox.Package) :
    ∀ (n : Nat) (typ t : GoType) (fuel : Nat), stripArrays pkg n typ = some t →
      isArrayType pkg t = false → n < fuel →
      hasFnPtrMember pkg fuel typ = .ok (hasFuncField pkg t) := by
  intro n
  induction n with
  | zero =>
    intro typ t fuel hs ha hf
    simp only [stripArrays, Option.some.injEq] at hs
    subst hs
    obtain ⟨f, rfl⟩ : ∃ f, fuel = f + 1 := ⟨fuel - 1, by omega⟩
    exact (hasFnPtrMember_round pkg f typ).2 ha
  | succ n ih =>
    intro typ t fuel hs ha hf
    obtain ⟨f, rfl⟩ : ∃ f, fuel = f + 1 := ⟨fuel - 1, by omega⟩
    simp only [stripArrays] at hs
    cases hu : pkg.Underlying typ with
    | none => rw [hu] at hs; exact absurd hs (by simp)
    | some u =>
      rw [hu] at hs
      cases u with
      | array elem len =>
        simp only at hs
        rw [(hasFnPtrMember_round pkg f typ).1 elem len hu]
        exact ih elem t f hs ha (by omega)
      | struct fields => exact absurd hs (by simp)
      | basic name => exact absurd hs (by simp)
      | pointer elem => exact absurd hs (by simp)
      | signature descr => exact absurd hs (by simp)
      | union fields => exact absurd hs (by simp)
      | bitfield elem bits => exact absurd hs (by simp)
      | named d => exact absurd hs (by simp)

/-- An answer of `hasFnPtrMember` is the answer for the type under the array layers. -/
theorem hasFnPtrMember_answer (pkg : gox.Package) :
    ∀ (fuel : Nat) (typ : GoType) (b : Bool), hasFnPtrMember pkg fuel typ = .ok b →
      ∃ n t, n < fuel ∧ stripArrays pkg n typ = some t ∧ isArrayType pkg t = false ∧
        b = hasFuncField pkg t := by
  intro fuel
  induction fuel with
  | zero => intro typ b h; exact absurd h (by simp [hasFnPtrMember])
  | succ fuel ih =>
    intro typ b h
    by_cases ha : isArrayType pkg typ = true
    · unfold isArrayType at ha
      cases hu : pkg.Underlying typ with
      | none => rw [hu] at ha; exact absurd ha (by simp)
      | some u =>
        rw [hu] at ha
        cases u with
        | array elem len =>
          rw [(hasFnPtrMember_round pkg fuel typ).1 elem len hu] at h
          obtain ⟨n, t, hn, hs, hna, hb⟩ := ih elem b h
          exact ⟨n + 1, t, by omega, by simp only [stripArrays, hu, hs], hna, hb⟩
        | struct fields => exact absurd ha (by simp)
        | basic name => exact absurd ha (by simp)
        | pointer elem => exact absurd ha (by simp)
        | signature descr => exact absurd ha (by simp)
        | union fields => exact absurd ha (by simp)
        | bitfield elem bits => exact absurd ha (by simp)
        | named d => exact absurd ha (by simp)
    · have ha2 : isArrayType pkg typ = false := Bool.eq_false_iff.mpr ha
      rw [(hasFnPtrMember_round pkg fuel typ).2 ha2] at h
      simp only [Except.ok.injEq] at h
      exact ⟨0, typ, by omega, rfl, ha2, h.symm⟩

/-- When no declared type is an array, the array layers of a type are those it is written
with: they end. -/
theorem stripArrays_ends (pkg : gox.Package)
    (hdecl : ∀ h, isArrayType pkg (.named h) = false) :
    ∀ (k : Nat) (typ : GoType), sizeOf typ ≤ k →
      ∃ n t, n < k ∧ stripArrays pkg n typ = some t ∧ isArrayType pkg t = false := by
  intro k
  induction k with
  | zero =>
    intro typ h
    cases typ <;> simp at h
  | succ k ih =>
    intro typ h
    cases typ with
    | array elem len =>
      have hu : pkg.Underlying (.array elem len) = some (.array elem len) := rfl
      have hsz : sizeOf elem ≤ k := by
        simp only [GoType.array.sizeOf_spec] at h
        omega
      obtain ⟨n, t, hn, hs, ha⟩ := ih elem hsz
      exact ⟨n + 1, t, by omega, by simp only [stripArrays, hu, hs], ha⟩
    | named d => exact ⟨0, _, by omega, rfl, hdecl d⟩
    | struct fields => exact ⟨0, _, by omega, rfl, rfl⟩
    | basic name => exact ⟨0, _, by omega, rfl, rfl⟩
    | pointer elem => exact ⟨0, _, by omega, rfl, rfl⟩
    | signature descr => exact ⟨0, _, by omega, rfl, rfl⟩
    | union fields => exact ⟨0, _, by omega, rfl, rfl⟩
    | bitfield elem bits => exact ⟨0, _, by omega, rfl, rfl⟩

/-- What `newVarAndInit` does for a variable with an initializer that is no union and is
not placed in a variable block. -/
theorem newVarAndInit_plain (E : Externals) (I : InitExternals) (V : VarExternals)
    (fuel : Nat) (ctx ctx1 : blockCtx) (cb : List CbCall) (scope : ScopeRef) (typ : GoType)
    (decl initExpr : Node) (rest : List Node)
    (hvar : V.newVar ctx scope typ decl.Name = .ok (ctx1, false))
    (hinit : dropVisibilityAttr decl.Inner = initExpr :: rest)
    (hunion : checkUnion V ctx1 typ = none) :
    (∀ b, hasFnPtrMember ctx1.pkg fuel typ = .ok b →
      newVarAndInit E I V fuel ctx cb scope typ decl true =
        if b then (varInInit I fuel ctx1 cb typ decl.Name initExpr).map (fun cb1 => (ctx1, cb1))
        else (varInline I fuel ctx1 cb typ decl.Name initExpr).map (fun cb1 => (ctx1, cb1))) ∧
    newVarAndInit E I V fuel ctx cb scope typ decl false =
      (varInline I fuel ctx1 cb typ decl.Name initExpr).map (fun cb1 => (ctx1, cb1)) := by
  constructor
  · intro b hb
    unfold newVarAndInit
    simp only [hvar, hinit, hunion, Bool.false_eq_true, if_false, if_true, hb]
    cases b with
    | true =>
      simp only [if_true]
      cases varInInit I fuel ctx1 cb typ decl.Name initExpr <;> rfl
    | false =>
      simp only [Bool.false_eq_true, if_false]
      cases varInline I fuel ctx1 cb typ decl.Name initExpr <;> rfl
  · unfold newVarAndInit
    simp only [hvar, hinit, hunion, Bool.false_eq_true, if_false]
    cases varInline I fuel ctx1 cb typ decl.Name initExpr <;> rfl

/-- C26, counterexample: the struct `dev` has the member `ops`, a struct with a member of
function type; `hasFnPtrMember` answers false for `dev` (and true for `ops`), and a global
variable of type `dev` with an initializer is initialized in place, not in a function
`init`. -/
theorem hasFnPtrMember_misses_nested :
    hasFuncMember pkgNested 2 (.named 1) = true ∧
    hasFnPtrMember pkgNested 2 (.named 1) = .ok false ∧
    hasFnPtrMember pkgNested 2 (.named 0) = .ok true ∧
    newVarAndInit anonExternals exampleInit exampleVar 2 { pkg := pkgNested } [] (.scope 0)
        (.named 1) varV true =
      .ok ({ pkg := pkgNested }, [.InitStart "v", .Expr ⟨some (.int64Val 5)⟩, .EndInit 1]) ∧
    newVarAndInit anonExternals exampleInit exampleVar 2 { pkg := pkgNested } [] (.scope 0)
        (.named 0) varV true =
      .ok ({ pkg := pkgNested },
        [.NewFunc "init", .VarRef "v", .Expr ⟨some (.int64Val 5)⟩, .Assign 1, .End]) :=
  ⟨rfl, rfl, rfl, rfl, rfl⟩

/-- C26, amended: `hasFnPtrMember` ends for every type whose array layers end, with more
rounds than layers, and they end for every type when no declared type is an array; it
returns true if and only if, after the array layers are stripped, the underlying type is a
struct with a direct field of function type (a member of function type inside a nested
struct member does not count). A variable with an initializer that is no union and is not
placed in a variable block is assigned inside a function `init` when it is global and
`hasFnPtrMember` returns true, and is initialized in place otherwise. -/
theorem hasFnPtrMember_direct (pkg : gox.Package) :
    (∀ (n : Nat) (typ t : GoType) (fuel : Nat), stripArrays pkg n typ = some t →
      isArrayType pkg t = false → n < fuel →
      hasFnPtrMember pkg fuel typ = .ok (hasFuncField pkg t)) ∧
    ((∀ h, isArrayType pkg (.named h) = false) →
      ∀ typ : GoType, ∃ b, hasFnPtrMember pkg (sizeOf typ) typ = .ok b) ∧
    (∀ (fuel : Nat) (typ : GoType) (b : Bool), hasFnPtrMember pkg fuel typ = .ok b →
      ∃ n t, n < fuel ∧ stripArrays pkg n typ = some t ∧ isArrayType pkg t = false ∧
        (b = true ↔ hasFuncField pkg t = true)) ∧
    (∀ (E : Externals) (I : InitExternals) (V : VarExternals) (fuel : Nat)
      (ctx ctx1 : blockCtx) (cb : List CbCall) (scope : ScopeRef) (typ : GoType)
      (decl initExpr : Node) (rest : List Node),
      ctx1.pkg = pkg → V.newVar ctx scope typ decl.Name = .ok (ctx1, false) →
      dropVisibilityAttr decl.Inner = initExpr :: rest → checkUnion V ctx1 typ = none →
      (∀ b, hasFnPtrMember pkg fuel typ = .ok b →
        newVarAndInit E I V fuel ctx cb scope typ decl true =
          if b then
            (varInInit I fuel ctx1 cb typ decl.Name initExpr).map (fun cb1 => (ctx1, cb1))
          else
            (varInline I fuel ctx1 cb typ decl.Name initExpr).map (fun cb1 => (ctx1, cb1))) ∧
      newVarAndInit E I V fuel ctx cb scope typ decl false =
        (varInline I fuel ctx1 cb typ decl.Name initExpr).map (fun cb1 => (ctx1, cb1))) := by
  refine ⟨hasFnPtrMember_strip pkg, fun hdecl typ => ?_, fun fuel typ b h => ?_, ?_⟩
  · obtain ⟨n, t, hn, hs, ha⟩ := stripArrays_ends pkg hdecl (sizeOf typ) typ (le_refl _)
    exact ⟨_, hasFnPtrMember_strip pkg n typ t _ hs ha hn⟩
  · obtain ⟨n, t, hn, hs, ha, hb⟩ := hasFnPtrMember_answer pkg fuel typ b h
    exact ⟨n, t, hn, hs, ha, by rw [hb]⟩
  · intro E I V fuel ctx ctx1 cb scope typ decl initExpr rest hpkg hvar hinit hunion
    subst hpkg
    exact newVarAndInit_plain E I V fuel ctx ctx1 cb scope typ decl initExpr rest hvar hinit
      hunion

/-- An array of arrays of the struct `ops`: two layers are stripped, then the member of
function type is found; one round for each layer and one more are needed. -/
theorem hasFnPtrMember_example :
    hasFnPtrMember pkgNested 3 (.array (.array (.named 0) 2) 3) = .ok true ∧
    hasFnPtrMember pkgNested 2 (.array (.array (.named 0) 2) 3) = .error outOfFuel ∧
    stripArrays pkgNested 2 (.array (.array (.named 0) 2) 3) = some (.named 0) :=
  ⟨rfl, rfl, rfl⟩

/-- The names a sequence of calls generates and the value it leaves in the counter depend
on the value of the counter alone, not on the contexts that make the calls. -/
theorem nameCalls_ctx (MangledName : String → String → String) (p q : blockCtx) :
    ∀ (calls : List NameCall) (base : Nat),
      nameCalls MangledName base (calls.map (fun c => (q, c))) =
        nameCalls MangledName base (calls.map (fun c => (p, c))) := by
  intro calls
  induction calls with
  | nil => intro base; rfl
  | cons c calls ih =>
    intro base
    cases c with
    | getSuName v tag =>
      simp only [List.map_cons, nameCalls, getSuName]
      by_cases hv : v.Name = ""
      · simp only [hv, ne_eq, not_true_eq_false, if_false, ih]
      · simp only [hv, ne_eq, not_false_eq_true, if_true, ih]
    | autoStaticName name =>
      simp only [List.map_cons, nameCalls, autoStaticName, ih]

/-- Calls made in turn on one context generate the names of the calls on the cell of its
counter, and change nothing in the context but the counter. -/
theorem ctxNameCalls_eq (MangledName : String → String → String) :
    ∀ (calls : List NameCall) (p : blockCtx),
      ctxNameCalls MangledName p calls =
        ((nameCalls MangledName p.base (calls.map (fun c => (p, c)))).1,
          { p with base := (nameCalls MangledName p.base (calls.map (fun c => (p, c)))).2 }) := by
  intro calls
  induction calls with
  | nil => intro p; rfl
  | cons c calls ih =>
    intro p
    cases c with
    | getSuName v tag =>
      simp only [ctxNameCalls, List.map_cons, nameCalls]
      rw [ih]
      by_cases hv : v.Name = ""
      · simp only [getSuName, hv, ne_eq, not_true_eq_false, if_false]
        rw [nameCalls_ctx MangledName p { p with base := p.base + 1 }]
      · simp only [getSuName, hv, ne_eq, not_false_eq_true, if_true]
    | autoStaticName name =>
      simp only [ctxNameCalls, List.map_cons, nameCalls]
      rw [ih]
      simp only [autoStaticName]
      rw [nameCalls_ctx MangledName p { p with base := p.base + 1 }]

/-- The context `initMultiFileCtl` makes from a session takes the counter of the session as
it stands, and the session it returns holds the same value: the counter is not reset. The
session has its package info afterwards. -/
theorem initMultiFileCtl_base (h : Host) (Ref : String → String → Option Object)
    (fmt : Object → String) (p : multiFileCtl) (pkg : gox.Package) (conf : Config) (fs : FS)
    (reused : Reused) (m : multiFileCtl) (pkg1 : gox.Package) (r : Option Reused) (fs1 : FS)
    (hre : conf.Reused = some reused)
    (hrun : initMultiFileCtl h Ref fmt p pkg conf fs = .ok (m, pkg1, r, fs1)) :
    m.base = reused.base ∧ m.hasMulti = true ∧
    ∃ reused1, r = some reused1 ∧ reused1.base = reused.base ∧
      reused1.pkg.pi.isSome = true := by
  unfold initMultiFileCtl at hrun
  rw [hre] at hrun
  simp only at hrun
  unfold sessionPkgInfo at hrun
  cases hpi : reused.pkg.pi with
  | some pi =>
    rw [hpi] at hrun
    simp only [Except.ok.injEq, Prod.mk.injEq] at hrun
    obtain ⟨h1, _, h3, _⟩ := hrun
    rw [← h1, ← h3]
    exact ⟨rfl, rfl, _, rfl, rfl, by simp [hpi]⟩
  | none =>
    rw [hpi] at hrun
    simp only at hrun
    cases hd : reused.deps.init h conf fs with
    | error msg => rw [hd] at hrun; exact absurd hrun (by simp)
    | ok res =>
      obtain ⟨d, fs2⟩ := res
      rw [hd] at hrun
      simp only at hrun
      cases hi : initDepPkgs Ref fmt pkg d with
      | error msg => rw [hi] at hrun; exact absurd hrun (by simp)
      | ok pkg2 =>
        rw [hi] at hrun
        simp only [Except.ok.injEq, Prod.mk.injEq] at hrun
        obtain ⟨h1, _, h3, _⟩ := hrun
        rw [← h1, ← h3]
        exact ⟨rfl, rfl, _, rfl, rfl, rfl⟩

/-- For a session that has its package info, `initMultiFileCtl` ends well. -/
theorem initMultiFileCtl_session (h : Host) (Ref : String → String → Option Object)
    (fmt : Object → String) (p : multiFileCtl) (pkg : gox.Package) (conf : Config) (fs : FS)
    (reused : Reused) (hre : conf.Reused = some reused)
    (hpi : reused.pkg.pi.isSome = true) :
    ∃ m pkg1 r fs1, initMultiFileCtl h Ref fmt p pkg conf fs = .ok (m, pkg1, r, fs1) := by
  unfold initMultiFileCtl
  rw [hre]
  simp only
  unfold sessionPkgInfo
  cases hp : reused.pkg.pi with
  | none => rw [hp] at hpi; exact absurd hpi (by simp)
  | some pi => exact ⟨_, _, _, _, rfl⟩

/-- The names generated by calls made in turn on one context end in the successive values
of its counter. -/
theorem ctxNameCalls_counters (MangledName : String → String → String)
    (calls : List NameCall) (p : blockCtx) :
    (ctxNameCalls MangledName p calls).2.base =
      p.base + (ctxNameCalls MangledName p calls).1.length ∧
    (ctxNameCalls MangledName p calls).1.map (fun s => trailingDigits s.data) =
      (List.range' (p.base + 1) (ctxNameCalls MangledName p calls).1.length).map
        (fun k => (Itoa k).data) := by
  rw [ctxNameCalls_eq]
  exact nameCalls_counters MangledName (calls.map (fun c => (p, c))) p.base

/-- The names generated in the files of a session end in the successive values of the
counter of the session, across the files. -/
theorem sessionFiles_counters (h : Host) (Ref : String → String → Option Object)
    (fmt : Object → String) (MangledName : String → String → String) (conf : Config) :
    ∀ (files : List (List NameCall)) (reused : Reused) (pkg : gox.Package) (fs : FS)
      (names : List (List String)) (reused2 : Reused),
      sessionFiles h Ref fmt MangledName conf reused pkg fs files = .ok (names, reused2) →
        names.length = files.length ∧
        reused2.base = reused.base + names.flatten.length ∧
        names.flatten.map (fun s => trailingDigits s.data) =
          (List.range' (reused.base + 1) names.flatten.length).map
            (fun k => (Itoa k).data) := by
  intro files
  induction files with
  | nil =>
    intro reused pkg fs names reused2 hrun
    simp only [sessionFiles, Except.ok.injEq, Prod.mk.injEq] at hrun
    rw [← hrun.1, ← hrun.2]
    simp
  | cons calls files ih =>
    intro reused pkg fs names reused2 hrun
    simp only [sessionFiles] at hrun
    cases hinit : initMultiFileCtl h Ref fmt {} pkg { conf with Reused := some reused } fs with
    | error msg => rw [hinit] at hrun; exact absurd hrun (by simp)
    | ok res =>
      obtain ⟨m, pkg1, session, fs1⟩ := res
      rw [hinit] at hrun
      simp only at hrun
      obtain ⟨hm, _, reused1, hs, hb, _⟩ :=
        initMultiFileCtl_base h Ref fmt {} pkg _ fs reused m pkg1 session fs1 rfl hinit
      obtain ⟨hc1, hc2⟩ := ctxNameCalls_counters MangledName calls
        { tomultiFileCtl := m, pkg := pkg1 }
      generalize ctxNameCalls MangledName { tomultiFileCtl := m, pkg := pkg1 } calls = r
        at hrun hc1 hc2
      have hm2 : ({ tomultiFileCtl := m, pkg := pkg1 } : blockCtx).base = reused.base := hm
      rw [hm2] at hc1 hc2
      cases hrest : sessionFiles h Ref fmt MangledName conf ((session.getD reused).after r.2)
          r.2.pkg fs1 files with
      | error msg => rw [hrest] at hrun; exact absurd hrun (by simp)
      | ok res2 =>
        obtain ⟨names2, reused3⟩ := res2
        rw [hrest] at hrun
        simp only [Except.ok.injEq, Prod.mk.injEq] at hrun
        obtain ⟨hn, hr⟩ := hrun
        obtain ⟨hlen, hbase, hdig⟩ := ih _ _ _ _ _ hrest
        have hafter : ((session.getD reused).after r.2).base = r.2.base := rfl
        rw [hafter, hc1] at hbase hdig
        rw [← hn, ← hr]
        refine ⟨by simp [hlen], ?_, ?_⟩
        · rw [hbase, List.flatten_cons, List.length_append]
          omega
        · rw [List.flatten_cons, List.map_append, hc2, hdig, List.length_append,
            ← List.map_append]
          congr 1
          have e1 : reused.base + r.1.length + 1 = reused.base + 1 + r.1.length := by omega
          rw [e1, List.range'_append_1, Nat.add_comm names2.flatten.length]

/-- The names generated in the files of a session are pairwise different. -/
theorem sessionFiles_nodup (h : Host) (Ref : String → String → Option Object)
    (fmt : Object → String) (MangledName : String → String → String) (conf : Config)
    (files : List (List NameCall)) (reused : Reused) (pkg : gox.Package) (fs : FS)
    (names : List (List String)) (reused2 : Reused)
    (hrun : sessionFiles h Ref fmt MangledName conf reused pkg fs files =
      .ok (names, reused2)) : names.flatten.Nodup := by
  have hd := (sessionFiles_counters h Ref fmt MangledName conf files reused pkg fs names
    reused2 hrun).2.2
  have hnd : (names.flatten.map (fun s => trailingDigits s.data)).Nodup := by
    rw [hd]
    refine List.Nodup.map_on ?_ (List.nodup_range' _ _)
    intro x _ y _ hxy
    exact Itoa_injective x y hxy
  exact List.Nodup.of_map _ hnd

/-- The names of each file of a session are those of the calls of the file on a
context. -/
theorem sessionFiles_names (h : Host) (Ref : String → String → Option Object)
    (fmt : Object → String) (MangledName : String → String → String) (conf : Config) :
    ∀ (files : List (List NameCall)) (reused : Reused) (pkg : gox.Package) (fs : FS)
      (names : List (List String)) (reused2 : Reused),
      sessionFiles h Ref fmt MangledName conf reused pkg fs files = .ok (names, reused2) →
        List.Forall₂ (fun calls ns => ∃ p, ns = (ctxNameCalls MangledName p calls).1)
          files names := by
  intro files
  induction files with
  | nil =>
    intro reused pkg fs names reused2 hrun
    simp only [sessionFiles, Except.ok.injEq, Prod.mk.injEq] at hrun
    rw [← hrun.1]
    exact List.Forall₂.nil
  | cons calls files ih =>
    intro reused pkg fs names reused2 hrun
    simp only [sessionFiles] at hrun
    cases hinit : initMultiFileCtl h Ref fmt {} pkg { conf with Reused := some reused } fs with
    | error msg => rw [hinit] at hrun; exact absurd hrun (by simp)
    | ok res =>
      obtain ⟨m, pkg1, session, fs1⟩ := res
      rw [hinit] at hrun
      simp only at hrun
      cases hrest : sessionFiles h Ref fmt MangledName conf
          ((session.getD reused).after
            (ctxNameCalls MangledName { tomultiFileCtl := m, pkg := pkg1 } calls).2)
          (ctxNameCalls MangledName { tomultiFileCtl := m, pkg := pkg1 } calls).2.pkg
          fs1 files with
      | error msg => rw [hrest] at hrun; exact absurd hrun (by simp)
      | ok res2 =>
        obtain ⟨names2, reused3⟩ := res2
        rw [hrest] at hrun
        simp only [Except.ok.injEq, Prod.mk.injEq] at hrun
        rw [← hrun.1]
        exact List.Forall₂.cons ⟨_, rfl⟩ (ih _ _ _ _ _ hrest)

/-- A static variable among the calls has its mangled name among the names generated. -/
theorem ctxNameCalls_static (MangledName : String → String → String) (name : String) :
    ∀ (calls : List NameCall) (p : blockCtx), NameCall.autoStaticName name ∈ calls →
      ∃ k, name ++ "_cgo" ++ Itoa k ∈ (ctxNameCalls MangledName p calls).1 := by
  intro calls
  induction calls with
  | nil => intro p hmem; exact absurd hmem (List.not_mem_nil _)
  | cons c calls ih =>
    intro p hmem
    rcases List.mem_cons.mp hmem with e | e
    · subst e
      exact ⟨p.base + 1, by simp [ctxNameCalls, autoStaticName]⟩
    · cases c with
      | getSuName v tag =>
        obtain ⟨k, hk⟩ := ih (getSuName MangledName p v tag).2 e
        refine ⟨k, ?_⟩
        simp only [ctxNameCalls]
        split
        · exact List.mem_cons_of_mem _ hk
        · exact hk
      | autoStaticName other =>
        obtain ⟨k, hk⟩ := ih (autoStaticName p other).2 e
        exact ⟨k, by simp only [ctxNameCalls]; exact List.mem_cons_of_mem _ hk⟩

/-- A session that has its package info compiles every list of files. -/
theorem sessionFiles_total (h : Host) (Ref : String → String → Option Object)
    (fmt : Object → String) (MangledName : String → String → String) (conf : Config) :
    ∀ (files : List (List NameCall)) (reused : Reused) (pkg : gox.Package) (fs : FS),
      reused.pkg.pi.isSome = true →
      ∃ res, sessionFiles h Ref fmt MangledName conf reused pkg fs files = .ok res := by
  intro files
  induction files with
  | nil => intro reused pkg fs _; exact ⟨_, rfl⟩
  | cons calls files ih =>
    intro reused pkg fs hpi
    obtain ⟨m, pkg1, session, fs1, hinit⟩ := initMultiFileCtl_session h Ref fmt {} pkg
      { conf with Reused := some reused } fs reused rfl hpi
    obtain ⟨_, _, reused1, hs, _, hpi1⟩ :=
      initMultiFileCtl_base h Ref fmt {} pkg _ fs reused m pkg1 session fs1 rfl hinit
    have hpi2 : (((session.getD reused).after
        (ctxNameCalls MangledName { tomultiFileCtl := m, pkg := pkg1 } calls).2).pkg.pi).isSome =
        true := by
      rw [hs]
      simp only [Option.getD_some, Reused.after, Option.isSome_map']
      exact hpi1
    obtain ⟨res, hres⟩ := ih _ (ctxNameCalls MangledName
      { tomultiFileCtl := m, pkg := pkg1 } calls).2.pkg fs1 hpi2
    exact ⟨((ctxNameCalls MangledName { tomultiFileCtl := m, pkg := pkg1 } calls).1 :: res.1,
      res.2), by simp only [sessionFiles, hinit, hres]⟩

/-- A new session with two files, each with a static variable `counter`, the second also
with an untagged record: the counter goes on from file to file. -/
theorem session_two_statics :
    (sessionFiles exampleHost libcRef showObject exampleExternals.MangledName {} {} {} noCfgFS
      [[.autoStaticName "counter"],
        [.getSuName untagged "struct", .autoStaticName "counter"]]).toOption.map
        (fun r => (r.1, r.2.base)) =
      some ([["counter_cgo1"], ["_cgoa_2", "counter_cgo3"]], 3) := by
  rfl

/-- C7. `getSuName` on a tagged aggregate returns the mangled tag and leaves the context
alone; on an untagged one, and `autoStaticName` always, the counter grows by exactly one and
the name is built from its new value. A context that `initMultiFileCtl` makes from a
session starts from the counter of the session as it stands and the session keeps its value
(it is not reset). When the files of a session are compiled in turn, each by a context
made by `initMultiFileCtl` that shares the counter of the session, the counter ends at its
start plus the number of names generated in all files and the names generated in all files
are pairwise different; so two static variables of the same C name in two files of one
session get two different mangled names. A session that has its package info compiles
every list of files. The same holds of calls made in any order by contexts that read and
write the one cell of the counter. -/
theorem generated_names_distinct (MangledName : String → String → String) :
    (∀ (p : blockCtx) (v : Node) (tag : String), v.Name ≠ "" →
      getSuName MangledName p v tag = ((MangledName tag v.Name, suNormal), p)) ∧
    (∀ (p : blockCtx) (v : Node) (tag : String), v.Name = "" →
      getSuName MangledName p v tag =
        (("_cgoa_" ++ Itoa (p.base + 1), suAnonymous), { p with base := p.base + 1 })) ∧
    (∀ (p : blockCtx) (name : String),
      autoStaticName p name =
        (name ++ "_cgo" ++ Itoa (p.base + 1), { p with base := p.base + 1 })) ∧
    (∀ (h : Host) (Ref : String → String → Option Object) (fmt : Object → String)
      (p : multiFileCtl) (pkg : gox.Package) (conf : Config) (fs : FS) (reused : Reused)
      (m : multiFileCtl) (pkg1 : gox.Package) (r : Option Reused) (fs1 : FS),
      conf.Reused = some reused →
      initMultiFileCtl h Ref fmt p pkg conf fs = .ok (m, pkg1, r, fs1) →
        m.base = reused.base ∧ ∃ reused1, r = some reused1 ∧ reused1.base = reused.base) ∧
    (∀ (h : Host) (Ref : String → String → Option Object) (fmt : Object → String)
      (conf : Config) (files : List (List NameCall)) (reused : Reused) (pkg : gox.Package)
      (fs : FS) (names : List (List String)) (reused2 : Reused),
      sessionFiles h Ref fmt MangledName conf reused pkg fs files = .ok (names, reused2) →
        names.length = files.length ∧
        reused2.base = reused.base + names.flatten.length ∧
        names.flatten.Nodup) ∧
    (∀ (h : Host) (Ref : String → String → Option Object) (fmt : Object → String)
      (conf : Config) (file1 file2 : List NameCall) (name : String) (reused : Reused)
      (pkg : gox.Package) (fs : FS) (names : List (List String)) (reused2 : Reused),
      NameCall.autoStaticName name ∈ file1 → NameCall.autoStaticName name ∈ file2 →
      sessionFiles h Ref fmt MangledName conf reused pkg fs [file1, file2] =
        .ok (names, reused2) →
        ∃ names1 names2 k1 k2, names = [names1, names2] ∧
          name ++ "_cgo" ++ Itoa k1 ∈ names1 ∧ name ++ "_cgo" ++ Itoa k2 ∈ names2 ∧
          name ++ "_cgo" ++ Itoa k1 ≠ name ++ "_cgo" ++ Itoa k2) ∧
    (∀ (h : Host) (Ref : String → String → Option Object) (fmt : Object → String)
      (conf : Config) (files : List (List NameCall)) (reused : Reused) (pkg : gox.Package)
      (fs : FS), reused.pkg.pi.isSome = true →
        ∃ res, sessionFiles h Ref fmt MangledName conf reused pkg fs files = .ok res) ∧
    (∀ (base : Nat) (calls : List (blockCtx × NameCall)),
      (nameCalls MangledName base calls).2 =
        base + (nameCalls MangledName base calls).1.length ∧
      (nameCalls MangledName base calls).1.Nodup) := by
  refine ⟨?_, ?_, ?_, ?_, ?_, ?_, ?_, ?_⟩
  · intro p v tag h
    simp [getSuName, h]
  · intro p v tag h
    simp [getSuName, h]
  · intro p name
    rfl
  · intro h Ref fmt p pkg conf fs reused m pkg1 r fs1 hre hrun
    obtain ⟨hm, _, reused1, hs, hb, _⟩ :=
      initMultiFileCtl_base h Ref fmt p pkg conf fs reused m pkg1 r fs1 hre hrun
    exact ⟨hm, reused1, hs, hb⟩
  · intro h Ref fmt conf files reused pkg fs names reused2 hrun
    obtain ⟨hlen, hbase, _⟩ :=
      sessionFiles_counters h Ref fmt MangledName conf files reused pkg fs names reused2 hrun
    exact ⟨hlen, hbase,
      sessionFiles_nodup h Ref fmt MangledName conf files reused pkg fs names reused2 hrun⟩
  · intro h Ref fmt conf file1 file2 name reused pkg fs names reused2 h1 h2 hrun
    have hnd := sessionFiles_nodup h Ref fmt MangledName conf _ reused pkg fs names reused2 hrun
    have hf := sessionFiles_names h Ref fmt MangledName conf _ reused pkg fs names reused2 hrun
    cases hf with
    | cons hhead htail =>
      cases htail with
      | cons hhead2 htail2 =>
        cases htail2
        obtain ⟨p1, e1⟩ := hhead
        obtain ⟨p2, e2⟩ := hhead2
        obtain ⟨k1, hk1⟩ := ctxNameCalls_static MangledName name file1 p1 h1
        obtain ⟨k2, hk2⟩ := ctxNameCalls_static MangledName name file2 p2 h2
        rw [← e1] at hk1
        rw [← e2] at hk2
        refine ⟨_, _, k1, k2, rfl, hk1, hk2, ?_⟩
        intro heq
        simp only [List.flatten_cons, List.flatten_nil, List.append_nil] at hnd
        have hdis := (List.nodup_append.mp hnd).2.2
        exact hdis hk1 (heq ▸ hk2)
  · intro h Ref fmt conf files reused pkg fs hpi
    exact sessionFiles_total h Ref fmt MangledName conf files reused pkg fs hpi
  · intro base calls
    exact ⟨(nameCalls_counters MangledName calls base).1, nameCalls_nodup MangledName calls base⟩

end C2go
